import Mathlib

/-!
# gfx bitmap: packed, bit-addressable bitmaps and the copy engine

A shallow embedding of `lib/gfx/src/gfx_bitmap.hpp`, and of the native size and
`dimensions()` of the ST7735 driver, `src/arduino/drivers/st7735.hpp`.

Conventions of the embedding
* A byte buffer is seen as its stream of bits, most significant bit of byte 0
  first: bit `8*j + k` of a `Mem` is bit `7-k` of byte `j`.  A pointer into a
  buffer is a byte index; `begin()+n` is the byte index `n`.
* A pixel is its `native_value`, a natural number.
* The point read, the point write and the per-pixel copy between bitmaps are given
  twice.  The forms `point_impl`, `point_read`, `point` and `helpers.copy_to` compute
  offsets in `Nat` and do not bound the byte window `tmp`: they are the functions on
  the range where the `int` index and the `size_t` offset of the source do not wrap
  and every access is inside its array.  The forms `point_impl_word`,
  `point_read_word`, `point_word` and `helpers.copy_to_word` are at the machine level:
  a 32-bit `int`, a `size_t` of `size_bits` bits, a buffer of `size` bytes and a
  window of its declared length; they have no result (`none`) when a statement
  accesses a byte outside its array.
* 16-bit coordinates wrap explicitly (`u16`).
* A stateful member function takes the buffer contents and returns the new
  contents next to its `gfx_result`.
-/

namespace gfx

/-- Result codes of the library (`gfx_result`). -/
inductive gfx_result where
  | success
  | out_of_memory
  | invalid_argument
  | invalid_format
  | not_supported
  | device_error
  deriving DecidableEq, Repr

/-- Truncation of an integer to `uint16_t`. -/
def u16 (n : Nat) : Nat := n % 65536

/-- A location with 16-bit coordinates (`point16`). -/
structure point16 where
  x : Nat
  y : Nat
  deriving DecidableEq, Repr

/-- Construction of a `point16` from `int` operands, as in `point16(sox+dx,soy+dy)`. -/
def point16.of_int (x y : Nat) : point16 := ⟨u16 x, u16 y⟩

/-- A size with 16-bit extents (`size16`). -/
structure size16 where
  width : Nat
  height : Nat
  deriving DecidableEq, Repr

/-- A rectangle given by two inclusive corners (`rect16`). -/
structure rect16 where
  x1 : Nat
  y1 : Nat
  x2 : Nat
  y2 : Nat
  deriving DecidableEq, Repr

namespace rect16

/-- Modelled from the spec: `rect16(location, size)` of gfx_positioning.hpp, which is
not among the sources: the rectangle with the given top-left corner and extent, the
far corner computed in 16-bit arithmetic (`location.x + size.width - 1`). -/
def of_location (l : point16) (s : size16) : rect16 :=
  ⟨l.x, l.y, u16 (l.x + s.width + 65535), u16 (l.y + s.height + 65535)⟩

/-- Modelled from the spec: `rect16::left()` of gfx_positioning.hpp: the smaller
x coordinate. -/
def left (r : rect16) : Nat := if r.x1 ≤ r.x2 then r.x1 else r.x2

/-- Modelled from the spec: `rect16::right()` of gfx_positioning.hpp: the larger
x coordinate. -/
def right (r : rect16) : Nat := if r.x1 ≤ r.x2 then r.x2 else r.x1

/-- Modelled from the spec: `rect16::top()` of gfx_positioning.hpp: the smaller
y coordinate. -/
def top (r : rect16) : Nat := if r.y1 ≤ r.y2 then r.y1 else r.y2

/-- Modelled from the spec: `rect16::bottom()` of gfx_positioning.hpp: the larger
y coordinate. -/
def bottom (r : rect16) : Nat := if r.y1 ≤ r.y2 then r.y2 else r.y1

/-- Modelled from the spec: `rect16::width()` of gfx_positioning.hpp: the number of
columns between the inclusive corners, a 16-bit value. -/
def width (r : rect16) : Nat := u16 (r.right - r.left + 1)

/-- Modelled from the spec: `rect16::height()` of gfx_positioning.hpp: the number of
rows between the inclusive corners, a 16-bit value. -/
def height (r : rect16) : Nat := u16 (r.bottom - r.top + 1)

/-- Modelled from the spec: `rect16::location()` of gfx_positioning.hpp: the
top-left corner. -/
def location (r : rect16) : point16 := ⟨r.left, r.top⟩

/-- Modelled from the spec: `rect16::dimensions()` of gfx_positioning.hpp. -/
def dimensions (r : rect16) : size16 := ⟨r.width, r.height⟩

/-- Modelled from the spec: `rect16::normalize()` of gfx_positioning.hpp: the same
rectangle with `x1 <= x2` and `y1 <= y2`. -/
def normalize (r : rect16) : rect16 := ⟨r.left, r.top, r.right, r.bottom⟩

/-- Modelled from the spec: `rect16::intersects(rect)` of gfx_positioning.hpp: the
two rectangles share at least one location. -/
def intersects (r s : rect16) : Bool :=
  decide (r.left ≤ s.right ∧ s.left ≤ r.right ∧ r.top ≤ s.bottom ∧ s.top ≤ r.bottom)

/-- Modelled from the spec: `rect16::crop(bounds)` of gfx_positioning.hpp: each
coordinate clamped to `bounds`, the orientation of the corners kept. -/
def crop (r bounds : rect16) : rect16 :=
  let cx (v : Nat) : Nat := max bounds.left (min v bounds.right)
  let cy (v : Nat) : Nat := max bounds.top (min v bounds.bottom)
  ⟨cx r.x1, cy r.y1, cx r.x2, cy r.y2⟩

end rect16

/-- The bounding rectangle of a size, starting at (0,0) (`size16::bounds()`,
`rect16(point16(0,0),dimensions())`). -/
def size16.bounds (s : size16) : rect16 := rect16.of_location ⟨0, 0⟩ s

/-- The contents of a byte buffer as a stream of bits: bit `8*j + k` is bit `7-k`
of byte `j`. -/
abbrev Mem := Nat → Bool

namespace bits

/-- The contents of a local array before anything is stored in it.  The source leaves
them unspecified; the embedding takes zero bits. -/
def uninit : Mem := fun _ => false

/-- Byte `j` of a buffer. -/
def byte_at (m : Mem) (j : Nat) : Nat :=
  (List.range 8).foldl (fun acc k => 2 * acc + (m (8 * j + k)).toNat) 0

/-- The buffer holding the given bytes, zero beyond them. -/
def of_bytes (bytes : List Nat) : Mem :=
  fun i => (bytes.getD (i / 8) 0).testBit (7 - i % 8)

/-- The first `n` bytes of a buffer. -/
def to_bytes (m : Mem) (n : Nat) : List Nat := (List.range n).map (byte_at m)

/-- The library call `memcpy(dst + d, src + s, n)` on byte indices. -/
def memcpy (dst : Mem) (d : Nat) (src : Mem) (s : Nat) (n : Nat) : Mem :=
  fun i => if 8 * d ≤ i ∧ i < 8 * (d + n) then src (i - 8 * d + 8 * s) else dst i

/-- The library call `memset(dst + d, 0, n)` on byte indices. -/
def memset_zero (dst : Mem) (d : Nat) (n : Nat) : Mem :=
  fun i => if 8 * d ≤ i ∧ i < 8 * (d + n) then false else dst i

/-- Modelled from the spec: `bits::shift_left(bits, offset_bits, size_bits, shift)` of
the bits helpers, which are not among the sources: within the bit range
`[offset_bits, offset_bits + size_bits)` every bit moves `shift` places toward the
start of the buffer, zero bits enter at the end of the range, and bits outside the
range keep their value. -/
def shift_left (m : Mem) (offset_bits size_bits shift : Nat) : Mem :=
  fun i =>
    if offset_bits ≤ i ∧ i < offset_bits + size_bits then
      if i + shift < offset_bits + size_bits then m (i + shift) else false
    else m i

/-- Modelled from the spec: `bits::shift_right(bits, offset_bits, size_bits, shift)` of
the bits helpers, which are not among the sources: within the bit range
`[offset_bits, offset_bits + size_bits)` every bit moves `shift` places toward the
end of the buffer, zero bits enter at the start of the range, and bits outside the
range keep their value. -/
def shift_right (m : Mem) (offset_bits size_bits shift : Nat) : Mem :=
  fun i =>
    if offset_bits ≤ i ∧ i < offset_bits + size_bits then
      if offset_bits + shift ≤ i then m (i - shift) else false
    else m i

/-- Modelled from the spec: `bits::set_bits(offset_bits, size_bits, dst, src)` of the
bits helpers, which are not among the sources: the merge primitive.  The bits
`[offset_bits, offset_bits + size_bits)` counted from the byte `dst` are replaced by the
bits at the same offsets of `src`; every other bit of the destination is preserved. -/
def set_bits (offset_bits size_bits : Nat) (mem : Mem) (dst : Nat) (src : Mem) : Mem :=
  fun i =>
    if 8 * dst + offset_bits ≤ i ∧ i < 8 * dst + offset_bits + size_bits then
      src (i - 8 * dst)
    else mem i

/-- Modelled from the spec: `bits::set_bits(dst, offset_bits, size_bits, value)` of the
bits helpers, which are not among the sources: the whole-range bit set.  The bits
`[offset_bits, offset_bits + size_bits)` counted from the byte `dst` all become
`value`; every other bit is preserved. -/
def set_bits_value (mem : Mem) (dst : Nat) (offset_bits size_bits : Nat) (value : Bool) : Mem :=
  fun i =>
    if 8 * dst + offset_bits ≤ i ∧ i < 8 * dst + offset_bits + size_bits then value
    else mem i

/-- The number whose big-endian binary digits are the first `n` bits of a buffer. -/
def bits_value (m : Mem) : Nat → Nat
  | 0 => 0
  | n + 1 => 2 * bits_value m n + (m n).toNat

/-- Modelled from the spec: the store `*((int_type*)tmp) = rhs.value()`, where `value()`
is `helpers::order_guard(native_value)` of gfx_pixel.hpp, not among the sources: the
pixel value in big-endian form.  The `int_bytes` bytes at the start of `tmp` become the
bytes of `v`, most significant byte first. -/
def store_value (int_bytes : Nat) (v : Nat) (tmp : Mem) : Mem :=
  fun i => if i < 8 * int_bytes then v.testBit (8 * int_bytes - 1 - i) else tmp i

/-- Modelled from the spec: the load `r = 0; memcpy(&r, tmp, packed_size);
r = helpers::order_guard(r)` (order_guard is not among the sources: it corrects for the
storage byte order): the `int_bytes`-byte integer whose most significant `packed_size`
bytes are the first bytes of `tmp` and whose other bytes are zero. -/
def load_value (int_bytes packed_size : Nat) (tmp : Mem) : Nat :=
  bits_value tmp (8 * packed_size) <<< (8 * int_bytes - 8 * packed_size)

end bits

/-- Modelled from the spec: the pixel format descriptor of gfx_pixel.hpp, which is not
among the sources.  A format is given by its bit depth, by whether it has an alpha
channel and where that channel lies in the native value, and by its compositing
conversion `convert(source, &result, &background)` (`none` when it returns false). -/
structure pixel_format where
  bit_depth : Nat
  has_alpha : Bool
  alpha_bits : Nat
  alpha_shift : Nat
  convert_bg : Nat → Nat → Option Nat

namespace pixel_format

/-- Modelled from the spec: `sizeof(int_type)` of gfx_pixel.hpp: the machine word, of 1,
2, 4 or 8 bytes, just large enough for the bit depth. -/
def int_bytes (F : pixel_format) : Nat :=
  if F.bit_depth ≤ 8 then 1 else if F.bit_depth ≤ 16 then 2 else if F.bit_depth ≤ 32 then 4 else 8

/-- Modelled from the spec: `packed_size` of gfx_pixel.hpp: the least number of bytes
that hold one pixel. -/
def packed_size (F : pixel_format) : Nat := (F.bit_depth + 7) / 8

/-- Modelled from the spec: `byte_aligned` of gfx_pixel.hpp: the bit depth is a whole
number of bytes. -/
def byte_aligned (F : pixel_format) : Bool := F.bit_depth % 8 == 0

/-- Modelled from the spec: `total_size_bits` of gfx_pixel.hpp: the width of `int_type`. -/
def total_size_bits (F : pixel_format) : Nat := 8 * F.int_bytes

/-- Modelled from the spec: `pad_right_bits` of gfx_pixel.hpp: the trailing pad bits, the
unused bits to the right of the significant bits in `int_type`. -/
def pad_right_bits (F : pixel_format) : Nat := F.total_size_bits - F.bit_depth

/-- Modelled from the spec: `mask` of gfx_pixel.hpp: the significant-bit mask,
`int_type(~int_type(0) << pad_right_bits)`.  The point read of the source leaves the
pixel in the most significant bytes of `int_type`, so the significant bits are the
leading ones. -/
def mask (F : pixel_format) : Nat :=
  ((2 ^ F.total_size_bits - 1) <<< F.pad_right_bits) % 2 ^ F.total_size_bits

/-- Modelled from the spec: `pach::max` of gfx_pixel.hpp: the largest alpha value. -/
def alpha_max (F : pixel_format) : Nat := 2 ^ F.alpha_bits - 1

/-- Modelled from the spec: `pixel.channel_unchecked<chi>()` of gfx_pixel.hpp for the
alpha channel. -/
def alpha (F : pixel_format) (pixel : Nat) : Nat := (pixel >>> F.alpha_shift) % 2 ^ F.alpha_bits

end pixel_format

/-- The class `bitmap<PixelType>`: its dimensions and the pointer to its buffer
(0 is `nullptr`).  The contents of the buffer are passed to each operation. -/
structure bitmap where
  m_dimensions : size16
  m_begin : Nat
  deriving DecidableEq, Repr

namespace bitmap

/-- The member function `dimensions()`. -/
def dimensions (b : bitmap) : size16 := b.m_dimensions

/-- The member function `bounds()`. -/
def bounds (b : bitmap) : rect16 := rect16.of_location ⟨0, 0⟩ b.dimensions

/-- The member function `initialized()`. -/
def initialized (b : bitmap) : Bool := b.m_begin != 0

/-- The member function `size_pixels()`. -/
def size_pixels (b : bitmap) : Nat := b.m_dimensions.height * b.m_dimensions.width

/-- The member function `size_bytes()`. -/
def size_bytes (F : pixel_format) (b : bitmap) : Nat := b.size_pixels * ((F.bit_depth + 7) / 8)

/-- The static member function `sizeof_buffer(size)`. -/
def sizeof_buffer (F : pixel_format) (size : size16) : Nat :=
  (size.width * size.height * F.bit_depth + 7) / 8

/-- The declared length of the byte window `tmp` of the point read and of `point_impl`:
`packed_size + (pad_right_bits <= offs_bits)`. -/
def window_size (F : pixel_format) (offs_bits : Nat) : Nat :=
  F.packed_size + (if F.pad_right_bits ≤ offs_bits then 1 else 0)

/-- The private member function `point_impl(location, rhs)`: the store of one pixel,
over exact offsets.  The index is formed in `Nat` and the window `tmp` is not bounded;
`point_impl_word` is the form with the machine arithmetic and the lengths of the
arrays. -/
def point_impl (F : pixel_format) (b : bitmap) (mem : Mem) (location : point16) (rhs : Nat) :
    gfx_result × Mem :=
  if b.m_begin = 0 then (gfx_result.out_of_memory, mem)
  else
    let bit_depth := F.bit_depth
    let offs := (location.y * b.dimensions.width + location.x) * bit_depth
    let offs_bits := offs % 8
    let tmp := bits.store_value F.int_bytes rhs bits.uninit
    let tmp := bits.shift_right tmp 0 (F.bit_depth + offs_bits) offs_bits
    (gfx_result.success, bits.set_bits offs_bits F.bit_depth mem (offs / 8) tmp)

/-- The member function `point(location, out_pixel)`: the point read, over exact
offsets.  `out_pixel` is `none` for a null pointer and else holds the pixel it points
to; the second component of the result is that pixel afterwards.  The index is formed in
`Nat` and neither the window `tmp` nor the buffer is bounded; `point_read_word` is the
form with the machine arithmetic and the lengths of the arrays. -/
def point_read (F : pixel_format) (b : bitmap) (mem : Mem) (location : point16)
    (out_pixel : Option Nat) : gfx_result × Option Nat :=
  if b.m_begin = 0 then (gfx_result.out_of_memory, out_pixel)
  else match out_pixel with
    | none => (gfx_result.invalid_argument, none)
    | some _ =>
      if location.x ≥ b.dimensions.width ∨ location.y ≥ b.dimensions.height then
        (gfx_result.success, some 0)
      else
        let bit_depth := F.bit_depth
        let offs := (location.y * b.dimensions.width + location.x) * bit_depth
        let offs_bits := offs % 8
        let n := window_size F offs_bits
        let tmp := bits.memset_zero bits.uninit F.packed_size 1
        let tmp := bits.memcpy tmp 0 mem (offs / 8) n
        let tmp := if 0 < offs_bits then bits.shift_left tmp 0 (n * 8) offs_bits else tmp
        let r := bits.load_value F.int_bytes F.packed_size tmp
        let r := r &&& F.mask
        (gfx_result.success, some r)

/-- The member function `point(location, rhs)`: the point write, over exact offsets;
`point_word` is the form at the machine level. -/
def point (F : pixel_format) (b : bitmap) (mem : Mem) (location : point16) (rhs : Nat) :
    gfx_result × Mem :=
  if b.m_begin = 0 then (gfx_result.out_of_memory, mem)
  else if location.x ≥ b.dimensions.width ∨ location.y ≥ b.dimensions.height then
    (gfx_result.success, mem)
  else if F.has_alpha then
    match point_read F b mem location (some 0) with
    | (gfx_result.success, bgpx) =>
      match F.convert_bg rhs (bgpx.getD 0) with
      | none => (gfx_result.not_supported, mem)
      | some rhs2 => point_impl F b mem location rhs2
    | (r, _) => (r, mem)
  else point_impl F b mem location rhs


end bitmap

/-- The sequencing of a loop whose body can fail: the body runs for each index in turn
and the first result other than success ends the loop and is returned. -/
def for_each {σ : Type} : List Nat → (Nat → σ → gfx_result × σ) → σ → gfx_result × σ
  | [], _, s => (gfx_result.success, s)
  | i :: rest, body, s =>
    match body i s with
    | (gfx_result.success, s2) => for_each rest body s2
    | (r, s2) => (r, s2)

namespace bitmap

/-- The member function `clear(dst)`. -/
def clear (F : pixel_format) (b : bitmap) (mem : Mem) (dst : rect16) : gfx_result × Mem :=
  if b.m_begin = 0 then (gfx_result.out_of_memory, mem)
  else if !dst.intersects b.bounds then (gfx_result.success, mem)
  else
    let dstr := dst.crop b.bounds
    let dye := dstr.height
    if F.byte_aligned then
      let line_len := dstr.width * F.packed_size
      (gfx_result.success,
        (List.range dye).foldl (fun m dy =>
          let pdst := ((dstr.top + dy) * b.dimensions.width + dstr.left) * F.packed_size
          bits.memset_zero m pdst line_len) mem)
    else
      let line_len_bits := dstr.width * F.bit_depth
      (gfx_result.success,
        (List.range dye).foldl (fun m dy =>
          let offs := ((dstr.top + dy) * b.dimensions.width + dstr.left) * F.bit_depth
          let offs_bytes := offs / 8
          let offs_bits := offs % 8
          bits.set_bits_value m offs_bytes offs_bits line_len_bits false) mem)

/-- The slow path of `fill` for a format with an alpha channel and a fill color that is
not opaque: every location of the normalized rect is read, composited and stored with
`point_impl`.  The 16-bit loop counters of the source never pass 65535; the embedding
runs over the rows `y1..y2` and columns `x1..x2` once. -/
def fill_alpha (F : pixel_format) (b : bitmap) (mem : Mem) (dst : rect16) (pixel : Nat) :
    gfx_result × Mem :=
  let rc := dst.normalize
  for_each (List.range (rc.y2 + 1 - rc.y1)) (fun j m1 =>
    for_each (List.range (rc.x2 + 1 - rc.x1)) (fun i m =>
      let pt : point16 := ⟨rc.x1 + i, rc.y1 + j⟩
      match point_read F b m pt (some 0) with
      | (gfx_result.success, bgpx) =>
        match F.convert_bg pixel (bgpx.getD 0) with
        | none => (gfx_result.not_supported, m)
        | some dpx => point_impl F b m pt dpx
      | (r, _) => (r, m)) m1) mem

/-- The byte-aligned branch of `fill`: the packed value repeated over every row.  The
inner loop of the source advances `x` by `packed_size` up to `line_len`, one step per
pixel of the row. -/
def fill_aligned (F : pixel_format) (b : bitmap) (mem : Mem) (dstr : rect16) (pixel : Nat) : Mem :=
  let be_val := bits.store_value F.int_bytes pixel bits.uninit
  (List.range dstr.height).foldl (fun m1 dy =>
    let pdst := ((dstr.top + dy) * b.dimensions.width + dstr.left) * F.packed_size
    (List.range dstr.width).foldl (fun m k =>
      bits.memcpy m (pdst + k * F.packed_size) be_val 0 F.packed_size) m1) mem

/-- The state of the unaligned branch of `fill`: the buffer, the scratch template `buf`
and `old_offs_bits`. -/
structure fill_state where
  mem : Mem
  buf : Mem
  old_offs_bits : Nat

/-- The unaligned branch of `fill` for a bit depth other than 1. -/
def fill_unaligned (F : pixel_format) (b : bitmap) (mem : Mem) (dstr : rect16) (pixel : Nat) : Mem :=
  let be_val := bits.store_value F.int_bytes pixel bits.uninit
  let st0 : fill_state := ⟨mem, bits.uninit, 9⟩
  ((List.range dstr.height).foldl (fun st1 dy =>
    (List.range (dstr.right + 1 - dstr.left)).foldl (fun st k =>
      let dx := dstr.left + k
      let offs := ((dstr.top + dy) * b.dimensions.width + dx) * F.bit_depth
      let offs_bits := offs % 8
      let buf :=
        if offs_bits ≠ st.old_offs_bits then
          let buf1 := bits.memcpy st.buf 0 be_val 0 F.packed_size
          let buf2 := bits.memset_zero buf1 F.packed_size 1
          if offs_bits ≠ 0 then bits.shift_right buf2 0 ((F.packed_size + 1) * 8) offs_bits
          else buf2
        else st.buf
      let offs_bytes := offs / 8
      ⟨bits.set_bits offs_bits F.bit_depth st.mem offs_bytes buf, buf, offs_bits⟩) st1) st0).mem

/-- The monochrome branch of `fill`. -/
def fill_mono (F : pixel_format) (b : bitmap) (mem : Mem) (dstr : rect16) (pixel : Nat) : Mem :=
  let line_len_bits := dstr.width * F.bit_depth
  let set := decide (0 ≠ pixel)
  (List.range dstr.height).foldl (fun m dy =>
    let offs := (dstr.top + dy) * b.dimensions.width + dstr.left * F.bit_depth
    bits.set_bits_value m (offs / 8) (offs % 8) line_len_bits set) mem

/-- The member function `fill(dst, pixel)`. -/
def fill (F : pixel_format) (b : bitmap) (mem : Mem) (dst : rect16) (pixel : Nat) :
    gfx_result × Mem :=
  if !dst.intersects b.bounds then (gfx_result.success, mem)
  else if F.has_alpha && F.alpha_max != F.alpha pixel then fill_alpha F b mem dst pixel
  else if b.m_begin = 0 then (gfx_result.out_of_memory, mem)
  else
    let dstr := dst.crop b.bounds
    if F.byte_aligned then (gfx_result.success, fill_aligned F b mem dstr pixel)
    else if F.bit_depth ≠ 1 then (gfx_result.success, fill_unaligned F b mem dstr pixel)
    else (gfx_result.success, fill_mono F b mem dstr pixel)

end bitmap

/-- The capability contract of a copy destination with state `σ`: the flags
`caps::suspend` and `caps::batch` and the member functions the copy helper calls. -/
structure destination (σ : Type) where
  caps_suspend : Bool
  caps_batch : Bool
  suspend : σ → gfx_result × σ
  resume : σ → gfx_result × σ
  begin_batch : rect16 → σ → gfx_result × σ
  write_batch : Nat → σ → gfx_result × σ
  commit_batch : σ → gfx_result × σ
  point : point16 → Nat → σ → gfx_result × σ
  point_read : point16 → σ → gfx_result × Nat × σ

/-- A bitmap as a copy destination: `bitmap::caps` has neither suspend nor batch. -/
def bitmap.as_destination (F : pixel_format) (b : bitmap) : destination Mem where
  caps_suspend := false
  caps_batch := false
  suspend := fun m => (gfx_result.success, m)
  resume := fun m => (gfx_result.success, m)
  begin_batch := fun _ m => (gfx_result.success, m)
  write_batch := fun _ m => (gfx_result.success, m)
  commit_batch := fun m => (gfx_result.success, m)
  point := fun location color m => b.point F m location color
  point_read := fun location m =>
    ((b.point_read F m location (some 0)).1, ((b.point_read F m location (some 0)).2).getD 0, m)

namespace helpers

/-- The helper `suspend_helper<Destination,Suspend>::suspend`. -/
def suspend {σ : Type} (dst : destination σ) (s : σ) : gfx_result × σ :=
  if dst.caps_suspend then dst.suspend s else (gfx_result.success, s)

/-- The helper `suspend_helper<Destination,Suspend>::resume`. -/
def resume {σ : Type} (dst : destination σ) (s : σ) : gfx_result × σ :=
  if dst.caps_suspend then dst.resume s else (gfx_result.success, s)

/-- The helper `batch_helper<Destination,Batch>::begin_batch`. -/
def begin_batch {σ : Type} (dst : destination σ) (rect : rect16) (s : σ) : gfx_result × σ :=
  if dst.caps_batch then dst.begin_batch rect s else (gfx_result.success, s)

/-- The helper `batch_helper<Destination,Batch>::write_batch`. -/
def write_batch {σ : Type} (dst : destination σ) (location : point16) (color : Nat) (s : σ) :
    gfx_result × σ :=
  if dst.caps_batch then dst.write_batch color s else dst.point location color s

/-- The helper `batch_helper<Destination,Batch>::commit_batch`. -/
def commit_batch {σ : Type} (dst : destination σ) (s : σ) : gfx_result × σ :=
  if dst.caps_batch then dst.commit_batch s else (gfx_result.success, s)

/-- The body of the inner loop of the generic `bmp_copy_to_helper::copy_to` for the
pixel at offset `(dx, dy)` of the rects.  `convert` is the conversion from the source to
the destination format and `convert_bg` the compositing one (`none` when they return
false). -/
def copy_pixel {σ : Type} (S : pixel_format) (convert : Nat → Option Nat)
    (convert_bg : Nat → Nat → Option Nat) (src : bitmap) (smem : Mem) (srcr : rect16)
    (dst : destination σ) (dstr : rect16) (dy dx : Nat) (s : σ) : gfx_result × σ :=
  let sox := srcr.left
  let soy := srcr.top
  let dox := dstr.left
  let doy := dstr.top
  match src.point_read S smem (point16.of_int (sox + dx) (soy + dy)) (some 0) with
  | (gfx_result.success, spx) =>
    if S.has_alpha then
      match dst.point_read (point16.of_int (dox + dx) (doy + dy)) s with
      | (gfx_result.success, bgpx, s1) =>
        match convert_bg (spx.getD 0) bgpx with
        | none => (gfx_result.not_supported, s1)
        | some dpx => write_batch dst (point16.of_int (dox + dx) (doy + dy)) dpx s1
      | (r, _, s1) => (r, s1)
    else
      match convert (spx.getD 0) with
      | none => (gfx_result.invalid_format, s)
      | some dpx => write_batch dst (point16.of_int (dox + dx) (doy + dy)) dpx s
  | (r, _) => (r, s)

/-- The generic `bmp_copy_to_helper<Source,Destination,AllowBlt>::copy_to`: the per-pixel
copy. -/
def copy_to {σ : Type} (S : pixel_format) (convert : Nat → Option Nat)
    (convert_bg : Nat → Nat → Option Nat) (src : bitmap) (smem : Mem) (srcr : rect16)
    (dst : destination σ) (s : σ) (dstr : rect16) : gfx_result × σ :=
  let dye := dstr.height
  let dxe := dstr.width
  match suspend dst s with
  | (gfx_result.success, s1) =>
    match begin_batch dst dstr s1 with
    | (gfx_result.success, s2) =>
      match for_each (List.range dye) (fun dy t =>
          for_each (List.range dxe)
            (copy_pixel S convert convert_bg src smem srcr dst dstr dy) t) s2 with
      | (gfx_result.success, s3) =>
        match commit_batch dst s3 with
        | (gfx_result.success, s4) => resume dst s4
        | (r, s4) => (r, s4)
      | (r, s3) => (r, s3)
    | (r, s2) => (r, s2)
  | (r, s1) => (r, s1)

/-- The state of the unaligned branch of the raw blit: the destination buffer and the
scratch buffer `buf`. -/
structure blt_state where
  mem : Mem
  buf : Mem

/-- The inner loop `while(dx<dxe)` of the unaligned branch of the raw blit, for the row
`dy`.  Every pass advances `dx` by at least one pixel or leaves the loop, so `fuel = dxe`
passes are enough. -/
def blt_row (F : pixel_format) (src : bitmap) (smem : Mem) (srcr : rect16) (dst : bitmap)
    (dstr : rect16) (line_block_pels buf_size dy : Nat) : Nat → Nat → blt_state → blt_state
  | 0, _, st => st
  | fuel + 1, dx, st =>
    if dx < dstr.width then
      let src_offs := ((srcr.top + dy) * src.dimensions.width + srcr.left + dx) * F.bit_depth
      let dpx := (dstr.top + dy) * dst.dimensions.width + dstr.left + dx
      let dst_offs := dpx * F.bit_depth
      let src_offs_bits := src_offs % 8
      let dst_offs_bits := dst_offs % 8
      let psrc := src_offs / 8
      let pdst := dst_offs / 8
      let block_pels :=
        if line_block_pels + dx > dstr.width then dstr.width - dx else line_block_pels
      if block_pels = 0 then st
      else
        let block_bytes := (block_pels * F.bit_depth + 7) / 8
        let block_bits := block_pels * F.bit_depth
        let buf1 := bits.memcpy st.buf 0 smem psrc
          (block_bytes + (if dpx + block_pels ≤ dst.size_pixels then 1 else 0))
        let buf2 :=
          if src_offs_bits < dst_offs_bits then
            bits.shift_right buf1 0 (buf_size * 8) (dst_offs_bits - src_offs_bits)
          else if dst_offs_bits < src_offs_bits then
            bits.shift_left buf1 0 (buf_size * 8) (src_offs_bits - dst_offs_bits)
          else buf1
        blt_row F src smem srcr dst dstr line_block_pels buf_size dy fuel (dx + block_pels)
          ⟨bits.set_bits dst_offs_bits block_bits st.mem pdst buf2, buf2⟩
    else st

/-- The raw blit `bmp_copy_to_helper<Source,Source,true>::copy_to` between two bitmaps of
one format.  The scratch buffer `buf` is declared with `buf_size` bytes; bytes the source
stores past that length land in the bytes that follow it. -/
def copy_to_blt (F : pixel_format) (src : bitmap) (smem : Mem) (srcr : rect16) (dst : bitmap)
    (dmem : Mem) (dstr : rect16) : gfx_result × Mem :=
  let dye := dstr.height
  let dxe := dstr.width
  if F.byte_aligned then
    let line_len := dstr.width * F.packed_size
    (gfx_result.success,
      (List.range dye).foldl (fun m dy =>
        let psrc := ((srcr.top + dy) * src.dimensions.width + srcr.left) * F.packed_size
        let pdst := ((dstr.top + dy) * dst.dimensions.width + dstr.left) * F.packed_size
        bits.memcpy m pdst smem psrc line_len) dmem)
  else
    let line_len_bits := dstr.width * F.bit_depth
    let line_block_pels := if line_len_bits > 128 * 8 then (128 * 8) / F.bit_depth else dstr.width
    let line_block_bits := line_block_pels * F.bit_depth
    let buf_size := (line_block_bits + 7) / 8
    let buf := bits.memset_zero bits.uninit (buf_size - 1) 1
    (gfx_result.success,
      ((List.range dye).foldl (fun st dy =>
        blt_row F src smem srcr dst dstr line_block_pels buf_size dy dxe 0 st) ⟨dmem, buf⟩).mem)

end helpers

namespace bitmap

/-- The rect of the source that `copy_to` hands to the copy helper. -/
def copy_srcr (src : bitmap) (src_rect : rect16) (dst : bitmap) (location : point16) : rect16 :=
  let srcr := src_rect.crop src.bounds
  let dstr := (rect16.of_location location srcr.dimensions).crop dst.bounds
  rect16.of_location srcr.location dstr.dimensions

/-- The rect of the destination that `copy_to` hands to the copy helper. -/
def copy_dstr (src : bitmap) (src_rect : rect16) (dst : bitmap) (location : point16) : rect16 :=
  let srcr := src_rect.crop src.bounds
  (rect16.of_location location srcr.dimensions).crop dst.bounds

/-- The member function `copy_to(src_rect, dst, location)` for a destination bitmap of
the same pixel format: the raw blit when the format has no alpha channel, the per-pixel
copy otherwise.  `convert` is the conversion of the format to itself. -/
def copy_to (F : pixel_format) (convert : Nat → Option Nat) (src : bitmap) (smem : Mem)
    (src_rect : rect16) (dst : bitmap) (dmem : Mem) (location : point16) : gfx_result × Mem :=
  if src.m_begin = 0 ∨ dst.m_begin = 0 then (gfx_result.out_of_memory, dmem)
  else if !src_rect.intersects src.bounds then (gfx_result.success, dmem)
  else
    let srcr := copy_srcr src src_rect dst location
    let dstr := copy_dstr src src_rect dst location
    if !F.has_alpha then helpers.copy_to_blt F src smem srcr dst dmem dstr
    else helpers.copy_to F convert F.convert_bg src smem srcr (dst.as_destination F) dmem dstr

/-- The member function `copy_to(src_rect, dst, location)` for a destination bitmap of
another pixel format `D`: always the per-pixel copy. -/
def copy_to_format (S D : pixel_format) (convert : Nat → Option Nat)
    (convert_bg : Nat → Nat → Option Nat) (src : bitmap) (smem : Mem)
    (src_rect : rect16) (dst : bitmap) (dmem : Mem) (location : point16) : gfx_result × Mem :=
  if src.m_begin = 0 ∨ dst.m_begin = 0 then (gfx_result.out_of_memory, dmem)
  else if !src_rect.intersects src.bounds then (gfx_result.success, dmem)
  else
    let srcr := copy_srcr src src_rect dst location
    let dstr := copy_dstr src src_rect dst location
    helpers.copy_to S convert convert_bg src smem srcr (dst.as_destination D) dmem dstr

end bitmap

/-- The class `large_bitmap<PixelType>`: dimensions, segment height and the segment
array (`none` is `nullptr`).  The contents of the buffer of segment `i` are passed to
each operation as `segs i`. -/
structure large_bitmap where
  m_dimensions : size16
  m_segment_height : Nat
  m_segments : Option (List bitmap)

namespace large_bitmap

/-- The member function `initialized()`. -/
def initialized (l : large_bitmap) : Bool := l.m_segments.isSome

/-- The element `m_segments[i]`; past the end of the array the embedding takes a bitmap
without a buffer. -/
def segment (segments : List bitmap) (i : Nat) : bitmap := segments.getD i ⟨⟨0, 0⟩, 0⟩

/-- The member function `point(location, color)`: the point write. -/
def point (F : pixel_format) (l : large_bitmap) (segs : Nat → Mem) (location : point16)
    (color : Nat) : gfx_result × (Nat → Mem) :=
  match l.m_segments with
  | none => (gfx_result.out_of_memory, segs)
  | some segments =>
    if location.x ≥ l.m_dimensions.width ∨ location.y ≥ l.m_dimensions.height then
      (gfx_result.success, segs)
    else
      let seg := location.y / l.m_segment_height
      let offs := u16 (location.y % l.m_segment_height)
      let res := (segment segments seg).point F (segs seg) ⟨location.x, offs⟩ color
      (res.1, Function.update segs seg res.2)

/-- The member function `point(location, out_color)`: the point read.  The source stores
through `out_color` without a null check, so the embedding takes the pixel the pointer
refers to; the second component of the result is that pixel afterwards. -/
def point_read (F : pixel_format) (l : large_bitmap) (segs : Nat → Mem) (location : point16)
    (out_color : Nat) : gfx_result × Option Nat :=
  match l.m_segments with
  | none => (gfx_result.out_of_memory, some out_color)
  | some segments =>
    let result := 0
    if location.x ≥ l.m_dimensions.width ∨ location.y ≥ l.m_dimensions.height then
      (gfx_result.success, some result)
    else
      let seg := location.y / l.m_segment_height
      let offs := u16 (location.y % l.m_segment_height)
      (segment segments seg).point_read F (segs seg) ⟨location.x, offs⟩ (some out_color)

end large_bitmap


/-- An 8-bit format without alpha (`gsc_pixel<8>`). -/
def gsc8 : pixel_format := ⟨8, false, 0, 0, fun _ _ => none⟩

/-- Modelled from the spec: a sample conversion from the 16-bit to the 8-bit format, the
leading byte of the value.  The conversion math is not among the sources. -/
def convert_16_8 (v : Nat) : Option Nat := some (v / 256 % 256)

/-- Modelled from the spec: a sample compositing conversion for a format with a 4-bit
luminance channel above a 4-bit alpha channel, source over background.  The channel
tables and the conversion math are not among the sources. -/
def over44 (source background : Nat) : Option Nat :=
  let a := source % 16
  let ls := (source / 16) % 16
  let lb := (background / 16) % 16
  let ab := background % 16
  some (((ls * a + lb * (15 - a)) / 15) * 16 + (a + ab * (15 - a) / 15))

/-- A sample 8-bit format with an alpha channel: 4 bits of luminance, 4 bits of alpha. -/
def la8 : pixel_format := ⟨8, true, 4, 0, over44⟩

/-- A 1-bit monochrome format without alpha (`gsc_pixel<1>`). -/
def gsc1 : pixel_format := ⟨1, false, 0, 0, fun _ _ => none⟩

/-- A 16-bit format without alpha (`rgb_pixel<16>`). -/
def rgb16 : pixel_format := ⟨16, false, 0, 0, fun _ _ => none⟩

namespace bitmap

/-- The static member function `sizeof_buffer(size)` as the machine computes it, for a
32-bit two's-complement `int` and a `size_t` of `size_bits` bits (at least 32): the
16-bit extents are promoted to `int` and multiplied there, the product converts to
`size_t`, and the multiplication by the `size_t` constant `bit_depth`, the addition of 7
and the division are done in `size_t`.  Overflow of the `int` product is taken to wrap. -/
def sizeof_buffer_word (size_bits : Nat) (F : pixel_format) (size : size16) : Nat :=
  let product := (size.width * size.height) % 2 ^ 32
  let converted :=
    if product < 2 ^ 31 then product else (2 ^ size_bits - 2 ^ 32 + product) % 2 ^ size_bits
  ((converted * F.bit_depth) % 2 ^ size_bits + 7) % 2 ^ size_bits / 8

/-- A point write or a point read, as an element of a sequence of operations. -/
inductive pixel_op where
  | write (location : point16) (color : Nat)
  | read (location : point16)

/-- The results of a sequence of point writes and point reads on a bitmap: for a write
its result code, for a read its result code and the pixel read. -/
def run (F : pixel_format) (b : bitmap) : List pixel_op → Mem → List (gfx_result × Option Nat)
  | [], _ => []
  | pixel_op.write location color :: rest, mem =>
    ((b.point F mem location color).1, none) :: run F b rest (b.point F mem location color).2
  | pixel_op.read location :: rest, mem =>
    b.point_read F mem location (some 0) :: run F b rest mem

end bitmap

namespace large_bitmap

/-- The rectangle `this->bounds()`. -/
def bounds (l : large_bitmap) : rect16 := l.m_dimensions.bounds

/-- The call `m_segments[i].fill(rf, color)` on the buffer of segment `i`. -/
def segment_fill (F : pixel_format) (segments : List bitmap) (segs : Nat → Mem) (i : Nat)
    (rf : rect16) (color : Nat) : gfx_result × (Nat → Mem) :=
  (((segment segments i).fill F (segs i) rf color).1,
    Function.update segs i ((segment segments i).fill F (segs i) rf color).2)

/-- The member function `fill(bounds, color)`.  The loop over the middle segments runs
for `i = 1, 2, ...` while `b.y2 >= i*m_segment_height`.  For a segment height of zero the
source divides by zero; the embedding has the quotient and remainder of Lean there. -/
def fill (F : pixel_format) (l : large_bitmap) (segs : Nat → Mem) (bounds : rect16)
    (color : Nat) : gfx_result × (Nat → Mem) :=
  match l.m_segments with
  | none => (gfx_result.out_of_memory, segs)
  | some segments =>
    let tb := l.bounds
    let b := bounds.normalize
    if !b.intersects tb then (gfx_result.success, segs)
    else
      let segment := b.y1 / l.m_segment_height
      let offset := u16 (b.y1 % l.m_segment_height)
      let rf : rect16 := ⟨b.x1, offset, b.x2, u16 (l.m_segment_height + 65535)⟩
      let h := u16 (b.y2 - b.y1 + 1)
      if l.m_segment_height ≥ h then
        segment_fill F segments segs segment ⟨rf.x1, rf.y1, rf.x2, u16 (h + offset + 65535)⟩ color
      else
        match segment_fill F segments segs segment rf color with
        | (gfx_result.success, segs1) =>
          match for_each ((List.range (b.y2 / l.m_segment_height)).map (fun i => i + 1))
              (fun i sg => segment_fill F segments sg i ⟨rf.x1, 0, rf.x2, rf.y2⟩ color) segs1 with
          | (gfx_result.success, segs2) =>
            let yy2 := u16 (b.y2 + b.y1)
            let end_offset := u16 (yy2 % l.m_segment_height)
            if end_offset ≠ 0 then
              let end_segment := yy2 / l.m_segment_height
              segment_fill F segments segs2 end_segment ⟨rf.x1, 0, rf.x2, end_offset⟩ color
            else (gfx_result.success, segs2)
          | (r, segs2) => (r, segs2)
        | (r, segs1) => (r, segs1)

/-- The results of a sequence of point writes and point reads on a large bitmap: for a
write its result code, for a read its result code and the pixel read. -/
def run (F : pixel_format) (l : large_bitmap) :
    List bitmap.pixel_op → (Nat → Mem) → List (gfx_result × Option Nat)
  | [], _ => []
  | bitmap.pixel_op.write location color :: rest, segs =>
    ((l.point F segs location color).1, none) :: run F l rest (l.point F segs location color).2
  | bitmap.pixel_op.read location :: rest, segs =>
    l.point_read F segs location 0 :: run F l rest segs

/-- The size of one element of the segment array, `sizeof(segment_type)`: two 16-bit
extents and a pointer of 4 bytes. -/
def sizeof_segment_type : Nat := 8

/-- The outcome of a construction: the object, the pointers handed to the deallocator in
the order of the calls, and the number of calls of the allocator. -/
structure construction where
  object : large_bitmap
  deallocated : List Nat
  allocations : Nat

/-- The private member function `deinit(count)` for the segment array at the pointer
`m_segments` with the elements `arr`: the list of the pointers it hands to
`m_deallocate`, in order. -/
def deinit (m_dimensions : size16) (m_segment_height : Nat) (m_segments : Nat)
    (arr : Nat → bitmap) (count : Nat) : List Nat :=
  if m_segments = 0 then []
  else
    let remainder := u16 (m_dimensions.height % m_segment_height)
    let segment_count := m_dimensions.height / m_segment_height + (if remainder ≠ 0 then 1 else 0)
    let count2 := if count = 0 then segment_count else count
    (List.range count2).map (fun j => (arr j).m_begin) ++ [m_segments]

/-- The loop of the constructor over the segments, from the index `i` for `n` more
passes: `*p++ = segment_type(s, allocate(sizeof_buffer(s)))` stores element `i`, and
the test `nullptr==p->begin()` that follows reads element `i+1`.  The result is the
array and, when the test fired, the index `i` handed to `deinit`.  `allocate k size` is
the pointer returned by call number `k` of the allocator (0 is `nullptr`). -/
def alloc_loop (F : pixel_format) (allocate : Nat → Nat → Nat) (segment_size : size16)
    (remainder segment_count : Nat) : Nat → Nat → (Nat → bitmap) → (Nat → bitmap) × Option Nat
  | 0, _, arr => (arr, none)
  | n + 1, i, arr =>
    let s : size16 :=
      if i = segment_count - 1 ∧ remainder ≠ 0 then ⟨segment_size.width, remainder⟩
      else segment_size
    let arr2 := Function.update arr i ⟨s, allocate (i + 1) (bitmap.sizeof_buffer F s)⟩
    if (arr2 (i + 1)).m_begin = 0 then (arr2, some i)
    else alloc_loop F allocate segment_size remainder segment_count n (i + 1) arr2

/-- The constructor `large_bitmap(dimensions, segment_height, allocate, deallocate)`.
`raw j` is what element `j` of the freshly allocated segment array holds before the
constructor stores into it (`raw segment_count` is the memory that follows the array);
the source leaves it unspecified. -/
def construct (F : pixel_format) (dimensions : size16) (segment_height : Nat)
    (allocate : Nat → Nat → Nat) (raw : Nat → bitmap) : construction :=
  let sh1 := if segment_height = 0 then 1 else segment_height
  let sh := if sh1 > dimensions.height then dimensions.height else sh1
  let segment_size : size16 := ⟨dimensions.width, sh⟩
  let remainder := u16 (dimensions.height % sh)
  let segment_count := dimensions.height / sh + (if remainder ≠ 0 then 1 else 0)
  let m_segments := allocate 0 (sizeof_segment_type * segment_count)
  if m_segments = 0 then ⟨⟨dimensions, sh, none⟩, [], 1⟩
  else
    match alloc_loop F allocate segment_size remainder segment_count segment_count 0 raw with
    | (arr, none) =>
      ⟨⟨dimensions, sh, some ((List.range segment_count).map arr)⟩, [], 1 + segment_count⟩
    | (arr, some i) =>
      ⟨⟨dimensions, sh, none⟩, deinit dimensions sh m_segments arr i, 2 + i⟩

end large_bitmap

/-- The byte window of the point read covers the whole pixel at the bit offset of every
pixel index: `offs_bits + bit_depth` is within `packed_size + (pad_right_bits <=
offs_bits)` bytes. -/
def bitmap.window_covers (F : pixel_format) : Prop :=
  ∀ n, (n * F.bit_depth) % 8 + F.bit_depth ≤ 8 * bitmap.window_size F ((n * F.bit_depth) % 8)

namespace large_bitmap

/-- The invariant of an initialized large bitmap with the segment array `segments`: the
segment height is at least 1, there are `ceil(height / segment_height)` segments, and
segment `i` has a buffer, the full width and the rows from `i*segment_height` up to the
next segment or the last row. -/
def valid (l : large_bitmap) (segments : List bitmap) : Prop :=
  l.m_segments = some segments ∧ 0 < l.m_segment_height ∧ l.m_dimensions.height < 65536 ∧
  segments.length = (l.m_dimensions.height + l.m_segment_height - 1) / l.m_segment_height ∧
  ∀ i, i < segments.length →
    (segment segments i).m_begin ≠ 0 ∧
    (segment segments i).m_dimensions =
      ⟨l.m_dimensions.width, min l.m_segment_height (l.m_dimensions.height - i * l.m_segment_height)⟩

/-- The buffer `mem` of a bitmap and the segment buffers `segs` of a large bitmap of the
same dimensions hold the same pixels: the bits of the pixel `(x, y)` of the bitmap are
the bits of the pixel `(x, y % segment_height)` of segment `y / segment_height`. -/
def same_pixels (F : pixel_format) (l : large_bitmap) (mem : Mem) (segs : Nat → Mem) : Prop :=
  ∀ x y, x < l.m_dimensions.width → y < l.m_dimensions.height → ∀ j, j < F.bit_depth →
    mem ((y * l.m_dimensions.width + x) * F.bit_depth + j) =
      segs (y / l.m_segment_height)
        (((y % l.m_segment_height) * l.m_dimensions.width + x) * F.bit_depth + j)

end large_bitmap

/-- A call received by a copy destination. -/
inductive event where
  | suspend
  | resume
  | begin_batch (rect : rect16)
  | write_batch (color : Nat)
  | commit_batch
  | point (location : point16) (color : Nat)
  | point_read (location : point16)
  deriving DecidableEq, Repr

/-- The calls that carry or fetch one pixel: `write_batch`, the point write and the point
read. -/
def event.is_pixel : event → Bool
  | event.write_batch _ => true
  | event.point _ _ => true
  | event.point_read _ => true
  | _ => false

/-- The calls of the batch protocol: `begin_batch`, `write_batch` and `commit_batch`. -/
def event.is_batch : event → Bool
  | event.begin_batch _ => true
  | event.write_batch _ => true
  | event.commit_batch => true
  | _ => false

/-- The calls that write one pixel: `write_batch` and the point write. -/
def event.is_write : event → Bool
  | event.write_batch _ => true
  | event.point _ _ => true
  | _ => false

/-- The write call of the pixel `p` of index `k`: `write_batch` with the batch
capability, the point write without. -/
def event.write_of (caps_batch : Bool) (location : point16) (p : Nat) : event :=
  if caps_batch then event.write_batch p else event.point location p

/-- A destination that records the calls it receives: every member function behaves as
the one of `dst` and appends its call to the log. -/
def destination.traced {σ : Type} (dst : destination σ) : destination (σ × List event) where
  caps_suspend := dst.caps_suspend
  caps_batch := dst.caps_batch
  suspend := fun t => ((dst.suspend t.1).1, ((dst.suspend t.1).2, t.2 ++ [event.suspend]))
  resume := fun t => ((dst.resume t.1).1, ((dst.resume t.1).2, t.2 ++ [event.resume]))
  begin_batch := fun rect t =>
    ((dst.begin_batch rect t.1).1, ((dst.begin_batch rect t.1).2, t.2 ++ [event.begin_batch rect]))
  write_batch := fun color t =>
    ((dst.write_batch color t.1).1, ((dst.write_batch color t.1).2, t.2 ++ [event.write_batch color]))
  commit_batch := fun t =>
    ((dst.commit_batch t.1).1, ((dst.commit_batch t.1).2, t.2 ++ [event.commit_batch]))
  point := fun location color t =>
    ((dst.point location color t.1).1,
      ((dst.point location color t.1).2, t.2 ++ [event.point location color]))
  point_read := fun location t =>
    ((dst.point_read location t.1).1, (dst.point_read location t.1).2.1,
      ((dst.point_read location t.1).2.2, t.2 ++ [event.point_read location]))

namespace helpers

/-- The double loop of the generic `copy_to`, between `begin_batch` and `commit_batch`. -/
def copy_loop {σ : Type} (S : pixel_format) (convert : Nat → Option Nat)
    (convert_bg : Nat → Nat → Option Nat) (src : bitmap) (smem : Mem) (srcr : rect16)
    (dst : destination σ) (s : σ) (dstr : rect16) : gfx_result × σ :=
  for_each (List.range dstr.height) (fun dy t =>
    for_each (List.range dstr.width)
      (copy_pixel S convert convert_bg src smem srcr dst dstr dy) t) s

/-- The part of the generic `copy_to` between `suspend` and `resume`: `begin_batch`, the
double loop and `commit_batch`, each returning at once when it fails. -/
def copy_inner {σ : Type} (S : pixel_format) (convert : Nat → Option Nat)
    (convert_bg : Nat → Nat → Option Nat) (src : bitmap) (smem : Mem) (srcr : rect16)
    (dst : destination σ) (s : σ) (dstr : rect16) : gfx_result × σ :=
  match begin_batch dst dstr s with
  | (gfx_result.success, s2) =>
    match copy_loop S convert convert_bg src smem srcr dst s2 dstr with
    | (gfx_result.success, s3) => commit_batch dst s3
    | (r, s3) => (r, s3)
  | (r, s2) => (r, s2)

/-- The pass of the double loop for the pixel of index `k` in row-major order: the offset
`(k mod W, k div W)` of the rects of width `W`. -/
def copy_step {σ : Type} (S : pixel_format) (convert : Nat → Option Nat)
    (convert_bg : Nat → Nat → Option Nat) (src : bitmap) (smem : Mem) (srcr : rect16)
    (dst : destination σ) (dstr : rect16) (k : Nat) (s : σ) : gfx_result × σ :=
  copy_pixel S convert convert_bg src smem srcr dst dstr (k / dstr.width) (k % dstr.width) s

/-- The location of the destination for the pixel of index `k` in row-major order. -/
def step_location (dstr : rect16) (k : Nat) : point16 :=
  point16.of_int (dstr.left + k % dstr.width) (dstr.top + k / dstr.width)

/-- The source pixel of index `k` in row-major order, at
`(src.left + k mod W, src.top + k div W)`: the result of its point read. -/
def step_source (S : pixel_format) (src : bitmap) (smem : Mem) (srcr dstr : rect16) (k : Nat) :
    gfx_result × Option Nat :=
  src.point_read S smem
    (point16.of_int (srcr.left + k % dstr.width) (srcr.top + k / dstr.width)) (some 0)

/-- The calls a destination receives for the pixel of index `k` when the pass succeeds
and writes the pixel `p`: the read of the background when the source format has an
alpha channel, then the write, through `write_batch` with the batch capability and
through the point write without. -/
def step_events (S : pixel_format) (caps_batch : Bool) (dstr : rect16) (k : Nat) (p : Nat) :
    List event :=
  (if S.has_alpha then [event.point_read (step_location dstr k)] else []) ++
    [event.write_of caps_batch (step_location dstr k) p]

/-- The pixel `p` is the conversion of the source pixel of index `k` over the background
`bg`: the source pixel was read, and `p` is its conversion to the destination format,
composited over `bg` when the source format has an alpha channel. -/
def converted (S : pixel_format) (convert : Nat → Option Nat)
    (convert_bg : Nat → Nat → Option Nat) (src : bitmap) (smem : Mem) (srcr dstr : rect16)
    (k : Nat) (bg : Nat) (p : Nat) : Prop :=
  (step_source S src smem srcr dstr k).1 = gfx_result.success ∧
  (if S.has_alpha then convert_bg (((step_source S src smem srcr dstr k).2).getD 0) bg
    else convert (((step_source S src smem srcr dstr k).2).getD 0)) = some p

/-- The state of the destination in which the pixel of index `k` is written: the one left
by the read of the background when the source format has an alpha channel. -/
def write_state {σ : Type} (S : pixel_format) (dst : destination σ) (dstr : rect16) (k : Nat)
    (s : σ) : σ :=
  if S.has_alpha then (dst.point_read (step_location dstr k) s).2.2 else s

end helpers

/-- A sample destination without state whose member functions return the given result
codes; it has the suspend and the batch capability and reads the pixel 0. -/
def sample_destination (begin_result write_result : gfx_result) : destination Unit where
  caps_suspend := true
  caps_batch := true
  suspend := fun _ => (gfx_result.success, ())
  resume := fun _ => (gfx_result.success, ())
  begin_batch := fun _ _ => (begin_result, ())
  write_batch := fun _ _ => (write_result, ())
  commit_batch := fun _ => (gfx_result.success, ())
  point := fun _ _ _ => (write_result, ())
  point_read := fun _ _ => (gfx_result.success, 0, ())

/-- A sample destination that counts the pixels written and accepts `limit` of them: a
further write returns `device_error`.  It has the suspend and the batch capability and
reads the pixel 0. -/
def sample_limited_destination (limit : Nat) : destination Nat where
  caps_suspend := true
  caps_batch := true
  suspend := fun n => (gfx_result.success, n)
  resume := fun n => (gfx_result.success, n)
  begin_batch := fun _ n => (gfx_result.success, n)
  write_batch := fun _ n => if n < limit then (gfx_result.success, n + 1)
    else (gfx_result.device_error, n)
  commit_batch := fun n => (gfx_result.success, n)
  point := fun _ _ n => if n < limit then (gfx_result.success, n + 1)
    else (gfx_result.device_error, n)
  point_read := fun _ n => (gfx_result.success, 0, n)

namespace bitmap

/-- The copy constructor `bitmap(const type& rhs)=default`: the new object, a memberwise
copy of `rhs`. -/
def copy_construct (rhs : bitmap) : bitmap := ⟨rhs.m_dimensions, rhs.m_begin⟩

/-- The copy assignment `operator=(const type& rhs)=default`: the object assigned to,
afterwards. -/
def copy_assign (_self rhs : bitmap) : bitmap := ⟨rhs.m_dimensions, rhs.m_begin⟩

/-- The move constructor `bitmap(type&& rhs)=default`: a memberwise move of a `size16`
and of a pointer, which for both is a copy.  The result is the new object and `rhs`
afterwards. -/
def move_construct (rhs : bitmap) : bitmap × bitmap := (⟨rhs.m_dimensions, rhs.m_begin⟩, rhs)

/-- The move assignment `operator=(type&& rhs)`: it assigns `m_dimensions` and `m_begin`
and leaves `rhs` as it is.  The result is the object assigned to and `rhs` afterwards. -/
def move_assign (_self rhs : bitmap) : bitmap × bitmap := (⟨rhs.m_dimensions, rhs.m_begin⟩, rhs)

/-- The member function `end()`: `begin()+size_bytes()`, as a byte index from the
beginning of the buffer. -/
def end_ (F : pixel_format) (b : bitmap) : Nat := b.size_bytes F

/-- The buffer bytes the point read copies into its window, `memcpy(tmp, begin()+offs/8,
sizeof(tmp))`: the index one past the last byte it reads. -/
def point_read_end (F : pixel_format) (b : bitmap) (location : point16) : Nat :=
  let bit_depth := F.bit_depth
  let offs := (location.y * b.dimensions.width + location.x) * bit_depth
  let offs_bits := offs % 8
  offs / 8 + window_size F offs_bits

/-- The index of the window that the statement `tmp[pixel_type::packed_size]=0` of the
point read stores to. -/
def point_read_store (F : pixel_format) : Nat := F.packed_size

end bitmap

namespace large_bitmap

/-- The class `large_bitmap<PixelType>` with its member `m_deallocate`, a function
pointer (0 is `nullptr`). -/
structure owner where
  object : large_bitmap
  m_deallocate : Nat

/-- The move constructor `large_bitmap(type&& rhs)`: its initializer list names
`m_dimensions`, `m_segment_height` and `m_segments`, so `m_deallocate` of the new object
keeps what its memory held, `indeterminate`.  The result is the new object and `rhs`
afterwards. -/
def owner.move_construct (indeterminate : Nat) (rhs : owner) : owner × owner :=
  (⟨⟨rhs.object.m_dimensions, rhs.object.m_segment_height, rhs.object.m_segments⟩, indeterminate⟩,
    ⟨⟨⟨0, 0⟩, 0, none⟩, rhs.m_deallocate⟩)

/-- The move assignment `operator=(type&& rhs)`: it assigns `m_dimensions`,
`m_segment_height` and `m_segments`.  The result is the object assigned to and `rhs`
afterwards. -/
def owner.move_assign (self rhs : owner) : owner × owner :=
  (⟨⟨rhs.object.m_dimensions, rhs.object.m_segment_height, rhs.object.m_segments⟩,
      self.m_deallocate⟩,
    ⟨⟨⟨0, 0⟩, 0, none⟩, rhs.m_deallocate⟩)

/-- The destructor `~large_bitmap()`, which is `deinit(0)`, for an object whose segment
array is at the pointer `array`: the calls it makes, each the function pointer called
and the pointer handed to it. -/
def owner.destructor (o : owner) (array : Nat) : List (Nat × Nat) :=
  match o.object.m_segments with
  | none => []
  | some segments =>
    (deinit o.object.m_dimensions o.object.m_segment_height array (segment segments) 0).map
      (fun p => (o.m_deallocate, p))

/-- The statement `r = step; if(gfx_result::success!=r) return r;` followed by the rest
of the function: the rest runs on the state the step left when the step succeeded, and
else the result of the step is returned. -/
def and_then {σ : Type} (step : gfx_result × σ) (rest : σ → gfx_result × σ) : gfx_result × σ :=
  if step.1 = gfx_result.success then rest step.2 else step

/-- The member function `fill(bounds, color)` over any state, with the call
`m_segments[i].fill(rf, color)` given as `segment_fill i rf`. -/
def fill_with {σ : Type} (l : large_bitmap)
    (segment_fill : Nat → rect16 → σ → gfx_result × σ) (s : σ) (bounds : rect16) :
    gfx_result × σ :=
  if l.m_segments.isNone then (gfx_result.out_of_memory, s)
  else
    let tb := l.bounds
    let b := bounds.normalize
    if !b.intersects tb then (gfx_result.success, s)
    else
      let segment := b.y1 / l.m_segment_height
      let offset := u16 (b.y1 % l.m_segment_height)
      let rf : rect16 := ⟨b.x1, offset, b.x2, u16 (l.m_segment_height + 65535)⟩
      let h := u16 (b.y2 - b.y1 + 1)
      if l.m_segment_height ≥ h then
        segment_fill segment ⟨rf.x1, rf.y1, rf.x2, u16 (h + offset + 65535)⟩ s
      else
        and_then (segment_fill segment rf s) (fun s1 =>
          and_then
            (for_each ((List.range (b.y2 / l.m_segment_height)).map (fun i => i + 1))
              (fun i t => segment_fill i ⟨rf.x1, 0, rf.x2, rf.y2⟩ t) s1)
            (fun s2 =>
              let yy2 := u16 (b.y2 + b.y1)
              let end_offset := u16 (yy2 % l.m_segment_height)
              if end_offset ≠ 0 then
                let end_segment := yy2 / l.m_segment_height
                segment_fill end_segment ⟨rf.x1, 0, rf.x2, end_offset⟩ s2
              else (gfx_result.success, s2)))

/-- A call `m_segments[index].fill(rect, color)` made by `fill`, with its result. -/
structure fill_call where
  index : Nat
  rect : rect16
  result : gfx_result
  deriving DecidableEq, Repr

/-- A segment fill that records its call: it behaves as `segment_fill` and appends the
call and its result to the log. -/
def logged {σ : Type} (segment_fill : Nat → rect16 → σ → gfx_result × σ) (i : Nat)
    (rf : rect16) (t : σ × List fill_call) : gfx_result × (σ × List fill_call) :=
  ((segment_fill i rf t.1).1, ((segment_fill i rf t.1).2, t.2 ++ [⟨i, rf, (segment_fill i rf t.1).1⟩]))

/-- The member function `fill(bounds, color)` with a record of the segment fills it
makes, in order. -/
def fill_traced (F : pixel_format) (l : large_bitmap) (segs : Nat → Mem) (bounds : rect16)
    (color : Nat) : gfx_result × ((Nat → Mem) × List fill_call) :=
  l.fill_with (logged (fun i rf sg => segment_fill F (l.m_segments.getD []) sg i rf color))
    (segs, []) bounds

end large_bitmap

namespace helpers

/-- The constant `line_block_pels` of the unaligned branch of the raw blit. -/
def line_block_pels (F : pixel_format) (dstr : rect16) : Nat :=
  if dstr.width * F.bit_depth > 128 * 8 then (128 * 8) / F.bit_depth else dstr.width

/-- The constant `line_block_bits` of the unaligned branch of the raw blit. -/
def line_block_bits (F : pixel_format) (dstr : rect16) : Nat :=
  line_block_pels F dstr * F.bit_depth

/-- The constant `buf_size` of the unaligned branch of the raw blit, the declared length
of the scratch buffer. -/
def buf_size (F : pixel_format) (dstr : rect16) : Nat := (line_block_bits F dstr + 7) / 8

/-- The passes of the inner loop `while(dx<dxe)` of the unaligned branch of the raw blit
that copy a block: for each, `dx` and `block_pels`.  The loop is left when `dx` reaches
the width or `block_pels` is 0. -/
def blt_blocks (width line_block_pels : Nat) : Nat → Nat → List (Nat × Nat)
  | 0, _ => []
  | fuel + 1, dx =>
    if dx < width then
      let block_pels := if line_block_pels + dx > width then width - dx else line_block_pels
      if block_pels = 0 then []
      else (dx, block_pels) :: blt_blocks width line_block_pels fuel (dx + block_pels)
    else []

/-- The body of one pass of the inner loop of the unaligned branch of the raw blit, for
the row `dy`, the column `dx` and the block length `block_pels`. -/
def blt_block (F : pixel_format) (src : bitmap) (smem : Mem) (srcr : rect16) (dst : bitmap)
    (dstr : rect16) (buf_size dy dx block_pels : Nat) (st : blt_state) : blt_state :=
  let src_offs := ((srcr.top + dy) * src.dimensions.width + srcr.left + dx) * F.bit_depth
  let dpx := (dstr.top + dy) * dst.dimensions.width + dstr.left + dx
  let dst_offs := dpx * F.bit_depth
  let src_offs_bits := src_offs % 8
  let dst_offs_bits := dst_offs % 8
  let psrc := src_offs / 8
  let pdst := dst_offs / 8
  let block_bytes := (block_pels * F.bit_depth + 7) / 8
  let block_bits := block_pels * F.bit_depth
  let buf1 := bits.memcpy st.buf 0 smem psrc
    (block_bytes + (if dpx + block_pels ≤ dst.size_pixels then 1 else 0))
  let buf2 :=
    if src_offs_bits < dst_offs_bits then
      bits.shift_right buf1 0 (buf_size * 8) (dst_offs_bits - src_offs_bits)
    else if dst_offs_bits < src_offs_bits then
      bits.shift_left buf1 0 (buf_size * 8) (src_offs_bits - dst_offs_bits)
    else buf1
  ⟨bits.set_bits dst_offs_bits block_bits st.mem pdst buf2, buf2⟩

end helpers

/-- An 18-bit format without alpha (`rgb_pixel<18>`). -/
def rgb18 : pixel_format := ⟨18, false, 0, 0, fun _ _ => none⟩

namespace helpers

/-- The number of bytes the pass at row `dy`, column `dx` with the block length
`block_pels` copies into the scratch buffer of the unaligned raw blit:
`memcpy(buf, psrc, block_bytes+(dpx+block_pels<=dst.size_pixels()))`. -/
def blt_copied_bytes (F : pixel_format) (dst : bitmap) (dstr : rect16)
    (dy dx block_pels : Nat) : Nat :=
  let dpx := (dstr.top + dy) * dst.dimensions.width + dstr.left + dx
  let block_bytes := (block_pels * F.bit_depth + 7) / 8
  block_bytes + (if dpx + block_pels ≤ dst.size_pixels then 1 else 0)

/-- The end of the bit range that the pass at row `dy`, column `dx` with the block length
`block_pels` merges out of the scratch buffer, `bits::set_bits(dst_offs_bits, block_bits,
pdst, buf)`: `dst_offs_bits + block_bits`. -/
def blt_merged_bits (F : pixel_format) (dst : bitmap) (dstr : rect16)
    (dy dx block_pels : Nat) : Nat :=
  let dpx := (dstr.top + dy) * dst.dimensions.width + dstr.left + dx
  let dst_offs := dpx * F.bit_depth
  let dst_offs_bits := dst_offs % 8
  let block_bits := block_pels * F.bit_depth
  dst_offs_bits + block_bits

end helpers

namespace large_bitmap

/-- The number of elements of the segment array, as the constructor and `deinit` compute
it: `(m_dimensions.height/m_segment_height)+(!!remainder)`. -/
def segment_count (l : large_bitmap) : Nat :=
  let remainder := u16 (l.m_dimensions.height % l.m_segment_height)
  l.m_dimensions.height / l.m_segment_height + (if remainder ≠ 0 then 1 else 0)

end large_bitmap

end gfx

namespace arduino

/-- The enumeration `st7735_flags`, by its underlying values: `green_18`, `red_18` and
`black_18` repeat `green`, `red` and `black`, and `green_144` has the value of `red`. -/
abbrev st7735_flags := Nat

namespace st7735_flags

/-- The enumerator `green = 0x00`. -/
def green : st7735_flags := 0x00
/-- The enumerator `red = 0x01`. -/
def red : st7735_flags := 0x01
/-- The enumerator `black = 0x02`. -/
def black : st7735_flags := 0x02
/-- The enumerator `green_18 = green`. -/
def green_18 : st7735_flags := green
/-- The enumerator `red_18 = red`. -/
def red_18 : st7735_flags := red
/-- The enumerator `black_18 = black`. -/
def black_18 : st7735_flags := black
/-- The enumerator `green_144 = 0x01`. -/
def green_144 : st7735_flags := 0x01
/-- The enumerator `mini_160x80 = 0x04`. -/
def mini_160x80 : st7735_flags := 0x04
/-- The enumerator `hallowing = 0x05`. -/
def hallowing : st7735_flags := 0x05

end st7735_flags

namespace st7735

/-- The constant `rotation = Rotation & 3`. -/
def rotation (Rotation : Nat) : Nat := Rotation % 4

/-- The function `compute_native_width()` for the template arguments `TabFlags` and
`Rotation`. -/
def compute_native_width (TabFlags : st7735_flags) (Rotation : Nat) : Nat :=
  let result := 128
  if rotation Rotation = 0 ∨ rotation Rotation = 2 then
    if TabFlags = st7735_flags.mini_160x80 then 80 else result
  else if rotation Rotation = 1 ∨ rotation Rotation = 3 then
    if TabFlags = st7735_flags.green_144 then result else 160
  else result

/-- The function `compute_native_height()` for the template arguments `TabFlags` and
`Rotation`. -/
def compute_native_height (TabFlags : st7735_flags) (Rotation : Nat) : Nat :=
  let result := 160
  if rotation Rotation = 0 ∨ rotation Rotation = 2 then
    if TabFlags = st7735_flags.green_144 then 128 else result
  else if rotation Rotation = 1 ∨ rotation Rotation = 3 then
    if TabFlags = st7735_flags.mini_160x80 then 80 else 128
  else result

/-- The constant `native_width`. -/
def native_width (TabFlags : st7735_flags) (Rotation : Nat) : Nat :=
  compute_native_width TabFlags Rotation

/-- The constant `native_height`. -/
def native_height (TabFlags : st7735_flags) (Rotation : Nat) : Nat :=
  compute_native_height TabFlags Rotation

/-- The member function `dimensions()`. -/
def dimensions (TabFlags : st7735_flags) (Rotation : Nat) : gfx.size16 :=
  if (rotation Rotation) % 2 ≠ 0 then
    ⟨native_width TabFlags Rotation, native_height TabFlags Rotation⟩
  else ⟨native_height TabFlags Rotation, native_width TabFlags Rotation⟩

end st7735

end arduino

namespace gfx

namespace bitmap

/-- The pixel index `location.y*dimensions().width+location.x` of `point_impl` and of the
point read as the machine computes it, for a 32-bit two's-complement `int` and a `size_t`
of `size_bits` bits: the 16-bit operands are promoted to `int`, the product and the sum
are formed there, and the result converts to `size_t` for the multiplication by the
`size_t` constant `bit_depth`.  Overflow of the `int` is taken to wrap, as in
`sizeof_buffer_word`. -/
def index_word (size_bits : Nat) (b : bitmap) (location : point16) : Nat :=
  let index := (location.y * b.dimensions.width + location.x) % 2 ^ 32
  if index < 2 ^ 31 then index else (2 ^ size_bits - 2 ^ 32 + index) % 2 ^ size_bits

/-- The bit offset `offs` of `point_impl` and of the point read,
`(location.y*dimensions().width+location.x)*bit_depth`, a `size_t` of `size_bits` bits. -/
def offs_word (size_bits : Nat) (F : pixel_format) (b : bitmap) (location : point16) : Nat :=
  (index_word size_bits b location * F.bit_depth) % 2 ^ size_bits

/-- The private member function `point_impl(location, rhs)` at the machine level: the
offset is a `size_t` of `size_bits` bits, the buffer has `size` bytes and the byte window
`tmp` has its declared length `packed_size + (pad_right_bits <= offs_bits)`.  The result
is `none` when a statement accesses a byte outside its array: the store of the
`int_type` through `tmp`, the shift within `tmp`, or the merge into the buffer. -/
def point_impl_word (size_bits : Nat) (F : pixel_format) (b : bitmap) (size : Nat) (mem : Mem)
    (location : point16) (rhs : Nat) : Option (gfx_result × Mem) :=
  if b.m_begin = 0 then some (gfx_result.out_of_memory, mem)
  else
    let bit_depth := F.bit_depth
    let offs := offs_word size_bits F b location
    let offs_bits := offs % 8
    let n := window_size F offs_bits
    if n < F.int_bytes then none
    else
      let tmp := bits.store_value F.int_bytes rhs bits.uninit
      if 8 * n < bit_depth + offs_bits then none
      else
        let tmp := bits.shift_right tmp 0 (bit_depth + offs_bits) offs_bits
        if 8 * size < offs + bit_depth then none
        else some (gfx_result.success, bits.set_bits offs_bits bit_depth mem (offs / 8) tmp)

/-- The member function `point(location, out_pixel)`, the point read, at the machine
level: the offset is a `size_t` of `size_bits` bits, the buffer has `size` bytes and the
byte window `tmp` has its declared length.  The result is `none` when a statement
accesses a byte outside its array: the store `tmp[packed_size]=0`, the copy of
`sizeof(tmp)` buffer bytes from `begin()+offs/8`, or the copy of `packed_size` bytes
into the `int_type` `r`. -/
def point_read_word (size_bits : Nat) (F : pixel_format) (b : bitmap) (size : Nat) (mem : Mem)
    (location : point16) (out_pixel : Option Nat) : Option (gfx_result × Option Nat) :=
  if b.m_begin = 0 then some (gfx_result.out_of_memory, out_pixel)
  else match out_pixel with
    | none => some (gfx_result.invalid_argument, none)
    | some _ =>
      if location.x ≥ b.dimensions.width ∨ location.y ≥ b.dimensions.height then
        some (gfx_result.success, some 0)
      else
        let offs := offs_word size_bits F b location
        let offs_bits := offs % 8
        let n := window_size F offs_bits
        if n ≤ F.packed_size then none
        else
          let tmp := bits.memset_zero bits.uninit F.packed_size 1
          if size < offs / 8 + n then none
          else
            let tmp := bits.memcpy tmp 0 mem (offs / 8) n
            let tmp := if 0 < offs_bits then bits.shift_left tmp 0 (n * 8) offs_bits else tmp
            if F.int_bytes < F.packed_size then none
            else
              let r := bits.load_value F.int_bytes F.packed_size tmp
              let r := r &&& F.mask
              some (gfx_result.success, some r)

/-- The member function `point(location, rhs)`, the point write, at the machine level,
over `point_read_word` and `point_impl_word`. -/
def point_word (size_bits : Nat) (F : pixel_format) (b : bitmap) (size : Nat) (mem : Mem)
    (location : point16) (rhs : Nat) : Option (gfx_result × Mem) :=
  if b.m_begin = 0 then some (gfx_result.out_of_memory, mem)
  else if location.x ≥ b.dimensions.width ∨ location.y ≥ b.dimensions.height then
    some (gfx_result.success, mem)
  else if F.has_alpha then
    match point_read_word size_bits F b size mem location (some 0) with
    | none => none
    | some (gfx_result.success, bgpx) =>
      match F.convert_bg rhs (bgpx.getD 0) with
      | none => some (gfx_result.not_supported, mem)
      | some rhs2 => point_impl_word size_bits F b size mem location rhs2
    | some (r, _) => some (r, mem)
  else point_impl_word size_bits F b size mem location rhs

end bitmap

/-- The sequencing of a loop whose body can fail or access memory outside an array: the
body runs for each index in turn, the first result other than success ends the loop and
is returned, and the loop has no result (`none`) once a pass has none. -/
def for_each_word {σ : Type} :
    List Nat → (Nat → σ → Option (gfx_result × σ)) → σ → Option (gfx_result × σ)
  | [], _, s => some (gfx_result.success, s)
  | i :: rest, body, s =>
    match body i s with
    | none => none
    | some (gfx_result.success, s2) => for_each_word rest body s2
    | some (r, s2) => some (r, s2)

namespace helpers

/-- The body of the inner loop of the generic `bmp_copy_to_helper::copy_to` for the
pixel at offset `(dx, dy)` of the rects, with a bitmap of format `D` as destination, at
the machine level: the source read, the read of the background and the write are
`point_read_word` and `point_word`, the write being `batch_helper<Destination,false>::
write_batch`, which is `dst.point(location,color)`.  The buffers have `ssize` and `dsize`
bytes. -/
def copy_pixel_word (size_bits : Nat) (S D : pixel_format) (convert : Nat → Option Nat)
    (convert_bg : Nat → Nat → Option Nat) (src : bitmap) (ssize : Nat) (smem : Mem)
    (srcr : rect16) (dst : bitmap) (dsize : Nat) (dstr : rect16) (dy dx : Nat) (s : Mem) :
    Option (gfx_result × Mem) :=
  let sox := srcr.left
  let soy := srcr.top
  let dox := dstr.left
  let doy := dstr.top
  match src.point_read_word size_bits S ssize smem (point16.of_int (sox + dx) (soy + dy))
      (some 0) with
  | none => none
  | some (gfx_result.success, spx) =>
    if S.has_alpha then
      match dst.point_read_word size_bits D dsize s (point16.of_int (dox + dx) (doy + dy))
          (some 0) with
      | none => none
      | some (gfx_result.success, bgpx) =>
        match convert_bg (spx.getD 0) (bgpx.getD 0) with
        | none => some (gfx_result.not_supported, s)
        | some dpx =>
          dst.point_word size_bits D dsize s (point16.of_int (dox + dx) (doy + dy)) dpx
      | some (r, _) => some (r, s)
    else
      match convert (spx.getD 0) with
      | none => some (gfx_result.invalid_format, s)
      | some dpx =>
        dst.point_word size_bits D dsize s (point16.of_int (dox + dx) (doy + dy)) dpx
  | some (r, _) => some (r, s)

/-- The generic `bmp_copy_to_helper<Source,Destination,AllowBlt>::copy_to` with a bitmap
of format `D` as destination, at the machine level.  `bitmap::caps` has neither suspend
nor batch, so `suspend`, `begin_batch`, `commit_batch` and `resume` are the helpers that
return success. -/
def copy_to_word (size_bits : Nat) (S D : pixel_format) (convert : Nat → Option Nat)
    (convert_bg : Nat → Nat → Option Nat) (src : bitmap) (ssize : Nat) (smem : Mem)
    (srcr : rect16) (dst : bitmap) (dsize : Nat) (dmem : Mem) (dstr : rect16) :
    Option (gfx_result × Mem) :=
  let dye := dstr.height
  let dxe := dstr.width
  match suspend (dst.as_destination D) dmem with
  | (gfx_result.success, s1) =>
    match begin_batch (dst.as_destination D) dstr s1 with
    | (gfx_result.success, s2) =>
      match for_each_word (List.range dye) (fun dy t =>
          for_each_word (List.range dxe)
            (copy_pixel_word size_bits S D convert convert_bg src ssize smem srcr dst dsize dstr
              dy) t) s2 with
      | none => none
      | some (gfx_result.success, s3) =>
        match commit_batch (dst.as_destination D) s3 with
        | (gfx_result.success, s4) => some (resume (dst.as_destination D) s4)
        | (r, s4) => some (r, s4)
      | some (r, s3) => some (r, s3)
    | (r, s2) => some (r, s2)
  | (r, s1) => some (r, s1)

end helpers

namespace helpers

/-- The state of a destination buffer `m` part-way through the per-pixel copy at the
machine level from `src` to the bitmap `dst`, where `done dy dx` tells which offsets of
the rects have been copied: every copied source pixel was read and converted, the
destination has a buffer and its point write of the converted pixel has a result, the
bits of every copied in-bounds destination pixel are the leading bits of the converted
source pixel, and every bit outside those pixels is as in the buffer `dmem` the copy
started from. -/
def copied_word (size_bits : Nat) (S D : pixel_format) (convert : Nat → Option Nat)
    (src : bitmap) (ssize : Nat) (smem : Mem) (srcr : rect16) (dst : bitmap) (dsize : Nat)
    (dstr : rect16) (dmem : Mem) (done : Nat → Nat → Prop) (m : Mem) : Prop :=
  (∀ dy dx, done dy dx →
    dst.m_begin ≠ 0 ∧
    ∃ spx dpx,
      src.point_read_word size_bits S ssize smem
        (point16.of_int (srcr.left + dx) (srcr.top + dy)) (some 0) =
          some (gfx_result.success, spx) ∧
      convert (spx.getD 0) = some dpx ∧
      (∃ mw, dst.point_word size_bits D dsize dmem
        (point16.of_int (dstr.left + dx) (dstr.top + dy)) dpx = some (gfx_result.success, mw)) ∧
      ((point16.of_int (dstr.left + dx) (dstr.top + dy)).x < dst.dimensions.width →
       (point16.of_int (dstr.left + dx) (dstr.top + dy)).y < dst.dimensions.height →
       ∀ j, j < D.bit_depth →
        m (((point16.of_int (dstr.left + dx) (dstr.top + dy)).y * dst.dimensions.width +
            (point16.of_int (dstr.left + dx) (dstr.top + dy)).x) * D.bit_depth + j) =
          (decide (j < 8 * D.int_bytes) && dpx.testBit (8 * D.int_bytes - 1 - j)))) ∧
  (∀ i, (∀ dy dx, done dy dx →
      (point16.of_int (dstr.left + dx) (dstr.top + dy)).x < dst.dimensions.width →
      (point16.of_int (dstr.left + dx) (dstr.top + dy)).y < dst.dimensions.height →
      ¬ (((point16.of_int (dstr.left + dx) (dstr.top + dy)).y * dst.dimensions.width +
            (point16.of_int (dstr.left + dx) (dstr.top + dy)).x) * D.bit_depth ≤ i ∧
          i < ((point16.of_int (dstr.left + dx) (dstr.top + dy)).y * dst.dimensions.width +
            (point16.of_int (dstr.left + dx) (dstr.top + dy)).x) * D.bit_depth + D.bit_depth)) →
    m i = dmem i)

end helpers

/-- A 24-bit format without alpha (`rgb_pixel<24>`). -/
def rgb24 : pixel_format := ⟨24, false, 0, 0, fun _ _ => none⟩

/-! ## Bit-level lemmas -/

theorem bits.testBit_bits_value (m : Mem) (n k : Nat) :
    (bits.bits_value m n).testBit k = (decide (k < n) && m (n - 1 - k)) := by
  induction n generalizing k with
  | zero => simp [bits.bits_value]
  | succ n ih =>
    cases k with
    | zero =>
      cases h : m n <;> simp [bits.bits_value, Nat.testBit_zero, h, Nat.add_mod]
    | succ k =>
      have h2 : (2 * bits.bits_value m n + (m n).toNat) / 2 = bits.bits_value m n := by
        cases m n <;> simp
        omega
      rw [bits.bits_value, Nat.testBit_succ, h2, ih]
      have e : n + 1 - 1 - (k + 1) = n - 1 - k := by omega
      rw [e]
      by_cases hk : k < n <;> simp [hk]

theorem bits.testBit_load_value (W P : Nat) (tmp : Mem) (h : P ≤ W) (k : Nat) :
    (bits.load_value W P tmp).testBit k =
      (decide (8 * W - 8 * P ≤ k ∧ k < 8 * W) && tmp (8 * W - 1 - k)) := by
  unfold bits.load_value
  rw [Nat.testBit_shiftLeft, bits.testBit_bits_value]
  by_cases h1 : 8 * W - 8 * P ≤ k
  · by_cases h2 : k < 8 * W
    · have e : 8 * P - 1 - (k - (8 * W - 8 * P)) = 8 * W - 1 - k := by omega
      have h3 : k - (8 * W - 8 * P) < 8 * P := by omega
      simp [h1, h2, h3, e]
    · have h3 : ¬ (k - (8 * W - 8 * P) < 8 * P) := by omega
      simp [h1, h2, h3]
  · simp [h1]

theorem pixel_format.testBit_mask (F : pixel_format) (k : Nat) :
    F.mask.testBit k = decide (F.pad_right_bits ≤ k ∧ k < F.total_size_bits) := by
  unfold pixel_format.mask
  rw [Nat.testBit_mod_two_pow, Nat.testBit_shiftLeft, Nat.testBit_two_pow_sub_one]
  by_cases h1 : k < F.total_size_bits <;> by_cases h2 : F.pad_right_bits ≤ k <;>
    simp [h1, h2]
  omega

theorem pixel_format.packed_le_int_bytes (F : pixel_format) (h : F.bit_depth ≤ 64) :
    F.packed_size ≤ F.int_bytes := by
  unfold pixel_format.packed_size pixel_format.int_bytes
  split_ifs <;> omega

theorem pixel_format.depth_le_total (F : pixel_format) (h : F.bit_depth ≤ 64) :
    F.bit_depth ≤ F.total_size_bits := by
  unfold pixel_format.total_size_bits pixel_format.int_bytes
  split_ifs <;> omega

theorem pixel_format.total_le_packed (F : pixel_format) :
    F.bit_depth ≤ 8 * F.packed_size := by
  unfold pixel_format.packed_size
  omega

/-- The store of one pixel in closed form: the bits of the pixel's range become the
leading bits of the value, every other bit is kept. -/
theorem bitmap.point_impl_bits (F : pixel_format) (b : bitmap) (hb : b.m_begin ≠ 0) (mem : Mem)
    (loc : point16) (v : Nat) (i : Nat) :
    (b.point_impl F mem loc v).2 i =
      if (loc.y * b.dimensions.width + loc.x) * F.bit_depth ≤ i ∧
          i < (loc.y * b.dimensions.width + loc.x) * F.bit_depth + F.bit_depth then
        (decide (i - (loc.y * b.dimensions.width + loc.x) * F.bit_depth < 8 * F.int_bytes) &&
          v.testBit (8 * F.int_bytes - 1 - (i - (loc.y * b.dimensions.width + loc.x) * F.bit_depth)))
      else mem i := by
  generalize hoffs : (loc.y * b.dimensions.width + loc.x) * F.bit_depth = offs
  simp only [bitmap.point_impl, hb, if_false, hoffs]
  simp only [bits.set_bits, bits.shift_right, bits.store_value, bits.uninit]
  have e : 8 * (offs / 8) + offs % 8 = offs := by omega
  rw [e]
  by_cases h : offs ≤ i ∧ i < offs + F.bit_depth
  · have e2 : i - 8 * (offs / 8) - offs % 8 = i - offs := by omega
    have h1 : 0 ≤ i - 8 * (offs / 8) ∧ i - 8 * (offs / 8) < 0 + (F.bit_depth + offs % 8) := by omega
    have h2 : 0 + offs % 8 ≤ i - 8 * (offs / 8) := by omega
    rw [if_pos h, if_pos h, if_pos h1, if_pos h2, e2]
    by_cases h3 : i - offs < 8 * F.int_bytes <;> simp [h3]
  · rw [if_neg h, if_neg h]

theorem bitmap.point_impl_fst (F : pixel_format) (b : bitmap) (hb : b.m_begin ≠ 0) (mem : Mem)
    (loc : point16) (v : Nat) : (b.point_impl F mem loc v).1 = gfx_result.success := by
  simp [bitmap.point_impl, hb]

/-- The point read in closed form: bit `k` of the result is the buffer bit at the
matching place of the pixel's range, as far as the byte window covers it. -/
theorem bitmap.point_read_bits (F : pixel_format) (hF : F.bit_depth ≤ 64) (b : bitmap)
    (hb : b.m_begin ≠ 0) (mem : Mem) (loc : point16) (hx : loc.x < b.dimensions.width)
    (hy : loc.y < b.dimensions.height) (o : Nat) :
    ∃ r, b.point_read F mem loc (some o) = (gfx_result.success, some r) ∧
      ∀ k, r.testBit k =
        (decide (F.pad_right_bits ≤ k ∧ k < F.total_size_bits) &&
          (decide (F.total_size_bits - 1 - k +
              ((loc.y * b.dimensions.width + loc.x) * F.bit_depth) % 8 <
            8 * bitmap.window_size F (((loc.y * b.dimensions.width + loc.x) * F.bit_depth) % 8)) &&
          mem ((loc.y * b.dimensions.width + loc.x) * F.bit_depth + (F.total_size_bits - 1 - k)))) := by
  generalize hoffs : (loc.y * b.dimensions.width + loc.x) * F.bit_depth = offs
  have hnx : ¬ (loc.x ≥ b.dimensions.width ∨ loc.y ≥ b.dimensions.height) := by omega
  refine ⟨((b.point_read F mem loc (some o)).2).getD 0, ?_, ?_⟩
  · simp only [bitmap.point_read, hb, if_false, hnx, hoffs, Option.getD_some]
  · intro k
    simp only [bitmap.point_read, hb, if_false, hnx, hoffs, Option.getD_some]
    have hP := F.packed_le_int_bytes hF
    have hD := F.depth_le_total hF
    have hT := F.total_le_packed
    have hw : F.packed_size ≤ bitmap.window_size F (offs % 8) := by
      unfold bitmap.window_size; omega
    rw [Nat.testBit_and, bits.testBit_load_value _ _ _ hP, F.testBit_mask]
    by_cases hk : F.pad_right_bits ≤ k ∧ k < F.total_size_bits
    · have hk1 : 8 * F.int_bytes - 8 * F.packed_size ≤ k ∧ k < 8 * F.int_bytes := by
        unfold pixel_format.pad_right_bits pixel_format.total_size_bits at hk
        unfold pixel_format.total_size_bits at hD
        omega
      have ht : F.total_size_bits = 8 * F.int_bytes := rfl
      simp only [hk, hk1, decide_True, Bool.true_and, Bool.and_true, ht]
      generalize hn : bitmap.window_size F (offs % 8) = n at hw
      generalize hi : 8 * F.int_bytes - 1 - k = i
      have hi8 : i < 8 * n := by
        unfold pixel_format.pad_right_bits pixel_format.total_size_bits at hk
        omega
      by_cases h0 : 0 < offs % 8
      · simp only [h0, if_true, bits.shift_left, bits.memcpy, bits.memset_zero, bits.uninit]
        have c1 : 0 ≤ i ∧ i < 0 + n * 8 := by omega
        rw [if_pos c1]
        by_cases c2 : i + offs % 8 < 8 * n
        · have c2b : i + offs % 8 < 0 + n * 8 := by omega
          have c3 : 8 * 0 ≤ i + offs % 8 ∧ i + offs % 8 < 8 * (0 + n) := by omega
          have e : i + offs % 8 - 8 * 0 + 8 * (offs / 8) = offs + i := by omega
          rw [if_pos c2b, if_pos c3, e]
          simp [c2]
        · have c2b : ¬ (i + offs % 8 < 0 + n * 8) := by omega
          rw [if_neg c2b]
          simp [c2]
      · simp only [h0, if_false, bits.memcpy, bits.memset_zero, bits.uninit]
        have c3 : 8 * 0 ≤ i ∧ i < 8 * (0 + n) := by omega
        have e : i - 8 * 0 + 8 * (offs / 8) = offs + i := by omega
        have c2 : i + offs % 8 < 8 * n := by omega
        rw [if_pos c3, e]
        simp [c2]
    · simp [hk]

/-- The point read looks only at the bits of the pixel's own range. -/
theorem bitmap.point_read_congr (F : pixel_format) (hF : F.bit_depth ≤ 64) (b : bitmap)
    (hb : b.m_begin ≠ 0) (m1 m2 : Mem) (loc : point16) (hx : loc.x < b.dimensions.width)
    (hy : loc.y < b.dimensions.height) (o : Nat)
    (h : ∀ j, j < F.bit_depth →
      m1 ((loc.y * b.dimensions.width + loc.x) * F.bit_depth + j) =
      m2 ((loc.y * b.dimensions.width + loc.x) * F.bit_depth + j)) :
    b.point_read F m1 loc (some o) = b.point_read F m2 loc (some o) := by
  obtain ⟨r1, e1, t1⟩ := bitmap.point_read_bits F hF b hb m1 loc hx hy o
  obtain ⟨r2, e2, t2⟩ := bitmap.point_read_bits F hF b hb m2 loc hx hy o
  have hr : r1 = r2 := by
    apply Nat.eq_of_testBit_eq
    intro k
    rw [t1, t2]
    by_cases hk : F.pad_right_bits ≤ k ∧ k < F.total_size_bits
    · have hj : F.total_size_bits - 1 - k < F.bit_depth := by
        have := F.depth_le_total hF
        unfold pixel_format.pad_right_bits at hk
        omega
      rw [h _ hj]
    · simp [hk]
  rw [e1, e2, hr]

theorem bitmap.index_inj (w x y x2 y2 : Nat) (hx : x < w) (hx2 : x2 < w)
    (h : y * w + x = y2 * w + x2) : x = x2 ∧ y = y2 := by
  have hw : 0 < w := by omega
  have m1 : (y * w + x) % w = x := by
    rw [Nat.add_comm, Nat.add_mul_mod_self_right]; exact Nat.mod_eq_of_lt hx
  have m2 : (y2 * w + x2) % w = x2 := by
    rw [Nat.add_comm, Nat.add_mul_mod_self_right]; exact Nat.mod_eq_of_lt hx2
  have d1 : (y * w + x) / w = y := by
    rw [Nat.add_comm, Nat.add_mul_div_right _ _ hw, Nat.div_eq_of_lt hx]; simp
  have d2 : (y2 * w + x2) / w = y2 := by
    rw [Nat.add_comm, Nat.add_mul_div_right _ _ hw, Nat.div_eq_of_lt hx2]; simp
  constructor
  · rw [← m1, ← m2, h]
  · rw [← d1, ← d2, h]

/-- The bit ranges of two different pixel indices do not meet. -/
theorem bitmap.ranges_disjoint (a c d i j : Nat) (hne : a ≠ c) (hi : i < d) (hj : j < d) :
    a * d + i ≠ c * d + j := by
  rcases Nat.lt_or_gt_of_ne hne with h | h
  · have : (a + 1) * d ≤ c * d := Nat.mul_le_mul_right d h
    rw [Nat.add_mul] at this
    omega
  · have : (c + 1) * d ≤ a * d := Nat.mul_le_mul_right d h
    rw [Nat.add_mul] at this
    omega

theorem bitmap.point_eq_point_impl (F : pixel_format) (ha : F.has_alpha = false) (b : bitmap)
    (hb : b.m_begin ≠ 0) (mem : Mem) (loc : point16) (hx : loc.x < b.dimensions.width)
    (hy : loc.y < b.dimensions.height) (p : Nat) :
    b.point F mem loc p = b.point_impl F mem loc p := by
  have hnx : ¬ (loc.x ≥ b.dimensions.width ∨ loc.y ≥ b.dimensions.height) := by omega
  simp [bitmap.point, hb, hnx, ha]

/-- A store at one in-bounds location leaves the bits of every other in-bounds pixel. -/
theorem bitmap.point_impl_other (F : pixel_format) (b : bitmap) (hb : b.m_begin ≠ 0) (mem : Mem)
    (loc : point16) (hx : loc.x < b.dimensions.width) (v : Nat) (loc2 : point16)
    (hx2 : loc2.x < b.dimensions.width) (hne : loc2 ≠ loc) (j : Nat) (hj : j < F.bit_depth) :
    (b.point_impl F mem loc v).2 ((loc2.y * b.dimensions.width + loc2.x) * F.bit_depth + j) =
      mem ((loc2.y * b.dimensions.width + loc2.x) * F.bit_depth + j) := by
  rw [bitmap.point_impl_bits F b hb]
  have hidx : loc.y * b.dimensions.width + loc.x ≠ loc2.y * b.dimensions.width + loc2.x := by
    intro h
    obtain ⟨h1, h2⟩ := bitmap.index_inj _ _ _ _ _ hx hx2 h
    apply hne
    cases loc; cases loc2
    simp only [point16.mk.injEq]
    simp only at h1 h2
    exact ⟨h1.symm, h2.symm⟩
  have hdis : ∀ i, i < F.bit_depth →
      (loc.y * b.dimensions.width + loc.x) * F.bit_depth + i ≠
      (loc2.y * b.dimensions.width + loc2.x) * F.bit_depth + j :=
    fun i hi => bitmap.ranges_disjoint _ _ _ i j hidx hi hj
  rw [if_neg]
  rintro ⟨h1, h2⟩
  exact hdis ((loc2.y * b.dimensions.width + loc2.x) * F.bit_depth + j -
    (loc.y * b.dimensions.width + loc.x) * F.bit_depth) (by omega) (by omega)

/-! ## The point read and the point write at the machine level -/

/-- The index of an in-bounds location is below the number of pixels. -/
theorem bitmap.index_lt (b : bitmap) (loc : point16) (hx : loc.x < b.dimensions.width)
    (hy : loc.y < b.dimensions.height) :
    loc.y * b.dimensions.width + loc.x + 1 ≤ b.dimensions.width * b.dimensions.height := by
  have h : (loc.y + 1) * b.dimensions.width ≤ b.dimensions.height * b.dimensions.width :=
    Nat.mul_le_mul_right _ hy
  rw [Nat.add_mul, Nat.one_mul] at h
  rw [Nat.mul_comm b.dimensions.width]
  omega

/-- The bit range of an in-bounds pixel lies within the bits of all the pixels. -/
theorem bitmap.range_le (F : pixel_format) (b : bitmap) (loc : point16)
    (hx : loc.x < b.dimensions.width) (hy : loc.y < b.dimensions.height) :
    (loc.y * b.dimensions.width + loc.x) * F.bit_depth + F.bit_depth ≤
      b.dimensions.width * b.dimensions.height * F.bit_depth := by
  have h := Nat.mul_le_mul_right F.bit_depth (bitmap.index_lt b loc hx hy)
  rw [Nat.add_mul, Nat.one_mul] at h
  exact h

/-- For a bitmap of at most 2^31 pixels and at most 2^size_bits bits, the machine
computes the exact bit offset of every in-bounds pixel. -/
theorem bitmap.offs_word_eq (size_bits : Nat) (F : pixel_format) (b : bitmap) (loc : point16)
    (hx : loc.x < b.dimensions.width) (hy : loc.y < b.dimensions.height)
    (hint : b.dimensions.width * b.dimensions.height ≤ 2 ^ 31)
    (hbits : b.dimensions.width * b.dimensions.height * F.bit_depth ≤ 2 ^ size_bits) :
    bitmap.offs_word size_bits F b loc = (loc.y * b.dimensions.width + loc.x) * F.bit_depth := by
  have h1 := bitmap.index_lt b loc hx hy
  have h2 := bitmap.range_le F b loc hx hy
  have hp : 0 < 2 ^ size_bits := Nat.two_pow_pos _
  have h31 : loc.y * b.dimensions.width + loc.x < 2 ^ 31 := by omega
  have h32 : loc.y * b.dimensions.width + loc.x < 2 ^ 32 := by omega
  have hlt : (loc.y * b.dimensions.width + loc.x) * F.bit_depth < 2 ^ size_bits := by
    rcases Nat.eq_zero_or_pos F.bit_depth with h0 | h0
    · rw [h0, Nat.mul_zero]; exact hp
    · omega
  unfold bitmap.offs_word bitmap.index_word
  simp only [Nat.mod_eq_of_lt h32, h31, if_true]
  exact Nat.mod_eq_of_lt hlt

/-- The byte window of `point_impl` holds the shifted pixel when `int_type` is no longer
than `packed_size`. -/
theorem bitmap.window_covers_of_packed (F : pixel_format) (hfmt : F.int_bytes ≤ F.packed_size)
    (offs_bits : Nat) (h8 : offs_bits < 8) :
    F.bit_depth + offs_bits ≤ 8 * bitmap.window_size F offs_bits := by
  have hT := F.total_le_packed
  unfold bitmap.window_size
  by_cases hp : F.pad_right_bits ≤ offs_bits
  · rw [if_pos hp]; omega
  · rw [if_neg hp]
    unfold pixel_format.pad_right_bits pixel_format.total_size_bits at hp
    omega

/-- The store of one pixel at the machine level in terms of the store over exact
offsets: the same result when no statement leaves its array, and none otherwise. -/
theorem bitmap.point_impl_word_eq_ite (size_bits : Nat) (F : pixel_format) (b : bitmap)
    (hb : b.m_begin ≠ 0) (size : Nat)
    (hint : b.dimensions.width * b.dimensions.height ≤ 2 ^ 31)
    (hbits : b.dimensions.width * b.dimensions.height * F.bit_depth ≤ 2 ^ size_bits)
    (mem : Mem) (loc : point16) (hx : loc.x < b.dimensions.width)
    (hy : loc.y < b.dimensions.height) (v : Nat) :
    b.point_impl_word size_bits F size mem loc v =
      if F.int_bytes ≤
            bitmap.window_size F (((loc.y * b.dimensions.width + loc.x) * F.bit_depth) % 8) ∧
          F.bit_depth + ((loc.y * b.dimensions.width + loc.x) * F.bit_depth) % 8 ≤
            8 * bitmap.window_size F (((loc.y * b.dimensions.width + loc.x) * F.bit_depth) % 8) ∧
          (loc.y * b.dimensions.width + loc.x) * F.bit_depth + F.bit_depth ≤ 8 * size then
        some (b.point_impl F mem loc v)
      else none := by
  unfold bitmap.point_impl_word bitmap.point_impl
  simp only [hb, if_false, bitmap.offs_word_eq size_bits F b loc hx hy hint hbits]
  generalize (loc.y * b.dimensions.width + loc.x) * F.bit_depth = offs
  by_cases h1 : bitmap.window_size F (offs % 8) < F.int_bytes
  · rw [if_pos h1, if_neg (by omega)]
  · rw [if_neg h1]
    by_cases h2 : 8 * bitmap.window_size F (offs % 8) < F.bit_depth + offs % 8
    · rw [if_pos h2, if_neg (by omega)]
    · rw [if_neg h2]
      by_cases h3 : 8 * size < offs + F.bit_depth
      · rw [if_pos h3, if_neg (by omega)]
      · rw [if_neg h3, if_pos ⟨by omega, by omega, by omega⟩]

/-- A result of the store at the machine level is the result of the store over exact
offsets. -/
theorem bitmap.point_impl_word_some (size_bits : Nat) (F : pixel_format) (b : bitmap)
    (size : Nat) (hint : b.dimensions.width * b.dimensions.height ≤ 2 ^ 31)
    (hbits : b.dimensions.width * b.dimensions.height * F.bit_depth ≤ 2 ^ size_bits)
    (mem : Mem) (loc : point16) (hx : loc.x < b.dimensions.width)
    (hy : loc.y < b.dimensions.height) (v : Nat) (r : gfx_result × Mem)
    (h : b.point_impl_word size_bits F size mem loc v = some r) :
    b.point_impl F mem loc v = r := by
  by_cases hb : b.m_begin = 0
  · simp only [bitmap.point_impl_word, hb, if_true, Option.some.injEq] at h
    simp only [bitmap.point_impl, hb, if_true]
    exact h
  · rw [bitmap.point_impl_word_eq_ite size_bits F b hb size hint hbits mem loc hx hy v] at h
    split at h
    · exact Option.some.inj h
    · exact absurd h (by simp)

/-- The bit range of an in-bounds pixel lies within a buffer of at least
`sizeof_buffer(dimensions)` bytes. -/
theorem bitmap.range_le_size (F : pixel_format) (b : bitmap) (size : Nat)
    (hsize : bitmap.sizeof_buffer F b.dimensions ≤ size) (loc : point16)
    (hx : loc.x < b.dimensions.width) (hy : loc.y < b.dimensions.height) :
    (loc.y * b.dimensions.width + loc.x) * F.bit_depth + F.bit_depth ≤ 8 * size := by
  have h2 := bitmap.range_le F b loc hx hy
  unfold bitmap.sizeof_buffer at hsize
  omega

/-- The store of one pixel at the machine level has a result, that of the store over
exact offsets, when `int_type` is no longer than `packed_size` and the bits of the pixel
are bits of the buffer. -/
theorem bitmap.point_impl_word_eq (size_bits : Nat) (F : pixel_format)
    (hfmt : F.int_bytes ≤ F.packed_size) (b : bitmap) (hb : b.m_begin ≠ 0) (size : Nat)
    (hint : b.dimensions.width * b.dimensions.height ≤ 2 ^ 31)
    (hbits : b.dimensions.width * b.dimensions.height * F.bit_depth ≤ 2 ^ size_bits)
    (mem : Mem) (loc : point16) (hx : loc.x < b.dimensions.width)
    (hy : loc.y < b.dimensions.height)
    (hbuf : (loc.y * b.dimensions.width + loc.x) * F.bit_depth + F.bit_depth ≤ 8 * size)
    (v : Nat) :
    b.point_impl_word size_bits F size mem loc v = some (b.point_impl F mem loc v) := by
  rw [bitmap.point_impl_word_eq_ite size_bits F b hb size hint hbits mem loc hx hy v]
  have hc := bitmap.window_covers_of_packed F hfmt
    (((loc.y * b.dimensions.width + loc.x) * F.bit_depth) % 8) (Nat.mod_lt _ (by decide))
  have hw : F.packed_size ≤
      bitmap.window_size F (((loc.y * b.dimensions.width + loc.x) * F.bit_depth) % 8) := by
    unfold bitmap.window_size; omega
  rw [if_pos]
  exact ⟨by omega, hc, hbuf⟩

/-- The bits of a pixel whose read window ends inside the buffer are bits of the
buffer. -/
theorem bitmap.range_le_of_window (F : pixel_format) (offs size : Nat)
    (hend : offs / 8 + F.packed_size + 1 ≤ size) : offs + F.bit_depth ≤ 8 * size := by
  have hT := F.total_le_packed
  omega

/-- The point write of a format without alpha at the machine level has a result, that
of the point write over exact offsets, when `int_type` is no longer than `packed_size`
and the bits of the pixel are bits of the buffer. -/
theorem bitmap.point_word_eq (size_bits : Nat) (F : pixel_format)
    (hfmt : F.int_bytes ≤ F.packed_size) (ha : F.has_alpha = false) (b : bitmap)
    (hb : b.m_begin ≠ 0) (size : Nat)
    (hint : b.dimensions.width * b.dimensions.height ≤ 2 ^ 31)
    (hbits : b.dimensions.width * b.dimensions.height * F.bit_depth ≤ 2 ^ size_bits)
    (mem : Mem) (loc : point16) (hx : loc.x < b.dimensions.width)
    (hy : loc.y < b.dimensions.height)
    (hbuf : (loc.y * b.dimensions.width + loc.x) * F.bit_depth + F.bit_depth ≤ 8 * size)
    (v : Nat) :
    b.point_word size_bits F size mem loc v = some (b.point_impl F mem loc v) := by
  have hnx : ¬ (loc.x ≥ b.dimensions.width ∨ loc.y ≥ b.dimensions.height) := by omega
  unfold bitmap.point_word
  simp only [hb, if_false, hnx, ha, Bool.false_eq_true]
  exact bitmap.point_impl_word_eq size_bits F hfmt b hb size hint hbits mem loc hx hy hbuf v

/-- The point read at the machine level in terms of the point read over exact offsets:
the same result when no statement leaves its array, and none otherwise. -/
theorem bitmap.point_read_word_eq_ite (size_bits : Nat) (F : pixel_format) (b : bitmap)
    (hb : b.m_begin ≠ 0) (size : Nat)
    (hint : b.dimensions.width * b.dimensions.height ≤ 2 ^ 31)
    (hbits : b.dimensions.width * b.dimensions.height * F.bit_depth ≤ 2 ^ size_bits)
    (mem : Mem) (loc : point16) (hx : loc.x < b.dimensions.width)
    (hy : loc.y < b.dimensions.height) (o : Nat) :
    b.point_read_word size_bits F size mem loc (some o) =
      if F.packed_size <
            bitmap.window_size F (((loc.y * b.dimensions.width + loc.x) * F.bit_depth) % 8) ∧
          (loc.y * b.dimensions.width + loc.x) * F.bit_depth / 8 +
            bitmap.window_size F (((loc.y * b.dimensions.width + loc.x) * F.bit_depth) % 8) ≤
              size ∧
          F.packed_size ≤ F.int_bytes then
        some (b.point_read F mem loc (some o))
      else none := by
  have hnx : ¬ (loc.x ≥ b.dimensions.width ∨ loc.y ≥ b.dimensions.height) := by omega
  unfold bitmap.point_read_word bitmap.point_read
  simp only [hb, if_false, hnx, bitmap.offs_word_eq size_bits F b loc hx hy hint hbits]
  generalize (loc.y * b.dimensions.width + loc.x) * F.bit_depth = offs
  by_cases h1 : bitmap.window_size F (offs % 8) ≤ F.packed_size
  · rw [if_pos h1, if_neg (by omega)]
  · rw [if_neg h1]
    by_cases h2 : size < offs / 8 + bitmap.window_size F (offs % 8)
    · rw [if_pos h2, if_neg (by omega)]
    · rw [if_neg h2]
      by_cases h3 : F.int_bytes < F.packed_size
      · rw [if_pos h3, if_neg (by omega)]
      · have hc : F.packed_size < bitmap.window_size F (offs % 8) ∧
            offs / 8 + bitmap.window_size F (offs % 8) ≤ size ∧ F.packed_size ≤ F.int_bytes :=
          ⟨by omega, by omega, by omega⟩
        rw [if_neg h3, if_pos hc]

/-- A result of the point read at the machine level is the result of the point read over
exact offsets. -/
theorem bitmap.point_read_word_some (size_bits : Nat) (F : pixel_format) (b : bitmap)
    (size : Nat) (hint : b.dimensions.width * b.dimensions.height ≤ 2 ^ 31)
    (hbits : b.dimensions.width * b.dimensions.height * F.bit_depth ≤ 2 ^ size_bits)
    (mem : Mem) (loc : point16) (out : Option Nat) (r : gfx_result × Option Nat)
    (h : b.point_read_word size_bits F size mem loc out = some r) :
    b.point_read F mem loc out = r := by
  by_cases hb : b.m_begin = 0
  · simp only [bitmap.point_read_word, hb, if_true, Option.some.injEq] at h
    simp only [bitmap.point_read, hb, if_true]
    exact h
  · cases out with
    | none =>
      simp only [bitmap.point_read_word, hb, if_false, Option.some.injEq] at h
      simp only [bitmap.point_read, hb, if_false]
      exact h
    | some o =>
      by_cases hin : loc.x < b.dimensions.width ∧ loc.y < b.dimensions.height
      · rw [bitmap.point_read_word_eq_ite size_bits F b hb size hint hbits mem loc hin.1 hin.2 o]
          at h
        split at h
        · exact Option.some.inj h
        · exact absurd h (by simp)
      · have hnx : loc.x ≥ b.dimensions.width ∨ loc.y ≥ b.dimensions.height := by omega
        simp only [bitmap.point_read_word, hb, if_false, hnx, if_true, Option.some.injEq] at h
        simp only [bitmap.point_read, hb, if_false, hnx, if_true]
        exact h

/-- The point read at the machine level has a result, that of the point read over exact
offsets, where the window has the byte `tmp[packed_size]` and the bytes it copies are
bytes of the buffer. -/
theorem bitmap.point_read_word_eq (size_bits : Nat) (F : pixel_format) (hF : F.bit_depth ≤ 64)
    (b : bitmap) (hb : b.m_begin ≠ 0) (size : Nat)
    (hint : b.dimensions.width * b.dimensions.height ≤ 2 ^ 31)
    (hbits : b.dimensions.width * b.dimensions.height * F.bit_depth ≤ 2 ^ size_bits)
    (mem : Mem) (loc : point16) (hx : loc.x < b.dimensions.width)
    (hy : loc.y < b.dimensions.height)
    (hpad : F.pad_right_bits ≤ ((loc.y * b.dimensions.width + loc.x) * F.bit_depth) % 8)
    (hend : (loc.y * b.dimensions.width + loc.x) * F.bit_depth / 8 + F.packed_size + 1 ≤ size)
    (o : Nat) :
    b.point_read_word size_bits F size mem loc (some o) =
      some (b.point_read F mem loc (some o)) := by
  rw [bitmap.point_read_word_eq_ite size_bits F b hb size hint hbits mem loc hx hy o]
  have hP := F.packed_le_int_bytes hF
  have hw : bitmap.window_size F (((loc.y * b.dimensions.width + loc.x) * F.bit_depth) % 8) =
      F.packed_size + 1 := by
    unfold bitmap.window_size; rw [if_pos hpad]
  rw [if_pos]
  rw [hw]
  refine ⟨by omega, by omega, hP⟩

/-- A result of the point write at the machine level is the result of the point write
over exact offsets. -/
theorem bitmap.point_word_some (size_bits : Nat) (F : pixel_format) (b : bitmap)
    (size : Nat) (hint : b.dimensions.width * b.dimensions.height ≤ 2 ^ 31)
    (hbits : b.dimensions.width * b.dimensions.height * F.bit_depth ≤ 2 ^ size_bits)
    (mem : Mem) (loc : point16) (v : Nat) (r : gfx_result × Mem)
    (h : b.point_word size_bits F size mem loc v = some r) :
    b.point F mem loc v = r := by
  unfold bitmap.point_word at h
  unfold bitmap.point
  by_cases hb : b.m_begin = 0
  · simp only [hb, if_true, Option.some.injEq] at h ⊢
    exact h
  · simp only [hb, if_false] at h ⊢
    by_cases hnx : loc.x ≥ b.dimensions.width ∨ loc.y ≥ b.dimensions.height
    · simp only [hnx, if_true, Option.some.injEq] at h ⊢
      exact h
    · simp only [hnx, if_false] at h ⊢
      have hx : loc.x < b.dimensions.width := by omega
      have hy : loc.y < b.dimensions.height := by omega
      by_cases ha : F.has_alpha = true
      · simp only [ha, if_true] at h ⊢
        rcases hr : b.point_read_word size_bits F size mem loc (some 0) with _ | ⟨r1, bg⟩
        · rw [hr] at h
          exact absurd h (by simp)
        · rw [hr] at h
          rw [bitmap.point_read_word_some size_bits F b size hint hbits mem loc (some 0) _ hr]
          cases r1
          · simp only at h ⊢
            rcases hc : F.convert_bg v (bg.getD 0) with _ | c
            · rw [hc] at h
              simp only [Option.some.injEq] at h ⊢
              exact h
            · rw [hc] at h
              simp only at h ⊢
              exact bitmap.point_impl_word_some size_bits F b size hint hbits mem loc hx hy c r h
          all_goals
            simp only [Option.some.injEq] at h ⊢
            exact h
      · simp only [ha, Bool.false_eq_true, if_false] at h ⊢
        exact bitmap.point_impl_word_some size_bits F b size hint hbits mem loc hx hy v r h

/-- The point read at the machine level looks only at the bits of the pixel's own
range. -/
theorem bitmap.point_read_word_congr (size_bits : Nat) (F : pixel_format) (b : bitmap)
    (size : Nat) (hint : b.dimensions.width * b.dimensions.height ≤ 2 ^ 31)
    (hbits : b.dimensions.width * b.dimensions.height * F.bit_depth ≤ 2 ^ size_bits)
    (m1 m2 : Mem) (loc : point16) (o : Nat)
    (h : loc.x < b.dimensions.width → loc.y < b.dimensions.height → ∀ j, j < F.bit_depth →
      m1 ((loc.y * b.dimensions.width + loc.x) * F.bit_depth + j) =
      m2 ((loc.y * b.dimensions.width + loc.x) * F.bit_depth + j)) :
    b.point_read_word size_bits F size m1 loc (some o) =
      b.point_read_word size_bits F size m2 loc (some o) := by
  by_cases hb : b.m_begin = 0
  · simp only [bitmap.point_read_word, hb, if_true]
  · by_cases hin : loc.x < b.dimensions.width ∧ loc.y < b.dimensions.height
    · rw [bitmap.point_read_word_eq_ite size_bits F b hb size hint hbits m1 loc hin.1 hin.2 o,
        bitmap.point_read_word_eq_ite size_bits F b hb size hint hbits m2 loc hin.1 hin.2 o]
      by_cases hF : F.bit_depth ≤ 64
      · rw [bitmap.point_read_congr F hF b hb m1 m2 loc hin.1 hin.2 o (h hin.1 hin.2)]
      · have hP : ¬ F.packed_size ≤ F.int_bytes := by
          unfold pixel_format.packed_size pixel_format.int_bytes
          split_ifs <;> omega
        rw [if_neg (fun hc => hP hc.2.2), if_neg (fun hc => hP hc.2.2)]
    · have hnx : loc.x ≥ b.dimensions.width ∨ loc.y ≥ b.dimensions.height := by omega
      simp only [bitmap.point_read_word, hb, if_false, hnx, if_true]

/-- A format whose `packed_size` is the size of `int_type` has at most 64 bits. -/
theorem pixel_format.depth_le_of_packed (F : pixel_format) (hfmt : F.packed_size = F.int_bytes) :
    F.bit_depth ≤ 64 := by
  unfold pixel_format.packed_size pixel_format.int_bytes at hfmt
  split_ifs at hfmt <;> omega

/-- The store of one pixel at the machine level in closed form: a result is success, the
bits `[offs, offs + bit_depth)` of the buffer become the leading bits of the value, and
every other bit is kept. -/
theorem bitmap.point_impl_word_bits (size_bits : Nat) (F : pixel_format) (b : bitmap)
    (hb : b.m_begin ≠ 0) (size : Nat) (mem : Mem) (loc : point16) (v : Nat)
    (r : gfx_result × Mem) (h : b.point_impl_word size_bits F size mem loc v = some r) :
    r.1 = gfx_result.success ∧
    ∀ i, r.2 i =
      if bitmap.offs_word size_bits F b loc ≤ i ∧
          i < bitmap.offs_word size_bits F b loc + F.bit_depth then
        (decide (i - bitmap.offs_word size_bits F b loc < 8 * F.int_bytes) &&
          v.testBit (8 * F.int_bytes - 1 - (i - bitmap.offs_word size_bits F b loc)))
      else mem i := by
  unfold bitmap.point_impl_word at h
  simp only [hb, if_false] at h
  generalize bitmap.offs_word size_bits F b loc = offs at h ⊢
  split at h
  · exact absurd h (by simp)
  split at h
  · exact absurd h (by simp)
  split at h
  · exact absurd h (by simp)
  have hr := Option.some.inj h
  rw [← hr]
  refine ⟨rfl, ?_⟩
  intro i
  simp only [bits.set_bits, bits.shift_right, bits.store_value, bits.uninit]
  have e : 8 * (offs / 8) + offs % 8 = offs := by omega
  rw [e]
  by_cases hi : offs ≤ i ∧ i < offs + F.bit_depth
  · have e2 : i - 8 * (offs / 8) - offs % 8 = i - offs := by omega
    have h1 : 0 ≤ i - 8 * (offs / 8) ∧ i - 8 * (offs / 8) < 0 + (F.bit_depth + offs % 8) := by
      omega
    have h2 : 0 + offs % 8 ≤ i - 8 * (offs / 8) := by omega
    rw [if_pos hi, if_pos hi, if_pos h1, if_pos h2, e2]
    by_cases h3 : i - offs < 8 * F.int_bytes <;> simp [h3]
  · rw [if_neg hi, if_neg hi]

/-- The store of one pixel at the machine level has a result when `int_type` is no
longer than `packed_size` and the bits `[offs, offs + bit_depth)` are bits of the
buffer. -/
theorem bitmap.point_impl_word_defined (size_bits : Nat) (F : pixel_format)
    (hfmt : F.int_bytes ≤ F.packed_size) (b : bitmap) (hb : b.m_begin ≠ 0) (size : Nat)
    (mem : Mem) (loc : point16) (v : Nat)
    (hbuf : bitmap.offs_word size_bits F b loc + F.bit_depth ≤ 8 * size) :
    ∃ r, b.point_impl_word size_bits F size mem loc v = some r := by
  unfold bitmap.point_impl_word
  simp only [hb, if_false]
  generalize bitmap.offs_word size_bits F b loc = offs at hbuf ⊢
  have hc := bitmap.window_covers_of_packed F hfmt (offs % 8) (Nat.mod_lt _ (by decide))
  have hw : F.packed_size ≤ bitmap.window_size F (offs % 8) := by
    unfold bitmap.window_size; omega
  rw [if_neg (by omega), if_neg (by omega), if_neg (by omega)]
  exact ⟨_, rfl⟩

/-- The point read at the machine level in closed form: a result at an in-bounds
location is success, and bit `k` of the pixel is the buffer bit at the matching place of
the bits `[offs, offs + bit_depth)`. -/
theorem bitmap.point_read_word_bits (size_bits : Nat) (F : pixel_format) (b : bitmap)
    (hb : b.m_begin ≠ 0) (size : Nat) (mem : Mem) (loc : point16)
    (hx : loc.x < b.dimensions.width) (hy : loc.y < b.dimensions.height) (o : Nat)
    (r : gfx_result × Option Nat)
    (h : b.point_read_word size_bits F size mem loc (some o) = some r) :
    ∃ v, r = (gfx_result.success, some v) ∧
      ∀ k, v.testBit k =
        (decide (F.pad_right_bits ≤ k ∧ k < F.total_size_bits) &&
          mem (bitmap.offs_word size_bits F b loc + (F.total_size_bits - 1 - k))) := by
  have hnx : ¬ (loc.x ≥ b.dimensions.width ∨ loc.y ≥ b.dimensions.height) := by omega
  unfold bitmap.point_read_word at h
  simp only [hb, if_false, hnx] at h
  generalize bitmap.offs_word size_bits F b loc = offs at h ⊢
  split at h
  · exact absurd h (by simp)
  rename_i g1
  split at h
  · exact absurd h (by simp)
  split at h
  · exact absurd h (by simp)
  rename_i g3
  have hr := Option.some.inj h
  rw [← hr]
  refine ⟨_, rfl, ?_⟩
  intro k
  have hP : F.packed_size ≤ F.int_bytes := by omega
  have hT := F.total_le_packed
  have hw : F.packed_size < bitmap.window_size F (offs % 8) := by omega
  rw [Nat.testBit_and, bits.testBit_load_value _ _ _ hP, F.testBit_mask]
  by_cases hk : F.pad_right_bits ≤ k ∧ k < F.total_size_bits
  · have hk1 : 8 * F.int_bytes - 8 * F.packed_size ≤ k ∧ k < 8 * F.int_bytes := by
      unfold pixel_format.pad_right_bits pixel_format.total_size_bits at hk
      omega
    have ht : F.total_size_bits = 8 * F.int_bytes := rfl
    simp only [hk, hk1, decide_True, Bool.true_and, Bool.and_true, ht]
    clear h hr g1
    generalize bitmap.window_size F (offs % 8) = n at hw ⊢
    generalize hi : 8 * F.int_bytes - 1 - k = i
    have hi8 : i < 8 * F.packed_size := by
      unfold pixel_format.pad_right_bits pixel_format.total_size_bits at hk
      omega
    by_cases h0 : 0 < offs % 8
    · simp only [h0, if_true, bits.shift_left, bits.memcpy, bits.memset_zero, bits.uninit]
      have c1 : 0 ≤ i ∧ i < 0 + n * 8 := by omega
      have c2b : i + offs % 8 < 0 + n * 8 := by omega
      have c3 : 8 * 0 ≤ i + offs % 8 ∧ i + offs % 8 < 8 * (0 + n) := by omega
      have e : i + offs % 8 - 8 * 0 + 8 * (offs / 8) = offs + i := by omega
      rw [if_pos c1, if_pos c2b, if_pos c3, e]
      simp
    · simp only [h0, if_false, bits.memcpy, bits.memset_zero, bits.uninit]
      have c3 : 8 * 0 ≤ i ∧ i < 8 * (0 + n) := by omega
      have e : i - 8 * 0 + 8 * (offs / 8) = offs + i := by omega
      rw [if_pos c3, e]
      simp
  · simp [hk]

/-- The point read at the machine level has a result at an in-bounds location when
`packed_size` is no longer than `int_type`, the window has the byte `tmp[packed_size]`
and the bytes it copies are bytes of the buffer. -/
theorem bitmap.point_read_word_defined (size_bits : Nat) (F : pixel_format)
    (hP : F.packed_size ≤ F.int_bytes) (b : bitmap) (hb : b.m_begin ≠ 0) (size : Nat)
    (mem : Mem) (loc : point16) (hx : loc.x < b.dimensions.width)
    (hy : loc.y < b.dimensions.height)
    (hpad : F.pad_right_bits ≤ bitmap.offs_word size_bits F b loc % 8)
    (hend : bitmap.offs_word size_bits F b loc / 8 + F.packed_size + 1 ≤ size) (o : Nat) :
    ∃ r, b.point_read_word size_bits F size mem loc (some o) = some r := by
  have hnx : ¬ (loc.x ≥ b.dimensions.width ∨ loc.y ≥ b.dimensions.height) := by omega
  unfold bitmap.point_read_word
  simp only [hb, if_false, hnx]
  generalize bitmap.offs_word size_bits F b loc = offs at hpad hend ⊢
  have hw : bitmap.window_size F (offs % 8) = F.packed_size + 1 := by
    unfold bitmap.window_size; rw [if_pos hpad]
  rw [if_neg (by omega), if_neg (by omega), if_neg (by omega)]
  exact ⟨_, rfl⟩

/-- The round trip of a pixel through the store and the point read at the machine
level. -/
theorem bitmap.round_trip_word (size_bits : Nat) (F : pixel_format)
    (hfmt : F.packed_size = F.int_bytes) (b : bitmap) (hb : b.m_begin ≠ 0) (size : Nat)
    (mem : Mem) (loc : point16) (hx : loc.x < b.dimensions.width)
    (hy : loc.y < b.dimensions.height)
    (hpad : F.pad_right_bits ≤ bitmap.offs_word size_bits F b loc % 8)
    (hend : bitmap.offs_word size_bits F b loc / 8 + F.packed_size + 1 ≤ size) (p o : Nat) :
    ∃ m, b.point_impl_word size_bits F size mem loc p = some (gfx_result.success, m) ∧
      b.point_read_word size_bits F size m loc (some o) =
        some (gfx_result.success, some (p &&& F.mask)) := by
  have hbuf := bitmap.range_le_of_window F _ size hend
  obtain ⟨r, hw⟩ := bitmap.point_impl_word_defined size_bits F (by omega) b hb size mem loc p hbuf
  obtain ⟨hr1, hrb⟩ := bitmap.point_impl_word_bits size_bits F b hb size mem loc p r hw
  obtain ⟨q, hq⟩ := bitmap.point_read_word_defined size_bits F (by omega) b hb size r.2 loc hx hy
    hpad hend o
  obtain ⟨v, hv, hvb⟩ := bitmap.point_read_word_bits size_bits F b hb size r.2 loc hx hy o q hq
  refine ⟨r.2, ?_, ?_⟩
  · rw [hw]
    exact congrArg some (Prod.ext hr1 rfl)
  · rw [hq, hv]
    have hvp : v = p &&& F.mask := by
      apply Nat.eq_of_testBit_eq
      intro k
      rw [hvb, Nat.testBit_and, F.testBit_mask, hrb]
      generalize bitmap.offs_word size_bits F b loc = offs
      have hD := F.depth_le_total (F.depth_le_of_packed hfmt)
      have ht : F.total_size_bits = 8 * F.int_bytes := rfl
      by_cases hk : F.pad_right_bits ≤ k ∧ k < F.total_size_bits
      · have hj : F.total_size_bits - 1 - k < F.bit_depth := by
          unfold pixel_format.pad_right_bits at hk
          omega
        have c1 : offs ≤ offs + (F.total_size_bits - 1 - k) ∧
            offs + (F.total_size_bits - 1 - k) < offs + F.bit_depth := by omega
        have c3 : offs + (F.total_size_bits - 1 - k) - offs < 8 * F.int_bytes := by omega
        have e3 : 8 * F.int_bytes - 1 - (offs + (F.total_size_bits - 1 - k) - offs) = k := by
          omega
        have c4 : F.total_size_bits - 1 - k < 8 * F.int_bytes := by omega
        rw [if_pos c1, e3]
        simp [hk, c3, c4]
      · simp [hk]
    rw [hvp]

/-! ## Point read and point write -/

/-- C1, the claim as stated fails.  With a 32-bit `size_t` and buffers of
`sizeof_buffer(dimensions)` bytes: for the 18-bit and the 24-bit format the point write
has no result at the in-bounds location (3,1) of a 5x3 bitmap, the store of the 4-byte
`int_type` passing the 3-byte window; for the 8-bit format on a 4x4 bitmap the write at
the last pixel (3,3) returns success and the following read has no result, its 2-byte
window ending one byte past the buffer; for the 1-bit format on an 8x1 bitmap the write
at (0,0) returns success and the following read has no result, `tmp[packed_size]` being
outside the 1-byte window.  With a 64-bit `size_t`, on a 65535x65535 bitmap of the 1-bit
format the `int` index of the in-bounds location (0,32769) passes 2^31, the offset is
2^64 - 2147450881 and the write has no result, its byte being outside the buffer. -/
theorem C1_point_round_trip_fails :
    (bitmap.point_word 32 rgb18 ⟨⟨5, 3⟩, 1⟩ (bitmap.sizeof_buffer rgb18 ⟨5, 3⟩) bits.uninit
      ⟨3, 1⟩ 0xABCDEF12).isNone = true ∧
    (bitmap.point_word 32 rgb24 ⟨⟨5, 3⟩, 1⟩ (bitmap.sizeof_buffer rgb24 ⟨5, 3⟩) bits.uninit
      ⟨3, 1⟩ 0xABCDEF12).isNone = true ∧
    (bitmap.point_word 32 gsc8 ⟨⟨4, 4⟩, 1⟩ (bitmap.sizeof_buffer gsc8 ⟨4, 4⟩) bits.uninit
      ⟨3, 3⟩ 0xAB).map Prod.fst = some gfx_result.success ∧
    (bitmap.point_word 32 gsc8 ⟨⟨4, 4⟩, 1⟩ (bitmap.sizeof_buffer gsc8 ⟨4, 4⟩) bits.uninit
      ⟨3, 3⟩ 0xAB).bind (fun r => bitmap.point_read_word 32 gsc8 ⟨⟨4, 4⟩, 1⟩
        (bitmap.sizeof_buffer gsc8 ⟨4, 4⟩) r.2 ⟨3, 3⟩ (some 0)) = none ∧
    (bitmap.point_word 32 gsc1 ⟨⟨8, 1⟩, 1⟩ (bitmap.sizeof_buffer gsc1 ⟨8, 1⟩) bits.uninit
      ⟨0, 0⟩ 0x80).map Prod.fst = some gfx_result.success ∧
    (bitmap.point_word 32 gsc1 ⟨⟨8, 1⟩, 1⟩ (bitmap.sizeof_buffer gsc1 ⟨8, 1⟩) bits.uninit
      ⟨0, 0⟩ 0x80).bind (fun r => bitmap.point_read_word 32 gsc1 ⟨⟨8, 1⟩, 1⟩
        (bitmap.sizeof_buffer gsc1 ⟨8, 1⟩) r.2 ⟨0, 0⟩ (some 0)) = none ∧
    bitmap.offs_word 64 gsc1 ⟨⟨65535, 65535⟩, 1⟩ ⟨0, 32769⟩ = 2 ^ 64 - 2147450881 ∧
    (bitmap.point_word 64 gsc1 ⟨⟨65535, 65535⟩, 1⟩ (bitmap.sizeof_buffer gsc1 ⟨65535, 65535⟩)
      bits.uninit ⟨0, 32769⟩ 0x80).isNone = true := by
  decide

/-- C1 as amended: for a `size_t` of `size_bits` bits, every format without alpha whose
`packed_size` is the size of its `int_type` (of the depths 1, 8, 16, 18 and 24 these are
1, 8 and 16), every bitmap with a backing buffer of `size` bytes, every in-bounds
location at which the read window has the byte `tmp[packed_size]`
(`pad_right_bits <= offs_bits`) and ends inside the buffer
(`offs/8 + packed_size + 1 <= size`), `offs` being the offset the machine computes, and
every pixel `p`: the point write returns success and a following point read at the
location returns success with the pixel `p & mask`. -/
theorem C1_point_round_trip (size_bits : Nat) (F : pixel_format)
    (hfmt : F.packed_size = F.int_bytes) (ha : F.has_alpha = false) (b : bitmap)
    (hb : b.m_begin ≠ 0) (size : Nat) (mem : Mem) (loc : point16)
    (hx : loc.x < b.dimensions.width) (hy : loc.y < b.dimensions.height)
    (hpad : F.pad_right_bits ≤ bitmap.offs_word size_bits F b loc % 8)
    (hend : bitmap.offs_word size_bits F b loc / 8 + F.packed_size + 1 ≤ size) (p o : Nat) :
    ∃ m, b.point_word size_bits F size mem loc p = some (gfx_result.success, m) ∧
      b.point_read_word size_bits F size m loc (some o) =
        some (gfx_result.success, some (p &&& F.mask)) := by
  have hnx : ¬ (loc.x ≥ b.dimensions.width ∨ loc.y ≥ b.dimensions.height) := by omega
  obtain ⟨m, h1, h2⟩ := bitmap.round_trip_word size_bits F hfmt b hb size mem loc hx hy hpad hend
    p o
  refine ⟨m, ?_, h2⟩
  unfold bitmap.point_word
  simp only [hb, if_false, hnx, ha, Bool.false_eq_true]
  exact h1

/-- C1 as amended at a concrete input: a 32-bit `size_t`, the 1-bit format, a 16x1 bitmap
with a buffer of `sizeof_buffer(dimensions)` = 2 bytes and the location (7,0), whose bit
offset is 7. -/
theorem C1_point_round_trip_witness :
    ∃ m, (⟨⟨16, 1⟩, 1⟩ : bitmap).point_word 32 gsc1 (bitmap.sizeof_buffer gsc1 ⟨16, 1⟩)
        bits.uninit ⟨7, 0⟩ 0x80 = some (gfx_result.success, m) ∧
      (⟨⟨16, 1⟩, 1⟩ : bitmap).point_read_word 32 gsc1 (bitmap.sizeof_buffer gsc1 ⟨16, 1⟩) m
        ⟨7, 0⟩ (some 0) = some (gfx_result.success, some (0x80 &&& gsc1.mask)) :=
  C1_point_round_trip 32 gsc1 (by decide) rfl ⟨⟨16, 1⟩, 1⟩ (by decide)
    (bitmap.sizeof_buffer gsc1 ⟨16, 1⟩) bits.uninit ⟨7, 0⟩ (by decide) (by decide) (by decide)
    (by decide) 0x80 0

/-- C2, the claim as stated fails.  With a 32-bit `size_t`, on a 16384x16385 bitmap of
the 16-bit format with a zeroed buffer of `sizeof_buffer(dimensions)` bytes, the bit
offset of the in-bounds location (0,16384) is 2^32 and wraps to 0: the point write of the
pixel 0x8000 returns success and sets bit 0 of the buffer, which is outside the bit range
of the location and is the first bit of the pixel (0,0), and the read at (0,0) returns
0x8000 where it returned 0 before the write.  With a 64-bit `size_t`, on a 65535x65535
bitmap of the 8-bit format the `int` index of the in-bounds location (0,32769) passes
2^31 and the point write has no result, its byte being outside the buffer.  For the
18-bit format the point write at the in-bounds location (3,1) of a 5x3 bitmap has no
result. -/
theorem C2_point_write_frame_fails :
    bitmap.offs_word 32 rgb16 ⟨⟨16384, 16385⟩, 1⟩ ⟨0, 16384⟩ = 0 ∧
    (bitmap.point_word 32 rgb16 ⟨⟨16384, 16385⟩, 1⟩ (bitmap.sizeof_buffer rgb16 ⟨16384, 16385⟩)
      bits.uninit ⟨0, 16384⟩ 0x8000).map (fun r => (r.1, r.2 0)) =
        some (gfx_result.success, true) ∧
    bits.uninit 0 = false ∧
    ¬ ((16384 * 16384 + 0) * rgb16.bit_depth ≤ 0 ∧
        0 < (16384 * 16384 + 0) * rgb16.bit_depth + rgb16.bit_depth) ∧
    (bitmap.point_word 32 rgb16 ⟨⟨16384, 16385⟩, 1⟩ (bitmap.sizeof_buffer rgb16 ⟨16384, 16385⟩)
      bits.uninit ⟨0, 16384⟩ 0x8000).bind (fun r => bitmap.point_read_word 32 rgb16
        ⟨⟨16384, 16385⟩, 1⟩ (bitmap.sizeof_buffer rgb16 ⟨16384, 16385⟩) r.2 ⟨0, 0⟩ (some 0)) =
      some (gfx_result.success, some 0x8000) ∧
    bitmap.point_read_word 32 rgb16 ⟨⟨16384, 16385⟩, 1⟩
      (bitmap.sizeof_buffer rgb16 ⟨16384, 16385⟩) bits.uninit ⟨0, 0⟩ (some 0) =
      some (gfx_result.success, some 0) ∧
    (bitmap.point_word 64 gsc8 ⟨⟨65535, 65535⟩, 1⟩ (bitmap.sizeof_buffer gsc8 ⟨65535, 65535⟩)
      bits.uninit ⟨0, 32769⟩ 0xAB).isNone = true ∧
    (bitmap.point_word 32 rgb18 ⟨⟨5, 3⟩, 1⟩ (bitmap.sizeof_buffer rgb18 ⟨5, 3⟩) bits.uninit
      ⟨3, 1⟩ 0xABCDEF12).isNone = true := by
  decide

/-- C2 as amended: for a `size_t` of `size_bits` bits, every format without alpha whose
`int_type` is no longer than `packed_size`, every bitmap of at most 2^31 pixels and at
most 2^size_bits bits (`width*height*bit_depth`), with a backing buffer of at least
`sizeof_buffer(dimensions)` bytes, and every in-bounds location `loc`: the point write
returns success and changes only the bits
`[(y*width+x)*bit_depth, (y*width+x)*bit_depth + bit_depth)` of the buffer: every other
bit `i` of the buffer is as before the write, and the point read at every other
in-bounds location `loc2` has the result it had before the write. -/
theorem C2_point_write_frame (size_bits : Nat) (F : pixel_format)
    (hfmt : F.int_bytes ≤ F.packed_size) (ha : F.has_alpha = false) (b : bitmap)
    (hb : b.m_begin ≠ 0) (size : Nat)
    (hint : b.dimensions.width * b.dimensions.height ≤ 2 ^ 31)
    (hbits : b.dimensions.width * b.dimensions.height * F.bit_depth ≤ 2 ^ size_bits)
    (hsize : bitmap.sizeof_buffer F b.dimensions ≤ size)
    (mem : Mem) (loc : point16) (hx : loc.x < b.dimensions.width)
    (hy : loc.y < b.dimensions.height) (p : Nat) :
    ∃ m, b.point_word size_bits F size mem loc p = some (gfx_result.success, m) ∧
      (∀ i, ¬ ((loc.y * b.dimensions.width + loc.x) * F.bit_depth ≤ i ∧
          i < (loc.y * b.dimensions.width + loc.x) * F.bit_depth + F.bit_depth) →
        m i = mem i) ∧
      (∀ loc2 o, loc2.x < b.dimensions.width → loc2.y < b.dimensions.height → loc2 ≠ loc →
        b.point_read_word size_bits F size m loc2 (some o) =
          b.point_read_word size_bits F size mem loc2 (some o)) := by
  have hbuf := bitmap.range_le_size F b size hsize loc hx hy
  refine ⟨(b.point_impl F mem loc p).2, ?_, ?_, ?_⟩
  · rw [bitmap.point_word_eq size_bits F hfmt ha b hb size hint hbits mem loc hx hy hbuf p]
    exact congrArg some (Prod.ext (bitmap.point_impl_fst F b hb mem loc p) rfl)
  · intro i hi
    rw [bitmap.point_impl_bits F b hb, if_neg hi]
  · intro loc2 o hx2 hy2 hne
    apply bitmap.point_read_word_congr size_bits F b size hint hbits _ _ loc2 o
    intro _ _ j hj
    exact bitmap.point_impl_other F b hb mem loc hx p loc2 hx2 hne j hj

/-- C2 as amended at a concrete input: a 32-bit `size_t`, a 3-bit format, a 5x3 bitmap
with a buffer of 6 bytes and a write at (3,1). -/
theorem C2_point_write_frame_witness :
    ∃ m, (⟨⟨5, 3⟩, 1⟩ : bitmap).point_word 32 ⟨3, false, 0, 0, fun _ _ => none⟩ 6
        (bits.of_bytes [255, 255, 255, 255, 255, 255]) ⟨3, 1⟩ 0 = some (gfx_result.success, m) ∧
      (∀ i, ¬ ((1 * (⟨⟨5, 3⟩, 1⟩ : bitmap).dimensions.width + 3) * 3 ≤ i ∧
          i < (1 * (⟨⟨5, 3⟩, 1⟩ : bitmap).dimensions.width + 3) * 3 + 3) →
        m i = bits.of_bytes [255, 255, 255, 255, 255, 255] i) ∧
      (∀ loc2 o, loc2.x < (⟨⟨5, 3⟩, 1⟩ : bitmap).dimensions.width →
        loc2.y < (⟨⟨5, 3⟩, 1⟩ : bitmap).dimensions.height → loc2 ≠ ⟨3, 1⟩ →
        (⟨⟨5, 3⟩, 1⟩ : bitmap).point_read_word 32 ⟨3, false, 0, 0, fun _ _ => none⟩ 6 m loc2
            (some o) =
          (⟨⟨5, 3⟩, 1⟩ : bitmap).point_read_word 32 ⟨3, false, 0, 0, fun _ _ => none⟩ 6
            (bits.of_bytes [255, 255, 255, 255, 255, 255]) loc2 (some o)) :=
  C2_point_write_frame 32 ⟨3, false, 0, 0, fun _ _ => none⟩ (by decide) rfl
    ⟨⟨5, 3⟩, 1⟩ (by decide) 6 (by decide) (by decide) (by decide)
    (bits.of_bytes [255, 255, 255, 255, 255, 255]) ⟨3, 1⟩ (by decide) (by decide) 0

/-- C3: for every bitmap with a backing buffer and every initialized large bitmap, a
point read at a location with `x >= width` or `y >= height` returns success and sets
the output pixel to the zero-valued pixel. -/
theorem C3_out_of_bounds_read (F : pixel_format) (b : bitmap) (hb : b.m_begin ≠ 0) (mem : Mem)
    (loc : point16) (o : Nat)
    (hloc : loc.x ≥ b.dimensions.width ∨ loc.y ≥ b.dimensions.height)
    (l : large_bitmap) (hl : l.initialized = true) (segs : Nat → Mem) (loc2 : point16) (o2 : Nat)
    (hloc2 : loc2.x ≥ l.m_dimensions.width ∨ loc2.y ≥ l.m_dimensions.height) :
    b.point_read F mem loc (some o) = (gfx_result.success, some 0) ∧
    l.point_read F segs loc2 o2 = (gfx_result.success, some 0) := by
  constructor
  · simp [bitmap.point_read, hb, hloc]
  · cases hs : l.m_segments with
    | none => simp [large_bitmap.initialized, hs] at hl
    | some segments => simp [large_bitmap.point_read, hs, hloc2]

/-- C3 at a concrete input: a 5x3 bitmap read at (5,0) and a 4x4 large bitmap of two
segments read at (0,4). -/
theorem C3_out_of_bounds_read_witness :
    (⟨⟨5, 3⟩, 1⟩ : bitmap).point_read rgb16 (bits.of_bytes [255, 255]) ⟨5, 0⟩ (some 7) =
      (gfx_result.success, some 0) ∧
    (⟨⟨4, 4⟩, 2, some [⟨⟨4, 2⟩, 1⟩, ⟨⟨4, 2⟩, 2⟩]⟩ : large_bitmap).point_read rgb16
      (fun _ => bits.of_bytes [255, 255]) ⟨0, 4⟩ 7 = (gfx_result.success, some 0) :=
  C3_out_of_bounds_read rgb16 ⟨⟨5, 3⟩, 1⟩ (by decide) (bits.of_bytes [255, 255]) ⟨5, 0⟩ 7
    (by decide) ⟨⟨4, 4⟩, 2, some [⟨⟨4, 2⟩, 1⟩, ⟨⟨4, 2⟩, 2⟩]⟩ rfl
    (fun _ => bits.of_bytes [255, 255]) ⟨0, 4⟩ 7 (by decide)

/-- C4: for every bitmap with a backing buffer and every initialized large bitmap, of any
format, a point write at a location with `x >= width` or `y >= height` returns success
and leaves the buffer, and every segment buffer, unchanged. -/
theorem C4_out_of_bounds_write (F : pixel_format) (b : bitmap) (hb : b.m_begin ≠ 0) (mem : Mem)
    (loc : point16) (p : Nat)
    (hloc : loc.x ≥ b.dimensions.width ∨ loc.y ≥ b.dimensions.height)
    (l : large_bitmap) (hl : l.initialized = true) (segs : Nat → Mem) (loc2 : point16) (p2 : Nat)
    (hloc2 : loc2.x ≥ l.m_dimensions.width ∨ loc2.y ≥ l.m_dimensions.height) :
    b.point F mem loc p = (gfx_result.success, mem) ∧
    l.point F segs loc2 p2 = (gfx_result.success, segs) := by
  constructor
  · simp [bitmap.point, hb, hloc]
  · cases hs : l.m_segments with
    | none => simp [large_bitmap.initialized, hs] at hl
    | some segments => simp [large_bitmap.point, hs, hloc2]

/-- C4 at a concrete input: an alpha-bearing format, a 5x3 bitmap written at (0,3) and a
4x4 large bitmap of two segments written at (4,0). -/
theorem C4_out_of_bounds_write_witness :
    (⟨⟨5, 3⟩, 1⟩ : bitmap).point la8 (bits.of_bytes [255, 255]) ⟨0, 3⟩ 0x7F =
      (gfx_result.success, bits.of_bytes [255, 255]) ∧
    (⟨⟨4, 4⟩, 2, some [⟨⟨4, 2⟩, 1⟩, ⟨⟨4, 2⟩, 2⟩]⟩ : large_bitmap).point la8
      (fun _ => bits.of_bytes [255, 255]) ⟨4, 0⟩ 0x7F =
      (gfx_result.success, fun _ => bits.of_bytes [255, 255]) :=
  C4_out_of_bounds_write la8 ⟨⟨5, 3⟩, 1⟩ (by decide) (bits.of_bytes [255, 255]) ⟨0, 3⟩ 0x7F
    (by decide) ⟨⟨4, 4⟩, 2, some [⟨⟨4, 2⟩, 1⟩, ⟨⟨4, 2⟩, 2⟩]⟩ rfl
    (fun _ => bits.of_bytes [255, 255]) ⟨4, 0⟩ 0x7F (by decide)

/-- C5, the code at a failing input: on a 1-bit 8x1 bitmap, `fill` with the color of
native value 1 returns success and sets the pixels, so the location (3,0) reads 0x80,
while `color & mask` is 0 and a point write of the same color makes the location read 0. -/
theorem C5_fill_mono_failing_input :
    ((⟨⟨8, 1⟩, 1⟩ : bitmap).fill gsc1 (bits.of_bytes [0]) ⟨0, 0, 7, 0⟩ 1).1 = gfx_result.success ∧
    (⟨⟨8, 1⟩, 1⟩ : bitmap).point_read gsc1
      ((⟨⟨8, 1⟩, 1⟩ : bitmap).fill gsc1 (bits.of_bytes [0]) ⟨0, 0, 7, 0⟩ 1).2 ⟨3, 0⟩ (some 0) =
      (gfx_result.success, some 0x80) ∧
    1 &&& gsc1.mask = 0 ∧
    (⟨⟨8, 1⟩, 1⟩ : bitmap).point_read gsc1
      ((⟨⟨8, 1⟩, 1⟩ : bitmap).point gsc1 (bits.of_bytes [0]) ⟨3, 0⟩ 1).2 ⟨3, 0⟩ (some 0) =
      (gfx_result.success, some 0) := by
  decide

/-! ## Fill and clear -/

/-- C7, the code at a failing input: on a 2x2 bitmap of the sample 8-bit alpha format
holding the bytes 11 22 33 44 (hex), `fill` of the rect (1,0)-(2,0), which passes the
right edge, with the color 0xA8 stores a composited pixel at (1,0) and also overwrites
the pixel (0,1), byte 2, which lies outside the cropped rect; writing the composite at
the one location of the cropped rect leaves byte 2 as it was.  A rect that passes the
bottom edge, (0,1)-(0,2), makes `fill` store past the 4 bytes of the buffer. -/
theorem C7_fill_alpha_failing_input :
    ((⟨⟨2, 2⟩, 1⟩ : bitmap).fill la8 (bits.of_bytes [0x11, 0x22, 0x33, 0x44]) ⟨1, 0, 2, 0⟩ 0xA8).1 =
      gfx_result.success ∧
    bits.to_bytes ((⟨⟨2, 2⟩, 1⟩ : bitmap).fill la8 (bits.of_bytes [0x11, 0x22, 0x33, 0x44])
      ⟨1, 0, 2, 0⟩ 0xA8).2 4 = [0x11, 0x68, 0x58, 0x44] ∧
    bits.to_bytes ((⟨⟨2, 2⟩, 1⟩ : bitmap).point la8 (bits.of_bytes [0x11, 0x22, 0x33, 0x44])
      ⟨1, 0⟩ 0xA8).2 4 = [0x11, 0x68, 0x33, 0x44] ∧
    bits.to_bytes ((⟨⟨2, 2⟩, 1⟩ : bitmap).fill la8 (bits.of_bytes [0x11, 0x22, 0x33, 0x44])
      ⟨0, 1, 0, 2⟩ 0xA8).2 5 = [0x11, 0x22, 0x69, 0x44, 0x58] := by
  decide

/-- C8, the code at a failing input: for the 1-bit format, an 8x8 rect at (0,0) of a
16x16 source whose rows hold the bytes 00 F0 (hex), copied to a zeroed 16x16 destination
at (4,4).  `copy_to` returns success, the source pixel (4,0) reads 0, and the
destination pixel (8,4), which corresponds to it, reads 0x80: the row received the source
pixels 8..11 in place of the pixels 4..7. -/
theorem C8_copy_to_unaligned_failing_input :
    ((⟨⟨16, 16⟩, 1⟩ : bitmap).copy_to gsc1 some
      (fun i => decide (8 ≤ i % 16 ∧ i % 16 < 12)) ⟨0, 0, 7, 7⟩ ⟨⟨16, 16⟩, 2⟩ bits.uninit ⟨4, 4⟩).1 =
      gfx_result.success ∧
    (⟨⟨16, 16⟩, 1⟩ : bitmap).point_read gsc1 (fun i => decide (8 ≤ i % 16 ∧ i % 16 < 12))
      ⟨4, 0⟩ (some 0) = (gfx_result.success, some 0) ∧
    (⟨⟨16, 16⟩, 2⟩ : bitmap).point_read gsc1
      ((⟨⟨16, 16⟩, 1⟩ : bitmap).copy_to gsc1 some
        (fun i => decide (8 ≤ i % 16 ∧ i % 16 < 12)) ⟨0, 0, 7, 7⟩ ⟨⟨16, 16⟩, 2⟩ bits.uninit
        ⟨4, 4⟩).2 ⟨8, 4⟩ (some 0) = (gfx_result.success, some 0x80) := by
  decide

/-! ## The per-pixel copy -/

theorem for_each_singleton {σ : Type} (i : Nat) (body : Nat → σ → gfx_result × σ) (s : σ) :
    for_each [i] body s = body i s := by
  simp only [for_each]
  rcases h : body i s with ⟨r, s2⟩
  cases r <;> rfl

theorem for_each_append_success {σ : Type} (l1 l2 : List Nat)
    (body : Nat → σ → gfx_result × σ) (s s1 : σ)
    (h : for_each l1 body s = (gfx_result.success, s1)) :
    for_each (l1 ++ l2) body s = for_each l2 body s1 := by
  induction l1 generalizing s with
  | nil =>
    simp only [for_each, Prod.mk.injEq, true_and] at h
    simp [h]
  | cons i rest ih =>
    simp only [List.cons_append, for_each] at h ⊢
    rcases hb : body i s with ⟨r, s2⟩
    rw [hb] at h
    cases r <;> simp at h ⊢
    exact ih s2 h

theorem for_each_append_failure {σ : Type} (l1 l2 : List Nat)
    (body : Nat → σ → gfx_result × σ) (s : σ)
    (h : (for_each l1 body s).1 ≠ gfx_result.success) :
    for_each (l1 ++ l2) body s = for_each l1 body s := by
  induction l1 generalizing s with
  | nil => simp [for_each] at h
  | cons i rest ih =>
    simp only [List.cons_append, for_each] at h ⊢
    rcases hb : body i s with ⟨r, s2⟩
    rw [hb] at h
    cases r <;> simp at h ⊢
    exact ih s2 h

theorem for_each_range_succ {σ : Type} (n : Nat) (body : Nat → σ → gfx_result × σ) (s s2 : σ)
    (h : for_each (List.range (n + 1)) body s = (gfx_result.success, s2)) :
    ∃ s1, for_each (List.range n) body s = (gfx_result.success, s1) ∧
      body n s1 = (gfx_result.success, s2) := by
  rw [List.range_succ] at h
  rcases hp : for_each (List.range n) body s with ⟨r, s1⟩
  by_cases hr : r = gfx_result.success
  · subst hr
    rw [for_each_append_success _ _ _ _ _ hp, for_each_singleton] at h
    exact ⟨s1, rfl, h⟩
  · have hne : (for_each (List.range n) body s).1 ≠ gfx_result.success := by rw [hp]; exact hr
    rw [for_each_append_failure _ _ _ _ hne, hp] at h
    simp only [Prod.mk.injEq] at h
    exact absurd h.1 hr

/-- Loop invariants: a property that holds before the loop and is kept by every
successful pass holds after a loop that returns success. -/
theorem for_each_induction {σ : Type} (body : Nat → σ → gfx_result × σ) (Inv : Nat → σ → Prop)
    (n : Nat) (s s2 : σ) (h0 : Inv 0 s)
    (hstep : ∀ i t t2, i < n → Inv i t → body i t = (gfx_result.success, t2) → Inv (i + 1) t2)
    (hrun : for_each (List.range n) body s = (gfx_result.success, s2)) : Inv n s2 := by
  induction n generalizing s2 with
  | zero =>
    simp only [List.range_zero, for_each, Prod.mk.injEq, true_and] at hrun
    rw [← hrun]; exact h0
  | succ n ih =>
    obtain ⟨s1, h1, h2⟩ := for_each_range_succ n body s s2 hrun
    have := ih s1 (fun i t t2 hi => hstep i t t2 (by omega)) h1
    exact hstep n s1 s2 (by omega) this h2

/-- Two offsets of a rect below 65536 columns and rows give different 16-bit locations. -/
theorem point16.of_int_inj (ox oy dx dy dx2 dy2 : Nat) (hdx : dx < 65536) (hdx2 : dx2 < 65536)
    (hdy : dy < 65536) (hdy2 : dy2 < 65536)
    (h : point16.of_int (ox + dx) (oy + dy) = point16.of_int (ox + dx2) (oy + dy2)) :
    dx = dx2 ∧ dy = dy2 := by
  simp only [point16.of_int, u16, point16.mk.injEq] at h
  omega

theorem rect16.width_lt (r : rect16) : r.width < 65536 := by
  unfold rect16.width u16
  omega

theorem rect16.height_lt (r : rect16) : r.height < 65536 := by
  unfold rect16.height u16
  omega

/-! ## The per-pixel copy between bitmaps at the machine level -/

theorem for_each_word_append {σ : Type} (l1 l2 : List Nat)
    (body : Nat → σ → Option (gfx_result × σ)) (s : σ) :
    for_each_word (l1 ++ l2) body s =
      match for_each_word l1 body s with
      | none => none
      | some (gfx_result.success, s1) => for_each_word l2 body s1
      | some (r, s1) => some (r, s1) := by
  induction l1 generalizing s with
  | nil => simp only [List.nil_append, for_each_word]
  | cons i rest ih =>
    simp only [List.cons_append, for_each_word]
    rcases hb : body i s with _ | ⟨r, s2⟩
    · simp only
    · cases r <;> simp only
      exact ih s2

theorem for_each_word_singleton {σ : Type} (i : Nat) (body : Nat → σ → Option (gfx_result × σ))
    (s : σ) : for_each_word [i] body s = body i s := by
  simp only [for_each_word]
  rcases h : body i s with _ | ⟨r, s2⟩
  · rfl
  · cases r <;> rfl

theorem for_each_word_range_succ {σ : Type} (n : Nat)
    (body : Nat → σ → Option (gfx_result × σ)) (s s2 : σ)
    (h : for_each_word (List.range (n + 1)) body s = some (gfx_result.success, s2)) :
    ∃ s1, for_each_word (List.range n) body s = some (gfx_result.success, s1) ∧
      body n s1 = some (gfx_result.success, s2) := by
  rw [List.range_succ, for_each_word_append] at h
  rcases hp : for_each_word (List.range n) body s with _ | ⟨r, s1⟩
  · rw [hp] at h
    exact absurd h (by simp)
  · rw [hp] at h
    cases r
    · simp only at h
      rw [for_each_word_singleton] at h
      exact ⟨s1, rfl, h⟩
    all_goals
      simp only [Option.some.injEq, Prod.mk.injEq, reduceCtorEq, false_and] at h

/-- Loop invariants at the machine level: a property that holds before the loop and is
kept by every successful pass holds after a loop that returns success. -/
theorem for_each_word_induction {σ : Type} (body : Nat → σ → Option (gfx_result × σ))
    (Inv : Nat → σ → Prop) (n : Nat) (s s2 : σ) (h0 : Inv 0 s)
    (hstep : ∀ i t t2, i < n → Inv i t → body i t = some (gfx_result.success, t2) →
      Inv (i + 1) t2)
    (hrun : for_each_word (List.range n) body s = some (gfx_result.success, s2)) :
    Inv n s2 := by
  induction n generalizing s2 with
  | zero =>
    simp only [List.range_zero, for_each_word, Option.some.injEq, Prod.mk.injEq, true_and] at hrun
    rw [← hrun]; exact h0
  | succ n ih =>
    obtain ⟨s1, h1, h2⟩ := for_each_word_range_succ n body s s2 hrun
    have := ih s1 (fun i t t2 hi => hstep i t t2 (by omega)) h1
    exact hstep n s1 s2 (by omega) this h2

/-- With a bitmap as destination the per-pixel copy at the machine level is the double
loop alone. -/
theorem helpers.copy_to_word_loop (size_bits : Nat) (S D : pixel_format)
    (convert : Nat → Option Nat) (convert_bg : Nat → Nat → Option Nat) (src : bitmap)
    (ssize : Nat) (smem : Mem) (srcr : rect16) (dst : bitmap) (dsize : Nat) (dmem : Mem)
    (dstr : rect16) :
    helpers.copy_to_word size_bits S D convert convert_bg src ssize smem srcr dst dsize dmem
        dstr =
      for_each_word (List.range dstr.height) (fun dy t =>
        for_each_word (List.range dstr.width)
          (helpers.copy_pixel_word size_bits S D convert convert_bg src ssize smem srcr dst dsize
            dstr dy) t) dmem := by
  unfold helpers.copy_to_word
  simp only [helpers.suspend, helpers.begin_batch, helpers.commit_batch, helpers.resume,
    bitmap.as_destination, Bool.false_eq_true, if_false]
  generalize for_each_word (List.range dstr.height) _ dmem = res
  rcases res with _ | ⟨r, s⟩
  · rfl
  · cases r <;> rfl

/-- A successful pass of the per-pixel copy at the machine level from a format without
alpha: the source pixel was read and converts, and the new buffer is the result of the
point write of the converted pixel at the destination location. -/
theorem helpers.copy_pixel_word_success (size_bits : Nat) (S D : pixel_format)
    (hS : S.has_alpha = false) (convert : Nat → Option Nat)
    (convert_bg : Nat → Nat → Option Nat) (src : bitmap) (ssize : Nat) (smem : Mem)
    (srcr : rect16) (dst : bitmap) (dsize : Nat) (dstr : rect16) (dy dx : Nat) (m m2 : Mem)
    (h : helpers.copy_pixel_word size_bits S D convert convert_bg src ssize smem srcr dst dsize
      dstr dy dx m = some (gfx_result.success, m2)) :
    ∃ spx dpx,
      src.point_read_word size_bits S ssize smem
        (point16.of_int (srcr.left + dx) (srcr.top + dy)) (some 0) =
          some (gfx_result.success, spx) ∧
      convert (spx.getD 0) = some dpx ∧
      dst.point_word size_bits D dsize m (point16.of_int (dstr.left + dx) (dstr.top + dy)) dpx =
        some (gfx_result.success, m2) := by
  unfold helpers.copy_pixel_word at h
  simp only [hS, Bool.false_eq_true, if_false] at h
  rcases hp : src.point_read_word size_bits S ssize smem
    (point16.of_int (srcr.left + dx) (srcr.top + dy)) (some 0) with _ | ⟨r, spx⟩
  · rw [hp] at h
    exact absurd h (by simp)
  · rw [hp] at h
    cases r <;> simp only [Option.some.injEq, Prod.mk.injEq, reduceCtorEq, false_and] at h
    rcases hc : convert (spx.getD 0) with _ | dpx
    · rw [hc] at h
      simp at h
    · rw [hc] at h
      simp only at h
      exact ⟨spx, dpx, rfl, hc, h⟩

/-- The point write of a format without alpha at the machine level has a result on
every buffer once it has one on some buffer. -/
theorem bitmap.point_word_indep (size_bits : Nat) (F : pixel_format)
    (ha : F.has_alpha = false) (b : bitmap) (size : Nat)
    (hint : b.dimensions.width * b.dimensions.height ≤ 2 ^ 31)
    (hbits : b.dimensions.width * b.dimensions.height * F.bit_depth ≤ 2 ^ size_bits)
    (m m2 m3 : Mem) (loc : point16) (v : Nat)
    (h : b.point_word size_bits F size m loc v = some (gfx_result.success, m2)) :
    ∃ mw, b.point_word size_bits F size m3 loc v = some (gfx_result.success, mw) := by
  unfold bitmap.point_word at h ⊢
  by_cases hb : b.m_begin = 0
  · simp [hb] at h
  · simp only [hb, if_false] at h ⊢
    by_cases hnx : loc.x ≥ b.dimensions.width ∨ loc.y ≥ b.dimensions.height
    · simp only [hnx, if_true]
      exact ⟨m3, rfl⟩
    · simp only [hnx, if_false, ha, Bool.false_eq_true] at h ⊢
      have hx : loc.x < b.dimensions.width := by omega
      have hy : loc.y < b.dimensions.height := by omega
      rw [bitmap.point_impl_word_eq_ite size_bits F b hb size hint hbits _ loc hx hy v] at h ⊢
      split at h
      · rename_i hg
        rw [if_pos hg]
        exact ⟨(b.point_impl F m3 loc v).2,
          congrArg some (Prod.ext (bitmap.point_impl_fst F b hb m3 loc v) rfl)⟩
      · exact absurd h (by simp)

/-- One successful pass of the per-pixel copy at the machine level keeps the invariant
`copied_word`, the offset of the pass joining the copied ones. -/
theorem helpers.copied_word_step (size_bits : Nat) (S D : pixel_format)
    (hS : S.has_alpha = false) (hD : D.has_alpha = false) (convert : Nat → Option Nat)
    (convert_bg : Nat → Nat → Option Nat) (src : bitmap) (ssize : Nat) (smem : Mem)
    (srcr : rect16) (dst : bitmap) (dsize : Nat) (dstr : rect16) (dmem : Mem)
    (hint : dst.dimensions.width * dst.dimensions.height ≤ 2 ^ 31)
    (hbits : dst.dimensions.width * dst.dimensions.height * D.bit_depth ≤ 2 ^ size_bits)
    (done : Nat → Nat → Prop) (dy dx : Nat) (m m2 : Mem)
    (hinv : helpers.copied_word size_bits S D convert src ssize smem srcr dst dsize dstr dmem
      done m)
    (hnew : ∀ dy2 dx2, done dy2 dx2 →
      point16.of_int (dstr.left + dx2) (dstr.top + dy2) ≠
        point16.of_int (dstr.left + dx) (dstr.top + dy))
    (hrun : helpers.copy_pixel_word size_bits S D convert convert_bg src ssize smem srcr dst
      dsize dstr dy dx m = some (gfx_result.success, m2)) :
    helpers.copied_word size_bits S D convert src ssize smem srcr dst dsize dstr dmem
      (fun dy2 dx2 => done dy2 dx2 ∨ (dy2 = dy ∧ dx2 = dx)) m2 := by
  obtain ⟨spx, dpx, hsr, hc, hw⟩ :=
    helpers.copy_pixel_word_success size_bits S D hS convert convert_bg src ssize smem srcr dst
      dsize dstr dy dx m m2 hrun
  have hold := bitmap.point_word_some size_bits D dst dsize hint hbits m _ dpx _ hw
  have hdef := bitmap.point_word_indep size_bits D hD dst dsize hint hbits m m2 dmem _ dpx hw
  have hb : dst.m_begin ≠ 0 := by
    intro h0
    simp [bitmap.point, h0] at hold
  obtain ⟨ha, hbb⟩ := hinv
  by_cases hin : (point16.of_int (dstr.left + dx) (dstr.top + dy)).x < dst.dimensions.width ∧
      (point16.of_int (dstr.left + dx) (dstr.top + dy)).y < dst.dimensions.height
  · have hm : m2 = (dst.point_impl D m (point16.of_int (dstr.left + dx) (dstr.top + dy)) dpx).2 := by
      rw [bitmap.point_eq_point_impl D hD dst hb m _ hin.1 hin.2 dpx] at hold
      rw [hold]
    constructor
    · intro dy2 dx2 hdone
      rcases hdone with hdone | ⟨h1, h2⟩
      · obtain ⟨_, spx2, dpx2, hs2, hc2, hw2, hbits2⟩ := ha dy2 dx2 hdone
        refine ⟨hb, spx2, dpx2, hs2, hc2, hw2, ?_⟩
        intro hx2 hy2 j hj
        rw [hm, bitmap.point_impl_other D dst hb m _ hin.1 dpx _ hx2 (hnew dy2 dx2 hdone) j hj]
        exact hbits2 hx2 hy2 j hj
      · rw [h1, h2]
        refine ⟨hb, spx, dpx, hsr, hc, hdef, ?_⟩
        intro _ _ j hj
        rw [hm, bitmap.point_impl_bits D dst hb,
          if_pos ⟨Nat.le_add_right _ _, Nat.add_lt_add_left hj _⟩, Nat.add_sub_cancel_left]
    · intro i hi
      have hout := hi dy dx (Or.inr ⟨rfl, rfl⟩) hin.1 hin.2
      rw [hm, bitmap.point_impl_bits D dst hb, if_neg hout]
      exact hbb i (fun dy2 dx2 hdone hx2 hy2 => hi dy2 dx2 (Or.inl hdone) hx2 hy2)
  · have hnx : (point16.of_int (dstr.left + dx) (dstr.top + dy)).x ≥ dst.dimensions.width ∨
        (point16.of_int (dstr.left + dx) (dstr.top + dy)).y ≥ dst.dimensions.height := by omega
    have hm : m2 = m := by
      simp only [bitmap.point, hb, if_false, hnx, if_true, Prod.mk.injEq, true_and] at hold
      exact hold.symm
    rw [hm]
    constructor
    · intro dy2 dx2 hdone
      rcases hdone with hdone | ⟨h1, h2⟩
      · exact ha dy2 dx2 hdone
      · rw [h1, h2]
        exact ⟨hb, spx, dpx, hsr, hc, hdef, fun hx2 hy2 => absurd ⟨hx2, hy2⟩ hin⟩
    · intro i hi
      exact hbb i (fun dy2 dx2 hdone hx2 hy2 => hi dy2 dx2 (Or.inl hdone) hx2 hy2)

theorem helpers.copied_word_congr (size_bits : Nat) (S D : pixel_format)
    (convert : Nat → Option Nat) (src : bitmap) (ssize : Nat) (smem : Mem) (srcr : rect16)
    (dst : bitmap) (dsize : Nat) (dstr : rect16) (dmem : Mem) (done done2 : Nat → Nat → Prop)
    (m : Mem) (h : ∀ dy dx, done dy dx ↔ done2 dy dx)
    (hinv : helpers.copied_word size_bits S D convert src ssize smem srcr dst dsize dstr dmem
      done m) :
    helpers.copied_word size_bits S D convert src ssize smem srcr dst dsize dstr dmem done2 m := by
  have e : done = done2 := by
    funext dy dx
    exact propext (h dy dx)
  rw [← e]
  exact hinv

/-- After a successful per-pixel copy at the machine level the invariant `copied_word`
holds with every offset of the rect copied. -/
theorem helpers.copied_word_all (size_bits : Nat) (S D : pixel_format)
    (hS : S.has_alpha = false) (hD : D.has_alpha = false) (convert : Nat → Option Nat)
    (convert_bg : Nat → Nat → Option Nat) (src : bitmap) (ssize : Nat) (smem : Mem)
    (srcr : rect16) (dst : bitmap) (dsize : Nat) (dmem : Mem) (dstr : rect16)
    (hint : dst.dimensions.width * dst.dimensions.height ≤ 2 ^ 31)
    (hbits : dst.dimensions.width * dst.dimensions.height * D.bit_depth ≤ 2 ^ size_bits)
    (m : Mem)
    (hsucc : helpers.copy_to_word size_bits S D convert convert_bg src ssize smem srcr dst dsize
      dmem dstr = some (gfx_result.success, m)) :
    helpers.copied_word size_bits S D convert src ssize smem srcr dst dsize dstr dmem
      (fun dy dx => dy < dstr.height ∧ dx < dstr.width) m := by
  rw [helpers.copy_to_word_loop] at hsucc
  have hw := dstr.width_lt
  have hh := dstr.height_lt
  refine for_each_word_induction _
    (fun n m => helpers.copied_word size_bits S D convert src ssize smem srcr dst dsize dstr dmem
      (fun dy dx => dy < n ∧ dx < dstr.width) m) dstr.height dmem _ ?_ ?_ hsucc
  · constructor
    · intro dy dx hdone
      exact absurd hdone.1 (Nat.not_lt_zero _)
    · intro i _
      rfl
  · intro dy t t2 hdy hinv hrow
    have hinner := for_each_word_induction _
      (fun k m => helpers.copied_word size_bits S D convert src ssize smem srcr dst dsize dstr
        dmem (fun dy2 dx2 => (dy2 < dy ∧ dx2 < dstr.width) ∨ (dy2 = dy ∧ dx2 < k)) m)
      dstr.width t t2
      (helpers.copied_word_congr size_bits S D convert src ssize smem srcr dst dsize dstr dmem
        _ _ t (fun dy2 dx2 => by constructor <;> intro h <;> omega) hinv)
      (fun dx u u2 hdx hu hpix => by
        have hs := helpers.copied_word_step size_bits S D hS hD convert convert_bg src ssize smem
          srcr dst dsize dstr dmem hint hbits _ dy dx u u2 hu
          (fun dy2 dx2 hdone heq => by
            have := point16.of_int_inj dstr.left dstr.top dx2 dy2 dx dy (by omega) (by omega)
              (by omega) (by omega) heq
            omega) hpix
        exact helpers.copied_word_congr size_bits S D convert src ssize smem srcr dst dsize dstr
          dmem _ _ u2 (fun dy2 dx2 => by constructor <;> intro h <;> omega) hs)
      hrow
    exact helpers.copied_word_congr size_bits S D convert src ssize smem srcr dst dsize dstr dmem
      _ _ t2 (fun dy2 dx2 => by constructor <;> intro h <;> omega) hinner

/-- C9, the claim as stated fails.  With a 32-bit `size_t`, a 2x2 source of the 16-bit
format whose pixel (0,0) is 0x0102, the sample conversion and a 32768x16385 destination
of the 8-bit format with a zeroed buffer of `sizeof_buffer(dimensions)` bytes, the copy
of the source rect (0,0)-(0,0) to the destination rect (0,16384)-(0,16384): the bit
offset of the destination location (0,16384) is 2^32 and wraps to 0, the copy returns
success and stores the converted pixel 0x01 in byte 0 of the buffer, so the destination
pixel (0,0), which is outside the rect, reads 0x01 where it read 0 before the copy. -/
theorem C9_cross_format_copy_fails :
    bitmap.offs_word 32 gsc8 ⟨⟨32768, 16385⟩, 2⟩ ⟨0, 16384⟩ = 0 ∧
    (helpers.copy_to_word 32 rgb16 gsc8 convert_16_8 (fun a _ => some a) ⟨⟨2, 2⟩, 1⟩ 8
      (bits.of_bytes [1, 2, 3, 4, 5, 6, 7, 8]) ⟨0, 0, 0, 0⟩ ⟨⟨32768, 16385⟩, 2⟩
      (bitmap.sizeof_buffer gsc8 ⟨32768, 16385⟩) bits.uninit ⟨0, 16384, 0, 16384⟩).map
        (fun r => (r.1, bits.byte_at r.2 0)) = some (gfx_result.success, 0x01) ∧
    bits.byte_at bits.uninit 0 = 0 ∧
    point16.of_int ((⟨0, 16384, 0, 16384⟩ : rect16).left + 0)
      ((⟨0, 16384, 0, 16384⟩ : rect16).top + 0) ≠ ⟨0, 0⟩ ∧
    (⟨0, 16384, 0, 16384⟩ : rect16).width = 1 ∧ (⟨0, 16384, 0, 16384⟩ : rect16).height = 1 ∧
    (helpers.copy_to_word 32 rgb16 gsc8 convert_16_8 (fun a _ => some a) ⟨⟨2, 2⟩, 1⟩ 8
      (bits.of_bytes [1, 2, 3, 4, 5, 6, 7, 8]) ⟨0, 0, 0, 0⟩ ⟨⟨32768, 16385⟩, 2⟩
      (bitmap.sizeof_buffer gsc8 ⟨32768, 16385⟩) bits.uninit ⟨0, 16384, 0, 16384⟩).bind
        (fun r => bitmap.point_read_word 32 gsc8 ⟨⟨32768, 16385⟩, 2⟩
          (bitmap.sizeof_buffer gsc8 ⟨32768, 16385⟩) r.2 ⟨0, 0⟩ (some 0)) =
      some (gfx_result.success, some 0x01) ∧
    bitmap.point_read_word 32 gsc8 ⟨⟨32768, 16385⟩, 2⟩
      (bitmap.sizeof_buffer gsc8 ⟨32768, 16385⟩) bits.uninit ⟨0, 0⟩ (some 0) =
      some (gfx_result.success, some 0) := by
  decide

/-- C9 as amended: for a `size_t` of `size_bits` bits, formats `S` and `D` without alpha
with the conversion `convert`, a source bitmap of format `S` and a destination bitmap of
format `D` of at most 2^31 pixels and at most 2^size_bits bits
(`width*height*bit_depth`): after a per-pixel `copy_to` that returns success, for every
offset `(dx, dy)` of the rects the source pixel was read and converted, the
destination's point write of the converted pixel on the buffer before the copy returns
success, and the destination pixel at that offset of the destination rect holds the bits
it holds after that write and reads what it reads after it; every bit of the buffer that
belongs to no pixel of the rect is as before the copy, and a destination location `loc`
that is at no offset of the rect reads what it read before. -/
theorem C9_cross_format_copy (size_bits : Nat) (S D : pixel_format)
    (hS : S.has_alpha = false) (hD : D.has_alpha = false)
    (convert : Nat → Option Nat) (convert_bg : Nat → Nat → Option Nat) (src : bitmap)
    (ssize : Nat) (smem : Mem) (srcr : rect16) (dst : bitmap) (dsize : Nat) (dmem : Mem)
    (dstr : rect16)
    (hint : dst.dimensions.width * dst.dimensions.height ≤ 2 ^ 31)
    (hbits : dst.dimensions.width * dst.dimensions.height * D.bit_depth ≤ 2 ^ size_bits)
    (hsucc : (helpers.copy_to_word size_bits S D convert convert_bg src ssize smem srcr dst
      dsize dmem dstr).map Prod.fst = some gfx_result.success) :
    ∃ m, helpers.copy_to_word size_bits S D convert convert_bg src ssize smem srcr dst dsize
        dmem dstr = some (gfx_result.success, m) ∧
      (∀ dx dy, dx < dstr.width → dy < dstr.height →
        ∃ spx dpx mw,
          src.point_read_word size_bits S ssize smem
            (point16.of_int (srcr.left + dx) (srcr.top + dy)) (some 0) =
              some (gfx_result.success, spx) ∧
          convert (spx.getD 0) = some dpx ∧
          dst.point_word size_bits D dsize dmem
            (point16.of_int (dstr.left + dx) (dstr.top + dy)) dpx =
              some (gfx_result.success, mw) ∧
          ((point16.of_int (dstr.left + dx) (dstr.top + dy)).x < dst.dimensions.width →
           (point16.of_int (dstr.left + dx) (dstr.top + dy)).y < dst.dimensions.height →
           ∀ j, j < D.bit_depth →
            m (((point16.of_int (dstr.left + dx) (dstr.top + dy)).y * dst.dimensions.width +
                (point16.of_int (dstr.left + dx) (dstr.top + dy)).x) * D.bit_depth + j) =
            mw (((point16.of_int (dstr.left + dx) (dstr.top + dy)).y * dst.dimensions.width +
                (point16.of_int (dstr.left + dx) (dstr.top + dy)).x) * D.bit_depth + j)) ∧
          ∀ o, dst.point_read_word size_bits D dsize m
              (point16.of_int (dstr.left + dx) (dstr.top + dy)) (some o) =
            dst.point_read_word size_bits D dsize mw
              (point16.of_int (dstr.left + dx) (dstr.top + dy)) (some o)) ∧
      (∀ i, (∀ dx dy, dx < dstr.width → dy < dstr.height →
          (point16.of_int (dstr.left + dx) (dstr.top + dy)).x < dst.dimensions.width →
          (point16.of_int (dstr.left + dx) (dstr.top + dy)).y < dst.dimensions.height →
          ¬ (((point16.of_int (dstr.left + dx) (dstr.top + dy)).y * dst.dimensions.width +
                (point16.of_int (dstr.left + dx) (dstr.top + dy)).x) * D.bit_depth ≤ i ∧
              i < ((point16.of_int (dstr.left + dx) (dstr.top + dy)).y * dst.dimensions.width +
                (point16.of_int (dstr.left + dx) (dstr.top + dy)).x) * D.bit_depth +
                  D.bit_depth)) →
        m i = dmem i) ∧
      (∀ loc o, (∀ dx dy, dx < dstr.width → dy < dstr.height →
          point16.of_int (dstr.left + dx) (dstr.top + dy) ≠ loc) →
        dst.point_read_word size_bits D dsize m loc (some o) =
          dst.point_read_word size_bits D dsize dmem loc (some o)) := by
  rcases hrun : helpers.copy_to_word size_bits S D convert convert_bg src ssize smem srcr dst
    dsize dmem dstr with _ | ⟨r, m⟩
  · rw [hrun] at hsucc
    exact absurd hsucc (by simp)
  rw [hrun] at hsucc
  simp only [Option.map_some', Option.some.injEq] at hsucc
  subst hsucc
  obtain ⟨ha, hbb⟩ := helpers.copied_word_all size_bits S D hS hD convert convert_bg src ssize
    smem srcr dst dsize dmem dstr hint hbits m hrun
  refine ⟨m, rfl, ?_, ?_, ?_⟩
  · intro dx dy hdx hdy
    obtain ⟨hb, spx, dpx, hs, hc, ⟨mw, hw⟩, hpix⟩ := ha dy dx ⟨hdy, hdx⟩
    have hold := bitmap.point_word_some size_bits D dst dsize hint hbits dmem _ dpx _ hw
    have hsame : (point16.of_int (dstr.left + dx) (dstr.top + dy)).x < dst.dimensions.width →
        (point16.of_int (dstr.left + dx) (dstr.top + dy)).y < dst.dimensions.height →
        ∀ j, j < D.bit_depth →
          m (((point16.of_int (dstr.left + dx) (dstr.top + dy)).y * dst.dimensions.width +
              (point16.of_int (dstr.left + dx) (dstr.top + dy)).x) * D.bit_depth + j) =
          mw (((point16.of_int (dstr.left + dx) (dstr.top + dy)).y * dst.dimensions.width +
              (point16.of_int (dstr.left + dx) (dstr.top + dy)).x) * D.bit_depth + j) := by
      intro hx hy j hj
      rw [bitmap.point_eq_point_impl D hD dst hb dmem _ hx hy dpx] at hold
      have hmw : mw = (dst.point_impl D dmem
          (point16.of_int (dstr.left + dx) (dstr.top + dy)) dpx).2 := by rw [hold]
      rw [hpix hx hy j hj, hmw, bitmap.point_impl_bits D dst hb,
        if_pos ⟨Nat.le_add_right _ _, Nat.add_lt_add_left hj _⟩, Nat.add_sub_cancel_left]
    refine ⟨spx, dpx, mw, hs, hc, hw, hsame, ?_⟩
    intro o
    exact bitmap.point_read_word_congr size_bits D dst dsize hint hbits m mw _ o hsame
  · intro i hi
    exact hbb i (fun dy dx hdone hx hy => hi dx dy hdone.2 hdone.1 hx hy)
  · intro loc o hloc
    apply bitmap.point_read_word_congr size_bits D dst dsize hint hbits m dmem loc o
    intro hlx hly j hj
    apply hbb
    intro dy2 dx2 hdone hx2 hy2
    have hne := hloc dx2 dy2 hdone.2 hdone.1
    have hidx : (point16.of_int (dstr.left + dx2) (dstr.top + dy2)).y * dst.dimensions.width +
        (point16.of_int (dstr.left + dx2) (dstr.top + dy2)).x ≠
        loc.y * dst.dimensions.width + loc.x := by
      intro h
      obtain ⟨h1, h2⟩ := bitmap.index_inj _ _ _ _ _ hx2 hlx h
      apply hne
      cases hl : loc
      cases hp : point16.of_int (dstr.left + dx2) (dstr.top + dy2)
      rw [hl, hp] at h1 h2
      simp only at h1 h2
      rw [h1, h2]
    rintro ⟨c1, c2⟩
    exact bitmap.ranges_disjoint _ _ _
      ((loc.y * dst.dimensions.width + loc.x) * D.bit_depth + j -
        ((point16.of_int (dstr.left + dx2) (dstr.top + dy2)).y * dst.dimensions.width +
          (point16.of_int (dstr.left + dx2) (dstr.top + dy2)).x) * D.bit_depth) j hidx
      (by omega) hj (by omega)

/-- C9 as amended at a concrete input: a 32-bit `size_t`, the row (0,0)-(1,0) of a 16-bit
2x2 source with a buffer of 8 bytes copied to (1,1)-(2,1) of an 8-bit 3x3 destination
with a zeroed buffer of 9 bytes, with the sample conversion. -/
theorem C9_cross_format_copy_witness :
    ∃ m, helpers.copy_to_word 32 rgb16 gsc8 convert_16_8 (fun a _ => some a) (⟨⟨2, 2⟩, 1⟩ : bitmap)
        8 (bits.of_bytes [1, 2, 3, 4, 5, 6, 7, 8]) (⟨0, 0, 1, 0⟩ : rect16) (⟨⟨3, 3⟩, 2⟩ : bitmap) 9
        bits.uninit (⟨1, 1, 2, 1⟩ : rect16) = some (gfx_result.success, m) ∧
      (∀ dx dy, dx < (⟨1, 1, 2, 1⟩ : rect16).width → dy < (⟨1, 1, 2, 1⟩ : rect16).height →
        ∃ spx dpx mw,
          (⟨⟨2, 2⟩, 1⟩ : bitmap).point_read_word 32 rgb16 8 (bits.of_bytes [1, 2, 3, 4, 5, 6, 7, 8])
            (point16.of_int ((⟨0, 0, 1, 0⟩ : rect16).left + dx) ((⟨0, 0, 1, 0⟩ : rect16).top + dy))
                (some 0) =
              some (gfx_result.success, spx) ∧
          convert_16_8 (spx.getD 0) = some dpx ∧
          (⟨⟨3, 3⟩, 2⟩ : bitmap).point_word 32 gsc8 9 bits.uninit
            (point16.of_int ((⟨1, 1, 2, 1⟩ : rect16).left + dx) ((⟨1, 1, 2, 1⟩ : rect16).top + dy))
                dpx =
              some (gfx_result.success, mw) ∧
          ((point16.of_int ((⟨1, 1, 2, 1⟩ : rect16).left + dx) ((⟨1, 1, 2, 1⟩ : rect16).top + dy)).x
              < (⟨⟨3, 3⟩, 2⟩ : bitmap).dimensions.width →
           (point16.of_int ((⟨1, 1, 2, 1⟩ : rect16).left + dx) ((⟨1, 1, 2, 1⟩ : rect16).top + dy)).y
               < (⟨⟨3, 3⟩, 2⟩ : bitmap).dimensions.height →
           ∀ j, j < gsc8.bit_depth →
            m (((point16.of_int ((⟨1, 1, 2, 1⟩ : rect16).left + dx) ((⟨1, 1, 2, 1⟩ : rect16).top +
                dy)).y * (⟨⟨3, 3⟩, 2⟩ : bitmap).dimensions.width +
                (point16.of_int ((⟨1, 1, 2, 1⟩ : rect16).left + dx) ((⟨1, 1, 2, 1⟩ : rect16).top +
                    dy)).x) * gsc8.bit_depth + j) =
            mw (((point16.of_int ((⟨1, 1, 2, 1⟩ : rect16).left + dx) ((⟨1, 1, 2, 1⟩ : rect16).top +
                dy)).y * (⟨⟨3, 3⟩, 2⟩ : bitmap).dimensions.width +
                (point16.of_int ((⟨1, 1, 2, 1⟩ : rect16).left + dx) ((⟨1, 1, 2, 1⟩ : rect16).top +
                    dy)).x) * gsc8.bit_depth + j)) ∧
          ∀ o, (⟨⟨3, 3⟩, 2⟩ : bitmap).point_read_word 32 gsc8 9 m
              (point16.of_int ((⟨1, 1, 2, 1⟩ : rect16).left + dx) ((⟨1, 1, 2, 1⟩ : rect16).top +
                  dy)) (some o) =
            (⟨⟨3, 3⟩, 2⟩ : bitmap).point_read_word 32 gsc8 9 mw
              (point16.of_int ((⟨1, 1, 2, 1⟩ : rect16).left + dx) ((⟨1, 1, 2, 1⟩ : rect16).top +
                  dy)) (some o)) ∧
      (∀ i, (∀ dx dy, dx < (⟨1, 1, 2, 1⟩ : rect16).width → dy < (⟨1, 1, 2, 1⟩ : rect16).height →
          (point16.of_int ((⟨1, 1, 2, 1⟩ : rect16).left + dx) ((⟨1, 1, 2, 1⟩ : rect16).top + dy)).x
              < (⟨⟨3, 3⟩, 2⟩ : bitmap).dimensions.width →
          (point16.of_int ((⟨1, 1, 2, 1⟩ : rect16).left + dx) ((⟨1, 1, 2, 1⟩ : rect16).top + dy)).y
              < (⟨⟨3, 3⟩, 2⟩ : bitmap).dimensions.height →
          ¬ (((point16.of_int ((⟨1, 1, 2, 1⟩ : rect16).left + dx) ((⟨1, 1, 2, 1⟩ : rect16).top +
              dy)).y * (⟨⟨3, 3⟩, 2⟩ : bitmap).dimensions.width +
                (point16.of_int ((⟨1, 1, 2, 1⟩ : rect16).left + dx) ((⟨1, 1, 2, 1⟩ : rect16).top +
                    dy)).x) * gsc8.bit_depth ≤ i ∧
              i < ((point16.of_int ((⟨1, 1, 2, 1⟩ : rect16).left + dx) ((⟨1, 1, 2, 1⟩ : rect16).top
                  + dy)).y * (⟨⟨3, 3⟩, 2⟩ : bitmap).dimensions.width +
                (point16.of_int ((⟨1, 1, 2, 1⟩ : rect16).left + dx) ((⟨1, 1, 2, 1⟩ : rect16).top +
                    dy)).x) * gsc8.bit_depth +
                  gsc8.bit_depth)) →
        m i = bits.uninit i) ∧
      (∀ loc o, (∀ dx dy, dx < (⟨1, 1, 2, 1⟩ : rect16).width → dy < (⟨1, 1, 2, 1⟩ : rect16).height →
          point16.of_int ((⟨1, 1, 2, 1⟩ : rect16).left + dx) ((⟨1, 1, 2, 1⟩ : rect16).top + dy) ≠
              loc) →
        (⟨⟨3, 3⟩, 2⟩ : bitmap).point_read_word 32 gsc8 9 m loc (some o) =
          (⟨⟨3, 3⟩, 2⟩ : bitmap).point_read_word 32 gsc8 9 bits.uninit loc (some o)) :=
  C9_cross_format_copy 32 rgb16 gsc8 rfl rfl convert_16_8 (fun a _ => some a)
    ⟨⟨2, 2⟩, 1⟩ 8 (bits.of_bytes [1, 2, 3, 4, 5, 6, 7, 8]) ⟨0, 0, 1, 0⟩ ⟨⟨3, 3⟩, 2⟩ 9 bits.uninit
    ⟨1, 1, 2, 1⟩ (by decide) (by decide) (by decide)

/-- C10, the code at a failing input: for the 1-bit format, 16x1 bitmaps, the source
holding the bytes A5 3C (hex) and the equal-extent in-bounds rects (0,0)-(7,0) and
(4,0)-(11,0): both helpers return success, the per-pixel copy leaves the destination
bytes 0A 50 and the raw blit leaves 0A 30. -/
theorem C10_blt_vs_generic_failing_input :
    (helpers.copy_to_blt gsc1 ⟨⟨16, 1⟩, 1⟩ (bits.of_bytes [0xA5, 0x3C]) ⟨0, 0, 7, 0⟩
      ⟨⟨16, 1⟩, 2⟩ bits.uninit ⟨4, 0, 11, 0⟩).1 = gfx_result.success ∧
    (helpers.copy_to gsc1 some (fun a _ => some a) ⟨⟨16, 1⟩, 1⟩ (bits.of_bytes [0xA5, 0x3C])
      ⟨0, 0, 7, 0⟩ ((⟨⟨16, 1⟩, 2⟩ : bitmap).as_destination gsc1) bits.uninit ⟨4, 0, 11, 0⟩).1 =
      gfx_result.success ∧
    bits.to_bytes (helpers.copy_to gsc1 some (fun a _ => some a) ⟨⟨16, 1⟩, 1⟩
      (bits.of_bytes [0xA5, 0x3C]) ⟨0, 0, 7, 0⟩ ((⟨⟨16, 1⟩, 2⟩ : bitmap).as_destination gsc1)
      bits.uninit ⟨4, 0, 11, 0⟩).2 2 = [0x0A, 0x50] ∧
    bits.to_bytes (helpers.copy_to_blt gsc1 ⟨⟨16, 1⟩, 1⟩ (bits.of_bytes [0xA5, 0x3C])
      ⟨0, 0, 7, 0⟩ ⟨⟨16, 1⟩, 2⟩ bits.uninit ⟨4, 0, 11, 0⟩).2 2 = [0x0A, 0x30] := by
  decide

/-! ## Large bitmap: fill and construction -/

/-- C12, the code at a failing input: a 4x4 large bitmap of the 8-bit format with segment
height 2 (two 4x2 segments) and a 4x4 bitmap, both zeroed.  `fill` of the rect
(0,0)-(3,2) with the color 0xFF returns success on both; the location (0,3), outside the
rect, then reads 0 on the bitmap and 0xFF on the large bitmap, whose second segment was
filled over its whole height.  `fill` of the rect (0,1)-(3,2), which straddles the two
segments and is no taller than a segment, leaves the location (0,2) at 0 on the large
bitmap while the bitmap reads 0xFF there. -/
theorem C12_large_fill_failing_input :
    ((⟨⟨4, 4⟩, 2, some [⟨⟨4, 2⟩, 1⟩, ⟨⟨4, 2⟩, 2⟩]⟩ : large_bitmap).fill gsc8
      (fun _ => bits.uninit) ⟨0, 0, 3, 2⟩ 0xFF).1 = gfx_result.success ∧
    ((⟨⟨4, 4⟩, 1⟩ : bitmap).fill gsc8 bits.uninit ⟨0, 0, 3, 2⟩ 0xFF).1 = gfx_result.success ∧
    (⟨⟨4, 4⟩, 1⟩ : bitmap).point_read gsc8
      ((⟨⟨4, 4⟩, 1⟩ : bitmap).fill gsc8 bits.uninit ⟨0, 0, 3, 2⟩ 0xFF).2 ⟨0, 3⟩ (some 0) =
      (gfx_result.success, some 0) ∧
    (⟨⟨4, 4⟩, 2, some [⟨⟨4, 2⟩, 1⟩, ⟨⟨4, 2⟩, 2⟩]⟩ : large_bitmap).point_read gsc8
      ((⟨⟨4, 4⟩, 2, some [⟨⟨4, 2⟩, 1⟩, ⟨⟨4, 2⟩, 2⟩]⟩ : large_bitmap).fill gsc8
        (fun _ => bits.uninit) ⟨0, 0, 3, 2⟩ 0xFF).2 ⟨0, 3⟩ 0 =
      (gfx_result.success, some 0xFF) ∧
    (⟨⟨4, 4⟩, 1⟩ : bitmap).point_read gsc8
      ((⟨⟨4, 4⟩, 1⟩ : bitmap).fill gsc8 bits.uninit ⟨0, 1, 3, 2⟩ 0xFF).2 ⟨0, 2⟩ (some 0) =
      (gfx_result.success, some 0xFF) ∧
    (⟨⟨4, 4⟩, 2, some [⟨⟨4, 2⟩, 1⟩, ⟨⟨4, 2⟩, 2⟩]⟩ : large_bitmap).point_read gsc8
      ((⟨⟨4, 4⟩, 2, some [⟨⟨4, 2⟩, 1⟩, ⟨⟨4, 2⟩, 2⟩]⟩ : large_bitmap).fill gsc8
        (fun _ => bits.uninit) ⟨0, 1, 3, 2⟩ 0xFF).2 ⟨0, 2⟩ 0 =
      (gfx_result.success, some 0) := by
  decide

/-- C13, the code at a failing input: dimensions 4x4, segment height 2, an allocator of
which every call succeeds (call `k` returns the pointer `100 + k`) and a segment array
whose fresh memory holds zero bytes.  After the first segment is stored the constructor
tests the buffer pointer of the second, not yet stored, element, finds it null and
calls `deinit(0)`: the object is left without segments, and the deallocator received the
first buffer, a null pointer and the segment array. -/
theorem C13_construct_failing_input :
    (large_bitmap.construct gsc8 ⟨4, 4⟩ 2 (fun k _ => 100 + k)
      (fun _ => ⟨⟨0, 0⟩, 0⟩)).object.m_segments = none ∧
    (large_bitmap.construct gsc8 ⟨4, 4⟩ 2 (fun k _ => 100 + k)
      (fun _ => ⟨⟨0, 0⟩, 0⟩)).object.initialized = false ∧
    (large_bitmap.construct gsc8 ⟨4, 4⟩ 2 (fun k _ => 100 + k)
      (fun _ => ⟨⟨0, 0⟩, 0⟩)).deallocated = [101, 0, 100] ∧
    (large_bitmap.construct gsc8 ⟨4, 4⟩ 2 (fun k _ => 100 + k)
      (fun _ => ⟨⟨0, 0⟩, 0⟩)).allocations = 2 := by
  decide

/-- C14, the code at a failing input: dimensions 4x4, segment height 2, an allocator that
succeeds for the segment array, returns null for the first segment buffer (N = 1) and
succeeds afterwards, and a segment array whose fresh memory holds non-null garbage.  The
test after the failed allocation reads the second element, not the one just stored, so
the constructor goes on: the object is initialized, its first segment has a null
buffer, and the deallocator was never called. -/
theorem C14_construct_failing_input :
    (large_bitmap.construct gsc8 ⟨4, 4⟩ 2 (fun k _ => if k = 1 then 0 else 100 + k)
      (fun _ => ⟨⟨7, 7⟩, 57005⟩)).object.initialized = true ∧
    (large_bitmap.construct gsc8 ⟨4, 4⟩ 2 (fun k _ => if k = 1 then 0 else 100 + k)
      (fun _ => ⟨⟨7, 7⟩, 57005⟩)).object.m_segments =
      some [⟨⟨4, 2⟩, 0⟩, ⟨⟨4, 2⟩, 102⟩] ∧
    (large_bitmap.construct gsc8 ⟨4, 4⟩ 2 (fun k _ => if k = 1 then 0 else 100 + k)
      (fun _ => ⟨⟨7, 7⟩, 57005⟩)).deallocated = [] := by
  decide

/-! ## Null buffers and buffer sizes -/

/-- With a null buffer pointer the point read, the point write, `clear` and `copy_to`
return out_of_memory for every argument, and `fill` does for every rect that
intersects the bounds. -/
theorem bitmap.null_buffer_results (F : pixel_format) (convert : Nat → Option Nat)
    (b : bitmap) (hb : b.m_begin = 0) (mem : Mem) (loc : point16) (o p : Nat) (r : rect16)
    (dst : bitmap) (dmem : Mem) :
    (b.point_read F mem loc (some o)).1 = gfx_result.out_of_memory ∧
    (b.point F mem loc p).1 = gfx_result.out_of_memory ∧
    (b.clear F mem r).1 = gfx_result.out_of_memory ∧
    (b.copy_to F convert mem r dst dmem loc).1 = gfx_result.out_of_memory ∧
    (dst.copy_to F convert dmem r b mem loc).1 = gfx_result.out_of_memory := by
  refine ⟨?_, ?_, ?_, ?_, ?_⟩ <;>
    simp [bitmap.point_read, bitmap.point, bitmap.clear, bitmap.copy_to, hb]

/-- C19, the code at a failing input: a 4x4 bitmap of the 16-bit format with a null
buffer pointer and the rect (10,10)-(12,12), which does not intersect its bounds.
`fill` returns success, where `clear` of the same rect returns out_of_memory. -/
theorem C19_fill_null_failing_input :
    ((⟨⟨4, 4⟩, 0⟩ : bitmap).fill rgb16 bits.uninit ⟨10, 10, 12, 12⟩ 0xFFFF).1 =
      gfx_result.success ∧
    ((⟨⟨4, 4⟩, 0⟩ : bitmap).clear rgb16 bits.uninit ⟨10, 10, 12, 12⟩).1 =
      gfx_result.out_of_memory := by
  decide

/-- C20 as amended: for a `size_t` of at least 32 bits, every width, height and bit depth
with `width*height` below 2^31 (the range of `int`) and `width*height*bit_depth + 7`
representable in `size_t`, `sizeof_buffer` equals `ceil(width*height*bit_depth / 8)` in
exact integer arithmetic: it is the least number of bytes that hold that many bits. -/
theorem C20_sizeof_buffer_exact (size_bits : Nat) (F : pixel_format) (size : size16)
    (hint : size.width * size.height < 2 ^ 31)
    (hsize : size.width * size.height * F.bit_depth + 7 < 2 ^ size_bits) :
    bitmap.sizeof_buffer_word size_bits F size =
      (size.width * size.height * F.bit_depth + 7) / 8 ∧
    bitmap.sizeof_buffer_word size_bits F size = bitmap.sizeof_buffer F size ∧
    size.width * size.height * F.bit_depth ≤ 8 * bitmap.sizeof_buffer_word size_bits F size ∧
    8 * bitmap.sizeof_buffer_word size_bits F size < size.width * size.height * F.bit_depth + 8 := by
  have e : bitmap.sizeof_buffer_word size_bits F size =
      (size.width * size.height * F.bit_depth + 7) / 8 := by
    unfold bitmap.sizeof_buffer_word
    have h32 : size.width * size.height < 2 ^ 32 := by omega
    simp only [Nat.mod_eq_of_lt h32, hint, if_true]
    have h1 : size.width * size.height * F.bit_depth < 2 ^ size_bits := by omega
    rw [Nat.mod_eq_of_lt h1, Nat.mod_eq_of_lt hsize]
  refine ⟨e, ?_, ?_, ?_⟩
  · rw [e]; rfl
  · rw [e]; omega
  · rw [e]; omega

/-- C20 as amended at a concrete input: a 320x240 bitmap of the 16-bit format and a 32-bit
`size_t`. -/
theorem C20_sizeof_buffer_exact_witness :
    bitmap.sizeof_buffer_word 32 rgb16 ⟨320, 240⟩ = (320 * 240 * rgb16.bit_depth + 7) / 8 ∧
    bitmap.sizeof_buffer_word 32 rgb16 ⟨320, 240⟩ = bitmap.sizeof_buffer rgb16 ⟨320, 240⟩ ∧
    320 * 240 * rgb16.bit_depth ≤ 8 * bitmap.sizeof_buffer_word 32 rgb16 ⟨320, 240⟩ ∧
    8 * bitmap.sizeof_buffer_word 32 rgb16 ⟨320, 240⟩ < 320 * 240 * rgb16.bit_depth + 8 :=
  C20_sizeof_buffer_exact 32 rgb16 ⟨320, 240⟩ (by decide) (by decide)

/-- C20, the claim as stated fails for large extents.  With a 32-bit `size_t` and the
16-bit format, `sizeof_buffer(65535, 65535)` is 536608770 where the exact value is
8589672450: the multiplication by the bit depth wraps.  With a 64-bit `size_t` and the
1-bit format, the `int` product 65535*65535 passes 2^31 and converts to a `size_t` near
2^64, so the result is 2305843009213677569 where the exact value is 536854529. -/
theorem C20_sizeof_buffer_wraps :
    bitmap.sizeof_buffer_word 32 rgb16 ⟨65535, 65535⟩ = 536608770 ∧
    (65535 * 65535 * rgb16.bit_depth + 7) / 8 = 8589672450 ∧
    bitmap.sizeof_buffer_word 64 gsc1 ⟨65535, 65535⟩ = 2305843009213677569 ∧
    (65535 * 65535 * gsc1.bit_depth + 7) / 8 = 536854529 := by
  decide

/-! ## Large bitmap: point reads and writes -/

/-- The point read in closed form for a pixel that its byte window covers: the result
holds the bits of the pixel's range as its leading bits. -/
theorem bitmap.point_read_bits_cover (F : pixel_format) (hF : F.bit_depth ≤ 64) (b : bitmap)
    (hb : b.m_begin ≠ 0) (mem : Mem) (loc : point16) (hx : loc.x < b.dimensions.width)
    (hy : loc.y < b.dimensions.height) (o : Nat)
    (hcov : ((loc.y * b.dimensions.width + loc.x) * F.bit_depth) % 8 + F.bit_depth ≤
      8 * bitmap.window_size F (((loc.y * b.dimensions.width + loc.x) * F.bit_depth) % 8)) :
    ∃ r, b.point_read F mem loc (some o) = (gfx_result.success, some r) ∧
      ∀ k, r.testBit k =
        (decide (F.pad_right_bits ≤ k ∧ k < F.total_size_bits) &&
          mem ((loc.y * b.dimensions.width + loc.x) * F.bit_depth + (F.total_size_bits - 1 - k))) := by
  obtain ⟨r, e, t⟩ := bitmap.point_read_bits F hF b hb mem loc hx hy o
  refine ⟨r, e, ?_⟩
  intro k
  rw [t]
  by_cases hk : F.pad_right_bits ≤ k ∧ k < F.total_size_bits
  · have hD := F.depth_le_total hF
    have c : F.total_size_bits - 1 - k +
        ((loc.y * b.dimensions.width + loc.x) * F.bit_depth) % 8 <
        8 * bitmap.window_size F (((loc.y * b.dimensions.width + loc.x) * F.bit_depth) % 8) := by
      unfold pixel_format.pad_right_bits at hk
      omega
    simp [hk, c]
  · simp [hk]

/-- Two in-bounds pixels, of two bitmaps of one format, whose ranges hold the same bits
read the same, when the byte window covers both. -/
theorem bitmap.point_read_transport (F : pixel_format) (hF : F.bit_depth ≤ 64)
    (b1 b2 : bitmap) (hb1 : b1.m_begin ≠ 0) (hb2 : b2.m_begin ≠ 0) (m1 m2 : Mem)
    (loc1 loc2 : point16) (hx1 : loc1.x < b1.dimensions.width)
    (hy1 : loc1.y < b1.dimensions.height) (hx2 : loc2.x < b2.dimensions.width)
    (hy2 : loc2.y < b2.dimensions.height) (o : Nat)
    (hc1 : ((loc1.y * b1.dimensions.width + loc1.x) * F.bit_depth) % 8 + F.bit_depth ≤
      8 * bitmap.window_size F (((loc1.y * b1.dimensions.width + loc1.x) * F.bit_depth) % 8))
    (hc2 : ((loc2.y * b2.dimensions.width + loc2.x) * F.bit_depth) % 8 + F.bit_depth ≤
      8 * bitmap.window_size F (((loc2.y * b2.dimensions.width + loc2.x) * F.bit_depth) % 8))
    (h : ∀ j, j < F.bit_depth →
      m1 ((loc1.y * b1.dimensions.width + loc1.x) * F.bit_depth + j) =
      m2 ((loc2.y * b2.dimensions.width + loc2.x) * F.bit_depth + j)) :
    b1.point_read F m1 loc1 (some o) = b2.point_read F m2 loc2 (some o) := by
  obtain ⟨r1, e1, t1⟩ := bitmap.point_read_bits_cover F hF b1 hb1 m1 loc1 hx1 hy1 o hc1
  obtain ⟨r2, e2, t2⟩ := bitmap.point_read_bits_cover F hF b2 hb2 m2 loc2 hx2 hy2 o hc2
  have hr : r1 = r2 := by
    apply Nat.eq_of_testBit_eq
    intro k
    rw [t1, t2]
    by_cases hk : F.pad_right_bits ≤ k ∧ k < F.total_size_bits
    · have hj : F.total_size_bits - 1 - k < F.bit_depth := by
        have := F.depth_le_total hF
        unfold pixel_format.pad_right_bits at hk
        omega
      rw [h _ hj]
    · simp [hk]
  rw [e1, e2, hr]

/-- The point write of a bitmap with a buffer in closed form, alpha or not: the result
code and the new buffer depend on the old buffer only through the point read at the
location. -/
theorem bitmap.point_unfold (F : pixel_format) (b : bitmap) (hb : b.m_begin ≠ 0) (mem : Mem)
    (loc : point16) (hx : loc.x < b.dimensions.width) (hy : loc.y < b.dimensions.height)
    (p : Nat) :
    b.point F mem loc p =
      if F.has_alpha then
        match b.point_read F mem loc (some 0) with
        | (gfx_result.success, bgpx) =>
          match F.convert_bg p (bgpx.getD 0) with
          | none => (gfx_result.not_supported, mem)
          | some rhs2 => b.point_impl F mem loc rhs2
        | (r, _) => (r, mem)
      else b.point_impl F mem loc p := by
  have hnx : ¬ (loc.x ≥ b.dimensions.width ∨ loc.y ≥ b.dimensions.height) := by omega
  simp only [bitmap.point, hb, if_false, hnx]

/-- In a valid large bitmap the segment of an in-bounds row has a buffer and the full
width, and holds the row. -/
theorem large_bitmap.valid_row (l : large_bitmap) (segments : List bitmap)
    (hv : l.valid segments) (y : Nat) (hy : y < l.m_dimensions.height) :
    (large_bitmap.segment segments (y / l.m_segment_height)).m_begin ≠ 0 ∧
    (large_bitmap.segment segments (y / l.m_segment_height)).dimensions.width =
      l.m_dimensions.width ∧
    y % l.m_segment_height <
      (large_bitmap.segment segments (y / l.m_segment_height)).dimensions.height ∧
    u16 (y % l.m_segment_height) = y % l.m_segment_height := by
  obtain ⟨_, hsh, hh, hlen, hsegs⟩ := hv
  have hdm := Nat.div_add_mod y l.m_segment_height
  have hml : y % l.m_segment_height < l.m_segment_height := Nat.mod_lt _ hsh
  have hmle : y % l.m_segment_height ≤ y := Nat.mod_le _ _
  have hi : y / l.m_segment_height < segments.length := by
    rw [hlen]
    apply (Nat.lt_iff_add_one_le).2
    rw [Nat.le_div_iff_mul_le hsh, Nat.add_mul]
    rw [Nat.mul_comm] at hdm
    omega
  obtain ⟨h1, h2⟩ := hsegs _ hi
  refine ⟨h1, ?_, ?_, ?_⟩
  · simp only [bitmap.dimensions, h2]
  · simp only [bitmap.dimensions, h2]
    rw [Nat.mul_comm] at hdm
    omega
  · unfold u16
    omega

/-- In bounds the point read of a valid large bitmap is the point read of the bitmap
that holds the same pixels. -/
theorem large_bitmap.point_read_eq (F : pixel_format) (hF : F.bit_depth ≤ 64)
    (hcov : bitmap.window_covers F) (l : large_bitmap) (segments : List bitmap)
    (hv : l.valid segments) (p : Nat) (hp : p ≠ 0) (mem : Mem) (segs : Nat → Mem)
    (hs : large_bitmap.same_pixels F l mem segs) (loc : point16) :
    l.point_read F segs loc 0 = (⟨l.m_dimensions, p⟩ : bitmap).point_read F mem loc (some 0) := by
  have hseg := hv.1
  by_cases hin : loc.x < l.m_dimensions.width ∧ loc.y < l.m_dimensions.height
  · have hnx : ¬ (loc.x ≥ l.m_dimensions.width ∨ loc.y ≥ l.m_dimensions.height) := by omega
    obtain ⟨r1, r2, r3, r4⟩ := large_bitmap.valid_row l segments hv loc.y hin.2
    simp only [large_bitmap.point_read, hseg, hnx, if_false, r4]
    refine bitmap.point_read_transport F hF
      (large_bitmap.segment segments (loc.y / l.m_segment_height)) ⟨l.m_dimensions, p⟩ r1 hp
      (segs (loc.y / l.m_segment_height)) mem ⟨loc.x, loc.y % l.m_segment_height⟩ loc
      (by rw [r2]; exact hin.1) r3 hin.1 hin.2 0 (hcov _) (hcov _) ?_
    intro j hj
    simp only [r2]
    exact (hs loc.x loc.y hin.1 hin.2 j hj).symm
  · have hnx : loc.x ≥ l.m_dimensions.width ∨ loc.y ≥ l.m_dimensions.height := by omega
    have hnx2 : loc.x ≥ (⟨l.m_dimensions, p⟩ : bitmap).dimensions.width ∨
        loc.y ≥ (⟨l.m_dimensions, p⟩ : bitmap).dimensions.height := hnx
    simp [large_bitmap.point_read, hseg, hnx, bitmap.point_read, hp, hnx2]

/-- A store at an in-bounds location of the bitmap and the store at the matching
location of the segment keep the two buffers holding the same pixels. -/
theorem large_bitmap.point_impl_same_pixels (F : pixel_format) (l : large_bitmap)
    (segments : List bitmap) (hv : l.valid segments) (p : Nat) (hp : p ≠ 0) (mem : Mem)
    (segs : Nat → Mem) (hs : large_bitmap.same_pixels F l mem segs) (loc : point16)
    (hx : loc.x < l.m_dimensions.width) (hy : loc.y < l.m_dimensions.height) (v : Nat) :
    large_bitmap.same_pixels F l ((⟨l.m_dimensions, p⟩ : bitmap).point_impl F mem loc v).2
      (Function.update segs (loc.y / l.m_segment_height)
        ((large_bitmap.segment segments (loc.y / l.m_segment_height)).point_impl F
          (segs (loc.y / l.m_segment_height)) ⟨loc.x, loc.y % l.m_segment_height⟩ v).2) := by
  obtain ⟨r1, r2, r3, r4⟩ := large_bitmap.valid_row l segments hv loc.y hy
  intro x2 y2 hx2 hy2 j hj
  by_cases heq : x2 = loc.x ∧ y2 = loc.y
  · obtain ⟨rfl, rfl⟩ := heq
    have r2m : (large_bitmap.segment segments (loc.y / l.m_segment_height)).m_dimensions.width =
        l.m_dimensions.width := r2
    rw [Function.update_same, bitmap.point_impl_bits F _ hp, bitmap.point_impl_bits F _ r1]
    simp only [bitmap.dimensions, r2m]
    rw [if_pos ⟨Nat.le_add_right _ _, Nat.add_lt_add_left hj _⟩,
      if_pos ⟨Nat.le_add_right _ _, Nat.add_lt_add_left hj _⟩]
    simp only [Nat.add_sub_cancel_left]
  · have hne : (⟨x2, y2⟩ : point16) ≠ loc := by
      intro h
      apply heq
      rw [← h]
      exact ⟨rfl, rfl⟩
    have k1 := bitmap.point_impl_other F (⟨l.m_dimensions, p⟩ : bitmap) hp mem loc hx v
      ⟨x2, y2⟩ hx2 hne j hj
    simp only [bitmap.dimensions] at k1
    rw [k1]
    by_cases hq : y2 / l.m_segment_height = loc.y / l.m_segment_height
    · rw [hq, Function.update_same]
      have hne2 : (⟨x2, y2 % l.m_segment_height⟩ : point16) ≠
          ⟨loc.x, loc.y % l.m_segment_height⟩ := by
        intro h
        simp only [point16.mk.injEq] at h
        apply heq
        refine ⟨h.1, ?_⟩
        have d1 := Nat.div_add_mod y2 l.m_segment_height
        have d2 := Nat.div_add_mod loc.y l.m_segment_height
        rw [hq, h.2] at d1
        omega
      have k2 := bitmap.point_impl_other F
        (large_bitmap.segment segments (loc.y / l.m_segment_height)) r1
        (segs (loc.y / l.m_segment_height)) ⟨loc.x, loc.y % l.m_segment_height⟩
        (by rw [r2]; exact hx) v ⟨x2, y2 % l.m_segment_height⟩ (by rw [r2]; exact hx2) hne2 j hj
      simp only [r2] at k2
      rw [k2, ← hq]
      exact hs x2 y2 hx2 hy2 j hj
    · rw [Function.update_noteq hq]
      exact hs x2 y2 hx2 hy2 j hj

/-- A point write of a valid large bitmap returns what the point write of the bitmap that
holds the same pixels returns, and the two still hold the same pixels afterwards. -/
theorem large_bitmap.point_eq (F : pixel_format) (hF : F.bit_depth ≤ 64)
    (hcov : bitmap.window_covers F) (l : large_bitmap) (segments : List bitmap)
    (hv : l.valid segments) (p : Nat) (hp : p ≠ 0) (mem : Mem) (segs : Nat → Mem)
    (hs : large_bitmap.same_pixels F l mem segs) (loc : point16) (c : Nat) :
    (l.point F segs loc c).1 = ((⟨l.m_dimensions, p⟩ : bitmap).point F mem loc c).1 ∧
    large_bitmap.same_pixels F l ((⟨l.m_dimensions, p⟩ : bitmap).point F mem loc c).2
      (l.point F segs loc c).2 := by
  have hseg := hv.1
  by_cases hin : loc.x < l.m_dimensions.width ∧ loc.y < l.m_dimensions.height
  · have hnx : ¬ (loc.x ≥ l.m_dimensions.width ∨ loc.y ≥ l.m_dimensions.height) := by omega
    obtain ⟨r1, r2, r3, r4⟩ := large_bitmap.valid_row l segments hv loc.y hin.2
    have hrd := large_bitmap.point_read_eq F hF hcov l segments hv p hp mem segs hs loc
    simp only [large_bitmap.point_read, hseg, hnx, if_false, r4] at hrd
    have himpl := fun v => large_bitmap.point_impl_same_pixels F l segments hv p hp mem segs hs
      loc hin.1 hin.2 v
    have hf1 := fun v => bitmap.point_impl_fst F
      (large_bitmap.segment segments (loc.y / l.m_segment_height)) r1
      (segs (loc.y / l.m_segment_height)) ⟨loc.x, loc.y % l.m_segment_height⟩ v
    have hf2 := fun v => bitmap.point_impl_fst F (⟨l.m_dimensions, p⟩ : bitmap) hp mem loc v
    simp only [large_bitmap.point, hseg, hnx, if_false, r4]
    rw [bitmap.point_unfold F _ r1 _ _ (by rw [r2]; exact hin.1) r3,
      bitmap.point_unfold F (⟨l.m_dimensions, p⟩ : bitmap) hp mem loc hin.1 hin.2, hrd]
    by_cases ha : F.has_alpha = true
    · simp only [ha, if_true]
      rcases hq : (⟨l.m_dimensions, p⟩ : bitmap).point_read F mem loc (some 0) with ⟨r, bg⟩
      cases r
      · simp only
        rcases hc : F.convert_bg c (bg.getD 0) with _ | v
        · simp only
          rw [Function.update_eq_self]
          exact ⟨trivial, hs⟩
        · simp only
          exact ⟨(hf1 v).trans (hf2 v).symm, himpl v⟩
      all_goals
        simp only
        rw [Function.update_eq_self]
        exact ⟨trivial, hs⟩
    · simp only [ha, if_false]
      exact ⟨(hf1 c).trans (hf2 c).symm, himpl c⟩
  · have hnx : loc.x ≥ l.m_dimensions.width ∨ loc.y ≥ l.m_dimensions.height := by omega
    have hnx2 : loc.x ≥ (⟨l.m_dimensions, p⟩ : bitmap).dimensions.width ∨
        loc.y ≥ (⟨l.m_dimensions, p⟩ : bitmap).dimensions.height := hnx
    simp only [large_bitmap.point, hseg, hnx, if_true, bitmap.point, hp, if_false, hnx2]
    exact ⟨trivial, hs⟩

/-- Over exact offsets and for a large bitmap that satisfies the segment invariant
`valid`: every sequence of point writes and point reads returns the same result codes
and pixels as on a single bitmap of the same dimensions and format that starts with the
same pixels, for a format of at most 64 bits whose read window covers the pixel at every
bit offset. -/
theorem large_bitmap.run_eq_of_valid (F : pixel_format) (hF : F.bit_depth ≤ 64)
    (hcov : bitmap.window_covers F) (l : large_bitmap) (segments : List bitmap)
    (hv : l.valid segments) (p : Nat) (hp : p ≠ 0) (ops : List bitmap.pixel_op) (mem : Mem)
    (segs : Nat → Mem) (hs : large_bitmap.same_pixels F l mem segs) :
    l.run F ops segs = (⟨l.m_dimensions, p⟩ : bitmap).run F ops mem := by
  induction ops generalizing mem segs with
  | nil => rfl
  | cons op rest ih =>
    cases op with
    | write location color =>
      obtain ⟨h1, h2⟩ := large_bitmap.point_eq F hF hcov l segments hv p hp mem segs hs
        location color
      simp only [large_bitmap.run, bitmap.run, h1, ih _ _ h2]
    | read location =>
      simp only [large_bitmap.run, bitmap.run, ih _ _ hs,
        large_bitmap.point_read_eq F hF hcov l segments hv p hp mem segs hs location]

/-- C11, the code at a failing input: the large bitmap that the constructor builds for
the dimensions 4x4 and the segment height 2 with an allocator that succeeds for the
segment array, returns null for the first segment buffer and succeeds afterwards, over a
segment array whose fresh memory holds non-null garbage (the input of C14).  The object
is initialized and has the dimensions 4x4, and its first segment has a null buffer: the
write of 0xAB at (0,0) and the read at (0,0) return out_of_memory, where on a single 4x4
bitmap of the same format, with a zeroed buffer of `sizeof_buffer(dimensions)` bytes,
they return success and the pixel 0xAB; the write and the read at (1,2), in the second
segment, agree with the bitmap. -/
theorem C11_large_bitmap_failing_input :
    (large_bitmap.construct gsc8 ⟨4, 4⟩ 2 (fun k _ => if k = 1 then 0 else 100 + k)
      (fun _ => ⟨⟨7, 7⟩, 57005⟩)).object.initialized = true ∧
    (large_bitmap.construct gsc8 ⟨4, 4⟩ 2 (fun k _ => if k = 1 then 0 else 100 + k)
      (fun _ => ⟨⟨7, 7⟩, 57005⟩)).object.m_dimensions = ⟨4, 4⟩ ∧
    (large_bitmap.construct gsc8 ⟨4, 4⟩ 2 (fun k _ => if k = 1 then 0 else 100 + k)
      (fun _ => ⟨⟨7, 7⟩, 57005⟩)).object.run gsc8
      [bitmap.pixel_op.write ⟨0, 0⟩ 0xAB, bitmap.pixel_op.read ⟨0, 0⟩,
        bitmap.pixel_op.write ⟨1, 2⟩ 0xCD, bitmap.pixel_op.read ⟨1, 2⟩] (fun _ => bits.uninit) =
      [(gfx_result.out_of_memory, none), (gfx_result.out_of_memory, some 0),
        (gfx_result.success, none), (gfx_result.success, some 0xCD)] ∧
    (⟨⟨4, 4⟩, 1⟩ : bitmap).run gsc8
      [bitmap.pixel_op.write ⟨0, 0⟩ 0xAB, bitmap.pixel_op.read ⟨0, 0⟩,
        bitmap.pixel_op.write ⟨1, 2⟩ 0xCD, bitmap.pixel_op.read ⟨1, 2⟩] bits.uninit =
      [(gfx_result.success, none), (gfx_result.success, some 0xAB),
        (gfx_result.success, none), (gfx_result.success, some 0xCD)] ∧
    (bitmap.point_word 32 gsc8 ⟨⟨4, 4⟩, 1⟩ (bitmap.sizeof_buffer gsc8 ⟨4, 4⟩) bits.uninit
      ⟨0, 0⟩ 0xAB).map Prod.fst = some gfx_result.success ∧
    (bitmap.point_word 32 gsc8 ⟨⟨4, 4⟩, 1⟩ (bitmap.sizeof_buffer gsc8 ⟨4, 4⟩) bits.uninit
      ⟨0, 0⟩ 0xAB).bind (fun r => bitmap.point_read_word 32 gsc8 ⟨⟨4, 4⟩, 1⟩
        (bitmap.sizeof_buffer gsc8 ⟨4, 4⟩) r.2 ⟨0, 0⟩ (some 0)) =
      some (gfx_result.success, some 0xAB) := by
  decide

/-! ## The per-pixel copy: order of the calls and failures -/

theorem for_each_map {σ : Type} (f : Nat → Nat) (l : List Nat)
    (body : Nat → σ → gfx_result × σ) (s : σ) :
    for_each (l.map f) body s = for_each l (fun i => body (f i)) s := by
  induction l generalizing s with
  | nil => rfl
  | cons i rest ih =>
    simp only [List.map_cons, for_each]
    rcases body (f i) s with ⟨r, s2⟩
    cases r <;> simp only
    exact ih s2

theorem for_each_congr {σ : Type} (l : List Nat) (b1 b2 : Nat → σ → gfx_result × σ)
    (h : ∀ i, i ∈ l → ∀ s, b1 i s = b2 i s) (s : σ) :
    for_each l b1 s = for_each l b2 s := by
  induction l generalizing s with
  | nil => rfl
  | cons i rest ih =>
    simp only [for_each]
    rw [h i (List.mem_cons_self _ _) s]
    rcases b2 i s with ⟨r, s2⟩
    cases r <;> simp only
    exact ih (fun j hj => h j (List.mem_cons_of_mem _ hj)) s2

/-- A property that holds before a loop and is kept by every pass, successful or not,
holds for the state the loop ends in. -/
theorem for_each_always {σ : Type} (l : List Nat) (body : Nat → σ → gfx_result × σ)
    (Inv : σ → Prop) (hstep : ∀ i t, Inv t → Inv (body i t).2) (s : σ) (h0 : Inv s) :
    Inv (for_each l body s).2 := by
  induction l generalizing s with
  | nil => exact h0
  | cons i rest ih =>
    simp only [for_each]
    have hs := hstep i s h0
    rcases hb : body i s with ⟨r, s2⟩
    rw [hb] at hs
    cases r <;> simp only
    · exact ih s2 hs
    all_goals exact hs

/-- A loop whose first `k` passes succeed and whose pass `k` fails returns the result of
that pass. -/
theorem for_each_fail_at {σ : Type} (n k : Nat) (hk : k < n) (body : Nat → σ → gfx_result × σ)
    (s sk sf : σ) (r : gfx_result)
    (hpre : for_each (List.range k) body s = (gfx_result.success, sk))
    (hfail : body k sk = (r, sf)) (hr : r ≠ gfx_result.success) :
    for_each (List.range n) body s = (r, sf) := by
  have e : n = k + ((n - k - 1) + 1) := by omega
  rw [e, List.range_add, for_each_append_success _ _ _ _ _ hpre, List.range_succ_eq_map]
  cases r
  · exact absurd rfl hr
  all_goals simp only [List.map_cons, Nat.add_zero, for_each, hfail]

/-- A double loop over rows and columns is the single loop over the row-major index. -/
theorem for_each_flat {σ : Type} (H W : Nat) (body : Nat → Nat → σ → gfx_result × σ) (s : σ) :
    for_each (List.range H) (fun dy t => for_each (List.range W) (body dy) t) s =
      for_each (List.range (H * W)) (fun k t => body (k / W) (k % W) t) s := by
  induction H with
  | zero => simp [for_each]
  | succ H ih =>
    have e : (H + 1) * W = H * W + W := Nat.succ_mul H W
    rw [List.range_succ, e, List.range_add]
    rcases hp : for_each (List.range H)
      (fun dy t => for_each (List.range W) (body dy) t) s with ⟨r, s1⟩
    by_cases hr : r = gfx_result.success
    · subst hr
      rw [for_each_append_success _ _ _ _ _ hp, for_each_singleton,
        for_each_append_success _ _ _ _ _ (ih ▸ hp), for_each_map]
      apply for_each_congr
      intro dx hdx t
      have hlt : dx < W := List.mem_range.1 hdx
      have h1 : (H * W + dx) / W = H := by
        rw [Nat.mul_comm, Nat.mul_add_div (by omega), Nat.div_eq_of_lt hlt, Nat.add_zero]
      have h2 : (H * W + dx) % W = dx := by
        rw [Nat.mul_comm, Nat.mul_add_mod, Nat.mod_eq_of_lt hlt]
      rw [h1, h2]
    · have hne : (for_each (List.range H)
          (fun dy t => for_each (List.range W) (body dy) t) s).1 ≠ gfx_result.success := by
        rw [hp]; exact hr
      have hne2 : (for_each (List.range (H * W))
          (fun k t => body (k / W) (k % W) t) s).1 ≠ gfx_result.success := by
        rw [← ih]; exact hne
      rw [for_each_append_failure _ _ _ _ hne, for_each_append_failure _ _ _ _ hne2, hp, ← ih, hp]

theorem helpers.copy_loop_flat {σ : Type} (S : pixel_format) (convert : Nat → Option Nat)
    (convert_bg : Nat → Nat → Option Nat) (src : bitmap) (smem : Mem) (srcr : rect16)
    (dst : destination σ) (s : σ) (dstr : rect16) :
    helpers.copy_loop S convert convert_bg src smem srcr dst s dstr =
      for_each (List.range (dstr.height * dstr.width))
        (helpers.copy_step S convert convert_bg src smem srcr dst dstr) s := by
  unfold helpers.copy_loop
  rw [for_each_flat]
  rfl

/-- The generic `copy_to` is `suspend`, then the part up to `commit_batch`, then
`resume` when that part succeeded. -/
theorem helpers.copy_to_inner {σ : Type} (S : pixel_format) (convert : Nat → Option Nat)
    (convert_bg : Nat → Nat → Option Nat) (src : bitmap) (smem : Mem) (srcr : rect16)
    (dst : destination σ) (s : σ) (dstr : rect16) :
    helpers.copy_to S convert convert_bg src smem srcr dst s dstr =
      if (helpers.suspend dst s).1 = gfx_result.success then
        if (helpers.copy_inner S convert convert_bg src smem srcr dst
            (helpers.suspend dst s).2 dstr).1 = gfx_result.success then
          helpers.resume dst (helpers.copy_inner S convert convert_bg src smem srcr dst
            (helpers.suspend dst s).2 dstr).2
        else helpers.copy_inner S convert convert_bg src smem srcr dst (helpers.suspend dst s).2 dstr
      else helpers.suspend dst s := by
  unfold helpers.copy_to helpers.copy_inner helpers.copy_loop
  rcases helpers.suspend dst s with ⟨r0, s1⟩
  cases r0 <;> simp only [reduceCtorEq, if_false, if_true]
  rcases helpers.begin_batch dst dstr s1 with ⟨r1, s2⟩
  cases r1 <;> simp only [reduceCtorEq, if_false, if_true]
  rcases for_each (List.range dstr.height) _ s2 with ⟨r2, s3⟩
  cases r2 <;> simp only [reduceCtorEq, if_false, if_true]
  rcases helpers.commit_batch dst s3 with ⟨r3, s4⟩
  cases r3 <;> simp only [reduceCtorEq, if_false, if_true]

theorem helpers.suspend_traced {σ : Type} (dst : destination σ) (t : σ × List event) :
    helpers.suspend dst.traced t = ((helpers.suspend dst t.1).1, ((helpers.suspend dst t.1).2,
      t.2 ++ (if dst.caps_suspend then [event.suspend] else []))) := by
  unfold helpers.suspend destination.traced
  cases dst.caps_suspend <;> simp

theorem helpers.resume_traced {σ : Type} (dst : destination σ) (t : σ × List event) :
    helpers.resume dst.traced t = ((helpers.resume dst t.1).1, ((helpers.resume dst t.1).2,
      t.2 ++ (if dst.caps_suspend then [event.resume] else []))) := by
  unfold helpers.resume destination.traced
  cases dst.caps_suspend <;> simp

theorem helpers.begin_batch_traced {σ : Type} (dst : destination σ) (rect : rect16)
    (t : σ × List event) :
    helpers.begin_batch dst.traced rect t =
      ((helpers.begin_batch dst rect t.1).1, ((helpers.begin_batch dst rect t.1).2,
        t.2 ++ (if dst.caps_batch then [event.begin_batch rect] else []))) := by
  unfold helpers.begin_batch destination.traced
  cases dst.caps_batch <;> simp

theorem helpers.commit_batch_traced {σ : Type} (dst : destination σ) (t : σ × List event) :
    helpers.commit_batch dst.traced t =
      ((helpers.commit_batch dst t.1).1, ((helpers.commit_batch dst t.1).2,
        t.2 ++ (if dst.caps_batch then [event.commit_batch] else []))) := by
  unfold helpers.commit_batch destination.traced
  cases dst.caps_batch <;> simp

theorem helpers.write_batch_traced {σ : Type} (dst : destination σ) (location : point16)
    (color : Nat) (t : σ × List event) :
    helpers.write_batch dst.traced location color t =
      ((helpers.write_batch dst location color t.1).1,
        ((helpers.write_batch dst location color t.1).2,
          t.2 ++ [event.write_of dst.caps_batch location color])) := by
  unfold helpers.write_batch destination.traced event.write_of
  cases dst.caps_batch <;> simp

/-- The four ways a pass of the per-pixel copy over a recording destination ends: the
source read fails; the read of the background fails; the conversion fails; or the
converted pixel is handed to the write, whose result is the result of the pass. -/
theorem helpers.copy_step_traced {σ : Type} (S : pixel_format) (convert : Nat → Option Nat)
    (convert_bg : Nat → Nat → Option Nat) (src : bitmap) (smem : Mem) (srcr : rect16)
    (dst : destination σ) (dstr : rect16) (k : Nat) (t tf : σ × List event) (r : gfx_result)
    (h : helpers.copy_step S convert convert_bg src smem srcr dst.traced dstr k t = (r, tf)) :
    (r ≠ gfx_result.success ∧ (helpers.step_source S src smem srcr dstr k).1 = r ∧ tf = t) ∨
    (r ≠ gfx_result.success ∧ (helpers.step_source S src smem srcr dstr k).1 = gfx_result.success ∧
      S.has_alpha = true ∧ (dst.point_read (helpers.step_location dstr k) t.1).1 = r ∧
      tf = ((dst.point_read (helpers.step_location dstr k) t.1).2.2,
        t.2 ++ [event.point_read (helpers.step_location dstr k)])) ∨
    ((helpers.step_source S src smem srcr dstr k).1 = gfx_result.success ∧
      (S.has_alpha = true → (dst.point_read (helpers.step_location dstr k) t.1).1 =
        gfx_result.success) ∧
      (if S.has_alpha then
          convert_bg (((helpers.step_source S src smem srcr dstr k).2).getD 0)
            (dst.point_read (helpers.step_location dstr k) t.1).2.1
        else convert (((helpers.step_source S src smem srcr dstr k).2).getD 0)) = none ∧
      r = (if S.has_alpha then gfx_result.not_supported else gfx_result.invalid_format) ∧
      tf = (helpers.write_state S dst dstr k t.1,
        t.2 ++ (if S.has_alpha then [event.point_read (helpers.step_location dstr k)] else []))) ∨
    (∃ p, helpers.converted S convert convert_bg src smem srcr dstr k
        (dst.point_read (helpers.step_location dstr k) t.1).2.1 p ∧
      (S.has_alpha = true → (dst.point_read (helpers.step_location dstr k) t.1).1 =
        gfx_result.success) ∧
      helpers.write_batch dst (helpers.step_location dstr k) p
        (helpers.write_state S dst dstr k t.1) = (r, tf.1) ∧
      tf.2 = t.2 ++ helpers.step_events S dst.caps_batch dstr k p) := by
  unfold helpers.copy_step helpers.copy_pixel at h
  simp only at h
  unfold helpers.converted helpers.write_state helpers.step_events
  have hsrc : src.point_read S smem
      (point16.of_int (srcr.left + k % dstr.width) (srcr.top + k / dstr.width)) (some 0) =
      helpers.step_source S src smem srcr dstr k := rfl
  have hloc : point16.of_int (dstr.left + k % dstr.width) (dstr.top + k / dstr.width) =
      helpers.step_location dstr k := rfl
  rw [hsrc, hloc] at h
  rcases hs : helpers.step_source S src smem srcr dstr k with ⟨rs, spx⟩
  rw [hs] at h
  by_cases hrs : rs = gfx_result.success
  · subst hrs
    simp only at h
    by_cases ha : S.has_alpha = true
    · simp only [ha, if_true] at h ⊢
      have hpr : (dst.traced).point_read (helpers.step_location dstr k) t =
          ((dst.point_read (helpers.step_location dstr k) t.1).1,
            (dst.point_read (helpers.step_location dstr k) t.1).2.1,
            ((dst.point_read (helpers.step_location dstr k) t.1).2.2,
              t.2 ++ [event.point_read (helpers.step_location dstr k)])) := rfl
      rw [hpr] at h
      rcases hd : dst.point_read (helpers.step_location dstr k) t.1 with ⟨rd, bg, s1⟩
      rw [hd] at h
      simp only at h ⊢
      by_cases hrd : rd = gfx_result.success
      · subst hrd
        simp only at h
        cases hc : convert_bg (spx.getD 0) bg with
        | none =>
          rw [hc] at h
          simp only [Prod.mk.injEq] at h
          right; right; left
          exact ⟨(by simp), (by simp), (by simp), h.1.symm, h.2.symm⟩
        | some p =>
          rw [hc] at h
          simp only at h
          rw [helpers.write_batch_traced] at h
          simp only [Prod.mk.injEq] at h
          right; right; right
          refine ⟨p, ⟨(by simp), (by simp)⟩, (by simp), ?_, ?_⟩
          · rw [← h.1, ← h.2]
          · rw [← h.2]; simp
      · right; left
        have h2 : (rd, (s1, t.2 ++ [event.point_read (helpers.step_location dstr k)])) = (r, tf) := by
          cases rd <;> first | exact absurd rfl hrd | exact h
        simp only [Prod.mk.injEq] at h2
        exact ⟨h2.1 ▸ hrd, (by simp), (by simp), h2.1, h2.2.symm⟩
    · have ha2 : S.has_alpha = false := by simpa using ha
      simp only [ha2, Bool.false_eq_true, if_false] at h ⊢
      cases hc : convert (spx.getD 0) with
      | none =>
        rw [hc] at h
        simp only [Prod.mk.injEq] at h
        right; right; left
        exact ⟨(by simp), fun hf => absurd hf (by simp), (by simp), h.1.symm, by rw [← h.2]; simp⟩
      | some p =>
        rw [hc] at h
        simp only at h
        rw [helpers.write_batch_traced] at h
        simp only [Prod.mk.injEq] at h
        right; right; right
        refine ⟨p, ⟨(by simp), (by simp)⟩, fun hf => absurd hf (by simp), ?_, ?_⟩
        · rw [← h.1, ← h.2]
        · rw [← h.2]; simp
  · left
    have h2 : (rs, t) = (r, tf) := by
      cases rs <;> first | exact absurd rfl hrs | exact h
    simp only [Prod.mk.injEq] at h2
    exact ⟨h2.1 ▸ hrs, h2.1, h2.2.symm⟩

/-- A pass of the per-pixel copy only adds pixel calls to the log of a recording
destination, whatever its result. -/
theorem helpers.copy_step_log {σ : Type} (S : pixel_format) (convert : Nat → Option Nat)
    (convert_bg : Nat → Nat → Option Nat) (src : bitmap) (smem : Mem) (srcr : rect16)
    (dst : destination σ) (dstr : rect16) (k : Nat) (t : σ × List event) :
    ∃ es, (helpers.copy_step S convert convert_bg src smem srcr dst.traced dstr k t).2.2 =
      t.2 ++ es ∧ ∀ e ∈ es, e.is_pixel = true := by
  rcases h : helpers.copy_step S convert convert_bg src smem srcr dst.traced dstr k t with ⟨r, tf⟩
  rcases helpers.copy_step_traced S convert convert_bg src smem srcr dst dstr k t tf r h with
    ⟨_, _, h3⟩ | ⟨_, _, _, _, h5⟩ | ⟨_, _, _, _, h5⟩ | ⟨p, _, _, _, h4⟩
  · exact ⟨[], by simp [h3], by simp⟩
  · exact ⟨[event.point_read (helpers.step_location dstr k)], by simp [h5],
      by simp [event.is_pixel]⟩
  · refine ⟨_, by rw [h5], ?_⟩
    intro e he
    by_cases ha : S.has_alpha = true
    · simp only [ha, if_true, List.mem_singleton] at he
      subst he; rfl
    · simp [ha] at he
  · refine ⟨_, h4, ?_⟩
    intro e he
    unfold helpers.step_events event.write_of at he
    have hm : e = event.point_read (helpers.step_location dstr k) ∨ e = event.write_batch p ∨
        e = event.point (helpers.step_location dstr k) p := by
      by_cases ha : S.has_alpha = true <;> by_cases hb : dst.caps_batch = true <;>
        simp [ha, hb] at he <;> tauto
    rcases hm with hm | hm | hm <;> subst hm <;> rfl

/-- The double loop only adds pixel calls to the log of a recording destination,
whatever its result. -/
theorem helpers.copy_loop_log {σ : Type} (S : pixel_format) (convert : Nat → Option Nat)
    (convert_bg : Nat → Nat → Option Nat) (src : bitmap) (smem : Mem) (srcr : rect16)
    (dst : destination σ) (dstr : rect16) (t : σ × List event) :
    ∃ es, (helpers.copy_loop S convert convert_bg src smem srcr dst.traced t dstr).2.2 =
      t.2 ++ es ∧ ∀ e ∈ es, e.is_pixel = true := by
  rw [helpers.copy_loop_flat]
  apply for_each_always _ _
    (fun u : σ × List event => ∃ es, u.2 = t.2 ++ es ∧ ∀ e ∈ es, e.is_pixel = true)
  · intro i u ⟨es, h1, h2⟩
    obtain ⟨es2, h3, h4⟩ :=
      helpers.copy_step_log S convert convert_bg src smem srcr dst dstr i u
    refine ⟨es ++ es2, by rw [h3, h1, List.append_assoc], ?_⟩
    intro e he
    rcases List.mem_append.1 he with he | he
    · exact h2 e he
    · exact h4 e he
  · exact ⟨[], by simp, by simp⟩

/-- A successful pass writes one converted pixel: the log grows by the calls of that
pixel. -/
theorem helpers.copy_step_success {σ : Type} (S : pixel_format) (convert : Nat → Option Nat)
    (convert_bg : Nat → Nat → Option Nat) (src : bitmap) (smem : Mem) (srcr : rect16)
    (dst : destination σ) (dstr : rect16) (k : Nat) (t tf : σ × List event)
    (h : helpers.copy_step S convert convert_bg src smem srcr dst.traced dstr k t =
      (gfx_result.success, tf)) :
    ∃ p, helpers.converted S convert convert_bg src smem srcr dstr k
        (dst.point_read (helpers.step_location dstr k) t.1).2.1 p ∧
      tf.2 = t.2 ++ helpers.step_events S dst.caps_batch dstr k p := by
  rcases helpers.copy_step_traced S convert convert_bg src smem srcr dst dstr k t tf _ h with
    ⟨h1, _⟩ | ⟨h1, _⟩ | ⟨_, _, _, h4, _⟩ | ⟨p, h1, _, _, h4⟩
  · exact absurd rfl h1
  · exact absurd rfl h1
  · by_cases ha : S.has_alpha = true <;> simp [ha] at h4
  · exact ⟨p, h1, h4⟩

/-- The log of a successful run of the double loop over `n` pixels, and the pixels it
wrote: pixel `j` is the conversion of source pixel `j` over the background read in the
state reached after the first `j` pixels. -/
theorem helpers.copy_steps_success {σ : Type} (S : pixel_format) (convert : Nat → Option Nat)
    (convert_bg : Nat → Nat → Option Nat) (src : bitmap) (smem : Mem) (srcr : rect16)
    (dst : destination σ) (dstr : rect16) (n : Nat) (t tn : σ × List event)
    (h : for_each (List.range n)
      (helpers.copy_step S convert convert_bg src smem srcr dst.traced dstr) t =
        (gfx_result.success, tn)) :
    ∃ px : Nat → Nat,
      tn.2 = t.2 ++ (List.range n).flatMap
        (fun j => helpers.step_events S dst.caps_batch dstr j (px j)) ∧
      ∀ j, j < n → ∃ tj, for_each (List.range j)
        (helpers.copy_step S convert convert_bg src smem srcr dst.traced dstr) t =
          (gfx_result.success, tj) ∧
        helpers.converted S convert convert_bg src smem srcr dstr j
          (dst.point_read (helpers.step_location dstr j) tj.1).2.1 (px j) := by
  induction n generalizing tn with
  | zero =>
    simp only [List.range_zero, for_each, Prod.mk.injEq, true_and] at h
    exact ⟨fun _ => 0, by simp [h, List.flatMap], fun j hj => absurd hj (by omega)⟩
  | succ n ih =>
    obtain ⟨t1, h1, h2⟩ := for_each_range_succ n _ t tn h
    obtain ⟨px, hlog, hpx⟩ := ih t1 h1
    obtain ⟨p, hp, hlog2⟩ :=
      helpers.copy_step_success S convert convert_bg src smem srcr dst dstr n t1 tn h2
    refine ⟨fun j => if j = n then p else px j, ?_, ?_⟩
    · rw [hlog2, hlog, List.range_succ, List.flatMap_append, List.flatMap_singleton,
        List.append_assoc]
      simp only [if_true]
      congr 2
      unfold List.flatMap
      congr 1
      apply List.map_congr_left
      intro j hj
      have : j ≠ n := by have := List.mem_range.1 hj; omega
      simp [this]
    · intro j hj
      by_cases hjn : j = n
      · subst hjn
        simp only [if_true]
        exact ⟨t1, h1, hp⟩
      · obtain ⟨tj, h3, h4⟩ := hpx j (by omega)
        simp only [hjn, if_false]
        exact ⟨tj, h3, h4⟩

theorem helpers.copy_inner_of_begin {σ : Type} (S : pixel_format) (convert : Nat → Option Nat)
    (convert_bg : Nat → Nat → Option Nat) (src : bitmap) (smem : Mem) (srcr : rect16)
    (dst : destination σ) (s s2 : σ) (dstr : rect16)
    (hbeg : helpers.begin_batch dst dstr s = (gfx_result.success, s2)) :
    helpers.copy_inner S convert convert_bg src smem srcr dst s dstr =
      if (helpers.copy_loop S convert convert_bg src smem srcr dst s2 dstr).1 =
          gfx_result.success then
        helpers.commit_batch dst (helpers.copy_loop S convert convert_bg src smem srcr dst s2 dstr).2
      else helpers.copy_loop S convert convert_bg src smem srcr dst s2 dstr := by
  unfold helpers.copy_inner
  rw [hbeg]
  simp only
  rcases helpers.copy_loop S convert convert_bg src smem srcr dst s2 dstr with ⟨r, s3⟩
  cases r <;> simp only [reduceCtorEq, if_false, if_true]

/-- The stages of a successful generic `copy_to`. -/
theorem helpers.copy_to_success {σ : Type} (S : pixel_format) (convert : Nat → Option Nat)
    (convert_bg : Nat → Nat → Option Nat) (src : bitmap) (smem : Mem) (srcr : rect16)
    (dst : destination σ) (s sf : σ) (dstr : rect16)
    (h : helpers.copy_to S convert convert_bg src smem srcr dst s dstr =
      (gfx_result.success, sf)) :
    ∃ s1 s2 s3 s4, helpers.suspend dst s = (gfx_result.success, s1) ∧
      helpers.begin_batch dst dstr s1 = (gfx_result.success, s2) ∧
      for_each (List.range (dstr.height * dstr.width))
        (helpers.copy_step S convert convert_bg src smem srcr dst dstr) s2 =
          (gfx_result.success, s3) ∧
      helpers.commit_batch dst s3 = (gfx_result.success, s4) ∧
      helpers.resume dst s4 = (gfx_result.success, sf) := by
  have hflat := fun s2 => helpers.copy_loop_flat S convert convert_bg src smem srcr dst s2 dstr
  unfold helpers.copy_loop at hflat
  unfold helpers.copy_to at h
  simp only at h
  rcases h0 : helpers.suspend dst s with ⟨r0, s1⟩
  rw [h0] at h
  cases r0 <;> simp only [Prod.mk.injEq, reduceCtorEq, false_and] at h
  rcases h1 : helpers.begin_batch dst dstr s1 with ⟨r1, s2⟩
  rw [h1] at h
  cases r1 <;> simp only [Prod.mk.injEq, reduceCtorEq, false_and] at h
  rw [hflat s2] at h
  rcases h2 : for_each (List.range (dstr.height * dstr.width))
    (helpers.copy_step S convert convert_bg src smem srcr dst dstr) s2 with ⟨r2, s3⟩
  rw [h2] at h
  cases r2 <;> simp only [Prod.mk.injEq, reduceCtorEq, false_and] at h
  rcases h3 : helpers.commit_batch dst s3 with ⟨r3, s4⟩
  rw [h3] at h
  cases r3 <;> simp only [Prod.mk.injEq, reduceCtorEq, false_and] at h
  exact ⟨s1, s2, s3, s4, rfl, h1, h2, h3, h⟩

/-- A generic `copy_to` whose double loop fails returns the result and the state of the
loop. -/
theorem helpers.copy_to_loop_failure {σ : Type} (S : pixel_format) (convert : Nat → Option Nat)
    (convert_bg : Nat → Nat → Option Nat) (src : bitmap) (smem : Mem) (srcr : rect16)
    (dst : destination σ) (s s1 s2 sf : σ) (dstr : rect16) (r : gfx_result)
    (h0 : helpers.suspend dst s = (gfx_result.success, s1))
    (h1 : helpers.begin_batch dst dstr s1 = (gfx_result.success, s2))
    (h2 : for_each (List.range (dstr.height * dstr.width))
      (helpers.copy_step S convert convert_bg src smem srcr dst dstr) s2 = (r, sf))
    (hr : r ≠ gfx_result.success) :
    helpers.copy_to S convert convert_bg src smem srcr dst s dstr = (r, sf) := by
  rw [helpers.copy_to_inner, h0]
  simp only [if_true]
  rw [helpers.copy_inner_of_begin S convert convert_bg src smem srcr dst s1 s2 dstr h1,
    helpers.copy_loop_flat, h2]
  simp only [hr, if_false]

theorem helpers.filter_batch_events (S : pixel_format) (dstr : rect16) (px : Nat → Nat)
    (l : List Nat) :
    (l.flatMap (fun k => helpers.step_events S true dstr k (px k))).filter event.is_batch =
      l.map (fun k => event.write_batch (px k)) := by
  induction l with
  | nil => rfl
  | cons k rest ih =>
    rw [List.flatMap_cons, List.filter_append, ih, List.map_cons]
    unfold helpers.step_events event.write_of
    cases S.has_alpha <;> simp [List.filter, event.is_batch]

theorem helpers.filter_write_events (S : pixel_format) (caps_batch : Bool) (dstr : rect16)
    (px : Nat → Nat) (l : List Nat) :
    (l.flatMap (fun k => helpers.step_events S caps_batch dstr k (px k))).filter event.is_write =
      l.map (fun k => event.write_of caps_batch (helpers.step_location dstr k) (px k)) := by
  induction l with
  | nil => rfl
  | cons k rest ih =>
    rw [List.flatMap_cons, List.filter_append, ih, List.map_cons]
    unfold helpers.step_events event.write_of
    cases S.has_alpha <;> cases caps_batch <;> simp [List.filter, event.is_write]

/-! ## C17: the calls of a successful copy to a batch-capable destination -/

/-- C17: a successful generic `copy_to` of a rect of width `W` and height `H` to a
batch-capable destination that records its calls, started with an empty log.  The log
is exactly: `suspend` when the destination has the capability, one `begin_batch` with
the destination rect, then for `k = 0 .. W*H - 1` in this order the calls of pixel `k`
(the read of the background at the destination location when the source format has an
alpha channel, then `write_batch` of the pixel `px k`), one `commit_batch`, and
`resume` with the suspend capability.  The batch calls in it are one `begin_batch`,
the `W*H` calls `write_batch (px k)` in the order of `k`, and one `commit_batch`.
Pixel `px k` is the conversion of the source pixel read at
`(src.left + k mod W, src.top + k div W)`, composited over the background read from
the destination in the state reached after the first `k` pixels when the source format
has an alpha channel. -/
theorem C17_batch_call_sequence {σ : Type} (S : pixel_format) (convert : Nat → Option Nat)
    (convert_bg : Nat → Nat → Option Nat) (src : bitmap) (smem : Mem) (srcr : rect16)
    (dst : destination σ) (s : σ) (dstr : rect16) (tf : σ × List event)
    (hbatch : dst.caps_batch = true)
    (h : helpers.copy_to S convert convert_bg src smem srcr dst.traced (s, []) dstr =
      (gfx_result.success, tf)) :
    ∃ px : Nat → Nat,
      tf.2 = (if dst.caps_suspend then [event.suspend] else []) ++ [event.begin_batch dstr] ++
        (List.range (dstr.width * dstr.height)).flatMap
          (fun k => helpers.step_events S true dstr k (px k)) ++
        [event.commit_batch] ++ (if dst.caps_suspend then [event.resume] else []) ∧
      tf.2.filter event.is_batch = [event.begin_batch dstr] ++
        (List.range (dstr.width * dstr.height)).map (fun k => event.write_batch (px k)) ++
        [event.commit_batch] ∧
      ∀ k, k < dstr.width * dstr.height →
        ∃ tk, for_each (List.range k)
            (helpers.copy_step S convert convert_bg src smem srcr dst.traced dstr)
            (helpers.begin_batch dst.traced dstr (helpers.suspend dst.traced (s, [])).2).2 =
              (gfx_result.success, tk) ∧
          helpers.converted S convert convert_bg src smem srcr dstr k
            (dst.point_read (helpers.step_location dstr k) tk.1).2.1 (px k) := by
  obtain ⟨t1, t2, t3, t4, h0, h1, h2, h3, h4⟩ :=
    helpers.copy_to_success S convert convert_bg src smem srcr dst.traced (s, []) tf dstr h
  obtain ⟨px, hlog, hpx⟩ :=
    helpers.copy_steps_success S convert convert_bg src smem srcr dst dstr _ t2 t3 h2
  have e0 := helpers.suspend_traced dst (s, [])
  have e1 := helpers.begin_batch_traced dst dstr t1
  have e3 := helpers.commit_batch_traced dst t3
  have e4 := helpers.resume_traced dst t4
  rw [h0] at e0
  rw [h1] at e1
  rw [h3] at e3
  rw [h4] at e4
  have l1 : t1.2 = (if dst.caps_suspend then [event.suspend] else []) := by
    have := congrArg (fun x => x.2.2) e0
    simpa using this
  have l2 : t2.2 = t1.2 ++ [event.begin_batch dstr] := by
    have := congrArg (fun x => x.2.2) e1
    simpa [hbatch] using this
  have l4 : t4.2 = t3.2 ++ [event.commit_batch] := by
    have := congrArg (fun x => x.2.2) e3
    simpa [hbatch] using this
  have l5 : tf.2 = t4.2 ++ (if dst.caps_suspend then [event.resume] else []) := by
    have := congrArg (fun x => x.2.2) e4
    simpa using this
  have hlogf : tf.2 = (if dst.caps_suspend then [event.suspend] else []) ++
      [event.begin_batch dstr] ++
      (List.range (dstr.width * dstr.height)).flatMap
        (fun k => helpers.step_events S true dstr k (px k)) ++
      [event.commit_batch] ++ (if dst.caps_suspend then [event.resume] else []) := by
    rw [l5, l4, hlog, l2, l1, hbatch, Nat.mul_comm dstr.width dstr.height]
  refine ⟨px, hlogf, ?_, ?_⟩
  · rw [hlogf]
    simp only [List.filter_append, helpers.filter_batch_events]
    cases dst.caps_suspend <;> simp [List.filter, event.is_batch]
  · intro k hk
    rw [h0, h1]
    exact hpx k (by rw [Nat.mul_comm]; exact hk)

/-- C17 at a concrete input: the four pixels of the rect `(0,0)-(1,1)` of a 16-bit 2x2
bitmap copied to the rect `(1,1)-(2,2)` of the sample destination. -/
theorem C17_batch_call_sequence_witness :
    ∃ px : Nat → Nat,
      ((), [event.suspend, event.begin_batch ⟨1, 1, 2, 2⟩, event.write_batch 1,
        event.write_batch 3, event.write_batch 5, event.write_batch 7, event.commit_batch,
        event.resume]).2 =
        (if (sample_destination gfx_result.success gfx_result.success).caps_suspend
          then [event.suspend] else []) ++ [event.begin_batch ⟨1, 1, 2, 2⟩] ++
        (List.range ((⟨1, 1, 2, 2⟩ : rect16).width * (⟨1, 1, 2, 2⟩ : rect16).height)).flatMap
          (fun k => helpers.step_events rgb16 true ⟨1, 1, 2, 2⟩ k (px k)) ++
        [event.commit_batch] ++
        (if (sample_destination gfx_result.success gfx_result.success).caps_suspend
          then [event.resume] else []) ∧
      ((), [event.suspend, event.begin_batch ⟨1, 1, 2, 2⟩, event.write_batch 1,
        event.write_batch 3, event.write_batch 5, event.write_batch 7, event.commit_batch,
        event.resume]).2.filter event.is_batch = [event.begin_batch ⟨1, 1, 2, 2⟩] ++
        (List.range ((⟨1, 1, 2, 2⟩ : rect16).width * (⟨1, 1, 2, 2⟩ : rect16).height)).map
          (fun k => event.write_batch (px k)) ++
        [event.commit_batch] ∧
      ∀ k, k < (⟨1, 1, 2, 2⟩ : rect16).width * (⟨1, 1, 2, 2⟩ : rect16).height →
        ∃ tk, for_each (List.range k)
            (helpers.copy_step rgb16 convert_16_8 (fun a _ => some a) ⟨⟨2, 2⟩, 1⟩
              (bits.of_bytes [1, 2, 3, 4, 5, 6, 7, 8]) ⟨0, 0, 1, 1⟩
              (sample_destination gfx_result.success gfx_result.success).traced ⟨1, 1, 2, 2⟩)
            (helpers.begin_batch (sample_destination gfx_result.success gfx_result.success).traced
              ⟨1, 1, 2, 2⟩
              (helpers.suspend (sample_destination gfx_result.success gfx_result.success).traced
                ((), [])).2).2 = (gfx_result.success, tk) ∧
          helpers.converted rgb16 convert_16_8 (fun a _ => some a) ⟨⟨2, 2⟩, 1⟩
            (bits.of_bytes [1, 2, 3, 4, 5, 6, 7, 8]) ⟨0, 0, 1, 1⟩ ⟨1, 1, 2, 2⟩ k
            (((sample_destination gfx_result.success gfx_result.success).point_read
              (helpers.step_location ⟨1, 1, 2, 2⟩ k) tk.1).2.1) (px k) :=
  C17_batch_call_sequence rgb16 convert_16_8 (fun a _ => some a) ⟨⟨2, 2⟩, 1⟩
    (bits.of_bytes [1, 2, 3, 4, 5, 6, 7, 8]) ⟨0, 0, 1, 1⟩
    (sample_destination gfx_result.success gfx_result.success) () ⟨1, 1, 2, 2⟩
    ((), [event.suspend, event.begin_batch ⟨1, 1, 2, 2⟩, event.write_batch 1,
      event.write_batch 3, event.write_batch 5, event.write_batch 7, event.commit_batch,
      event.resume]) rfl (by decide)

/-! ## C18: the first failing pixel -/

/-- C18: a generic `copy_to` to a destination that records its calls, in which `suspend`
and `begin_batch` succeed, the passes of the pixels `0 .. k-1` in row-major order succeed
and the pass of pixel `k` returns a result `r` other than success.  Then `copy_to`
returns `r` with the state that pass left, and nothing is called after it.  Before the
failing pass the log holds, after the calls of `suspend` and `begin_batch`, the calls
of the pixels `0 .. k-1`, so the writes received are exactly the `k` writes of the
converted pixels `px 0 .. px (k-1)`.  The failing pass adds nothing when the source
read returned `r`; the read of the background when that read returned `r` or the
conversion failed (then `r` is `not_supported` with an alpha channel and
`invalid_format` without); and the calls of pixel `k` when the write returned `r`. -/
theorem C18_first_failure {σ : Type} (S : pixel_format) (convert : Nat → Option Nat)
    (convert_bg : Nat → Nat → Option Nat) (src : bitmap) (smem : Mem) (srcr : rect16)
    (dst : destination σ) (s : σ) (dstr : rect16) (k : Nat) (t1 t2 tk tf : σ × List event)
    (r : gfx_result)
    (hsus : helpers.suspend dst.traced (s, []) = (gfx_result.success, t1))
    (hbeg : helpers.begin_batch dst.traced dstr t1 = (gfx_result.success, t2))
    (hk : k < dstr.width * dstr.height)
    (hpre : for_each (List.range k)
      (helpers.copy_step S convert convert_bg src smem srcr dst.traced dstr) t2 =
        (gfx_result.success, tk))
    (hfail : helpers.copy_step S convert convert_bg src smem srcr dst.traced dstr k tk = (r, tf))
    (hr : r ≠ gfx_result.success) :
    helpers.copy_to S convert convert_bg src smem srcr dst.traced (s, []) dstr = (r, tf) ∧
    ∃ px : Nat → Nat,
      tk.2 = t2.2 ++ (List.range k).flatMap
        (fun j => helpers.step_events S dst.caps_batch dstr j (px j)) ∧
      tk.2.filter event.is_write = (List.range k).map
        (fun j => event.write_of dst.caps_batch (helpers.step_location dstr j) (px j)) ∧
      (∀ j, j < k → ∃ tj, for_each (List.range j)
          (helpers.copy_step S convert convert_bg src smem srcr dst.traced dstr) t2 =
            (gfx_result.success, tj) ∧
        helpers.converted S convert convert_bg src smem srcr dstr j
          (dst.point_read (helpers.step_location dstr j) tj.1).2.1 (px j)) ∧
      (((helpers.step_source S src smem srcr dstr k).1 = r ∧ tf = tk) ∨
       (S.has_alpha = true ∧ (dst.point_read (helpers.step_location dstr k) tk.1).1 = r ∧
          tf = ((dst.point_read (helpers.step_location dstr k) tk.1).2.2,
            tk.2 ++ [event.point_read (helpers.step_location dstr k)])) ∨
       (r = (if S.has_alpha then gfx_result.not_supported else gfx_result.invalid_format) ∧
          tf = (helpers.write_state S dst dstr k tk.1,
            tk.2 ++ (if S.has_alpha then [event.point_read (helpers.step_location dstr k)]
              else []))) ∨
       (∃ p, helpers.converted S convert convert_bg src smem srcr dstr k
            (dst.point_read (helpers.step_location dstr k) tk.1).2.1 p ∧
          helpers.write_batch dst (helpers.step_location dstr k) p
            (helpers.write_state S dst dstr k tk.1) = (r, tf.1) ∧
          tf.2 = tk.2 ++ helpers.step_events S dst.caps_batch dstr k p)) := by
  have hloop := for_each_fail_at (dstr.height * dstr.width) k
    (by rw [Nat.mul_comm]; exact hk) _ t2 tk tf r hpre hfail hr
  refine ⟨helpers.copy_to_loop_failure S convert convert_bg src smem srcr dst.traced (s, [])
    t1 t2 tf dstr r hsus hbeg hloop hr, ?_⟩
  obtain ⟨px, hlog, hpx⟩ :=
    helpers.copy_steps_success S convert convert_bg src smem srcr dst dstr k t2 tk hpre
  refine ⟨px, hlog, ?_, hpx, ?_⟩
  · have e0 := helpers.suspend_traced dst (s, [])
    have e1 := helpers.begin_batch_traced dst dstr t1
    rw [hsus] at e0
    rw [hbeg] at e1
    have l1 : t1.2 = (if dst.caps_suspend then [event.suspend] else []) := by
      have := congrArg (fun x => x.2.2) e0
      simpa using this
    have l2 : t2.2 = t1.2 ++ (if dst.caps_batch then [event.begin_batch dstr] else []) := by
      have := congrArg (fun x => x.2.2) e1
      simpa using this
    rw [hlog, l2, l1]
    simp only [List.filter_append, helpers.filter_write_events]
    cases dst.caps_suspend <;> cases dst.caps_batch <;> simp [List.filter, event.is_write]
  · rcases helpers.copy_step_traced S convert convert_bg src smem srcr dst dstr k tk tf r hfail
      with ⟨_, h2, h3⟩ | ⟨_, _, h3, h4, h5⟩ | ⟨_, _, _, h4, h5⟩ | ⟨p, h1, _, h3, h4⟩
    · exact Or.inl ⟨h2, h3⟩
    · exact Or.inr (Or.inl ⟨h3, h4, h5⟩)
    · exact Or.inr (Or.inr (Or.inl ⟨h4, h5⟩))
    · exact Or.inr (Or.inr (Or.inr ⟨p, h1, h3, h4⟩))

/-- C18 at a concrete input: the copy of four pixels to the sample destination that
accepts two writes; the pass of pixel 2 fails in its write. -/
theorem C18_first_failure_witness :
    helpers.copy_to rgb16 convert_16_8 (fun a _ => some a) ⟨⟨2, 2⟩, 1⟩
        (bits.of_bytes [1, 2, 3, 4, 5, 6, 7, 8]) ⟨0, 0, 1, 1⟩
        (sample_limited_destination 2).traced (0, []) ⟨1, 1, 2, 2⟩ =
      (gfx_result.device_error, (2, [event.suspend, event.begin_batch ⟨1, 1, 2, 2⟩,
        event.write_batch 1, event.write_batch 3, event.write_batch 5])) :=
  (C18_first_failure rgb16 convert_16_8 (fun a _ => some a) ⟨⟨2, 2⟩, 1⟩
    (bits.of_bytes [1, 2, 3, 4, 5, 6, 7, 8]) ⟨0, 0, 1, 1⟩ (sample_limited_destination 2) 0
    ⟨1, 1, 2, 2⟩ 2 (0, [event.suspend]) (0, [event.suspend, event.begin_batch ⟨1, 1, 2, 2⟩])
    (2, [event.suspend, event.begin_batch ⟨1, 1, 2, 2⟩, event.write_batch 1,
      event.write_batch 3])
    (2, [event.suspend, event.begin_batch ⟨1, 1, 2, 2⟩, event.write_batch 1,
      event.write_batch 3, event.write_batch 5])
    gfx_result.device_error (by decide) (by decide) (by decide) (by decide) (by decide)
    (by decide)).1

/-! ## C15, C16: `resume` and `commit_batch` on the failure paths -/

/-- The part of the generic `copy_to` between `suspend` and `resume` never calls
`resume`, and its double loop never calls `commit_batch`. -/
theorem helpers.copy_inner_log {σ : Type} (S : pixel_format) (convert : Nat → Option Nat)
    (convert_bg : Nat → Nat → Option Nat) (src : bitmap) (smem : Mem) (srcr : rect16)
    (dst : destination σ) (dstr : rect16) (t : σ × List event) :
    ∃ es, (helpers.copy_inner S convert convert_bg src smem srcr dst.traced t dstr).2.2 =
      t.2 ++ es ∧ event.resume ∉ es := by
  rcases hb : helpers.begin_batch dst.traced dstr t with ⟨r1, t2⟩
  have e1 := helpers.begin_batch_traced dst dstr t
  rw [hb] at e1
  have l2 : t2.2 = t.2 ++ (if dst.caps_batch then [event.begin_batch dstr] else []) := by
    have := congrArg (fun x => x.2.2) e1
    simpa using this
  have hnb : event.resume ∉ (if dst.caps_batch then [event.begin_batch dstr] else []) := by
    cases dst.caps_batch <;> simp
  by_cases hr1 : r1 = gfx_result.success
  · subst hr1
    rw [helpers.copy_inner_of_begin S convert convert_bg src smem srcr dst.traced t t2 dstr hb]
    obtain ⟨es, hl, hpix⟩ := helpers.copy_loop_log S convert convert_bg src smem srcr dst dstr t2
    have hne : event.resume ∉ es := fun hm => by
      have := hpix _ hm
      simp [event.is_pixel] at this
    by_cases hs : (helpers.copy_loop S convert convert_bg src smem srcr dst.traced t2 dstr).1 =
        gfx_result.success
    · simp only [hs, if_true]
      rw [helpers.commit_batch_traced]
      refine ⟨(if dst.caps_batch then [event.begin_batch dstr] else []) ++ es ++
        (if dst.caps_batch then [event.commit_batch] else []), ?_, ?_⟩
      · simp only [hl, l2, List.append_assoc]
      · have hnc : event.resume ∉ (if dst.caps_batch then [event.commit_batch] else []) := by
          cases dst.caps_batch <;> simp
        simp only [List.mem_append, not_or]
        exact ⟨⟨hnb, hne⟩, hnc⟩
    · simp only [hs, if_false]
      refine ⟨(if dst.caps_batch then [event.begin_batch dstr] else []) ++ es, ?_, ?_⟩
      · simp only [hl, l2, List.append_assoc]
      · simp only [List.mem_append, not_or]
        exact ⟨hnb, hne⟩
  · have : helpers.copy_inner S convert convert_bg src smem srcr dst.traced t dstr = (r1, t2) := by
      unfold helpers.copy_inner
      rw [hb]
      cases r1 <;> first | exact absurd rfl hr1 | rfl
    rw [this]
    exact ⟨_, l2, hnb⟩

/-- C15, counterexample: the sample destination has the suspend capability and its
`suspend` returns success, its `begin_batch` returns `device_error`.  The generic
`copy_to` returns `device_error` after the calls `suspend` and `begin_batch`: `resume`
is not called. -/
theorem C15_resume_not_called :
    (sample_destination gfx_result.device_error gfx_result.success).caps_suspend = true ∧
    (sample_destination gfx_result.device_error gfx_result.success).traced.suspend ((), []) =
      (gfx_result.success, ((), [event.suspend])) ∧
    helpers.copy_to rgb16 convert_16_8 (fun a _ => some a) ⟨⟨2, 2⟩, 1⟩
        (bits.of_bytes [1, 2, 3, 4, 5, 6, 7, 8]) ⟨0, 0, 1, 1⟩
        (sample_destination gfx_result.device_error gfx_result.success).traced ((), [])
        ⟨1, 1, 2, 2⟩ =
      (gfx_result.device_error, ((), [event.suspend, event.begin_batch ⟨1, 1, 2, 2⟩])) ∧
    (helpers.copy_to rgb16 convert_16_8 (fun a _ => some a) ⟨⟨2, 2⟩, 1⟩
        (bits.of_bytes [1, 2, 3, 4, 5, 6, 7, 8]) ⟨0, 0, 1, 1⟩
        (sample_destination gfx_result.device_error gfx_result.success).traced ((), [])
        ⟨1, 1, 2, 2⟩).2.2.count event.resume = 0 := by
  decide

/-- C15, amended: for a destination with the suspend capability that records its calls
and whose `suspend` returned success, the part of `copy_to` from `begin_batch` to
`commit_batch` never calls `resume`.  When that part succeeds, `copy_to` calls `resume`
once, as its last call, and returns its result; when `begin_batch`, a pass of the loop
or `commit_batch` fails, `copy_to` returns that failure at once and `resume` is not
called. -/
theorem C15_resume_only_after_success {σ : Type} (S : pixel_format)
    (convert : Nat → Option Nat) (convert_bg : Nat → Nat → Option Nat) (src : bitmap)
    (smem : Mem) (srcr : rect16) (dst : destination σ) (s : σ) (dstr : rect16)
    (t1 : σ × List event) (hcap : dst.caps_suspend = true)
    (hsus : helpers.suspend dst.traced (s, []) = (gfx_result.success, t1)) :
    (helpers.copy_inner S convert convert_bg src smem srcr dst.traced t1 dstr).2.2.count
      event.resume = 0 ∧
    if (helpers.copy_inner S convert convert_bg src smem srcr dst.traced t1 dstr).1 =
        gfx_result.success then
      helpers.copy_to S convert convert_bg src smem srcr dst.traced (s, []) dstr =
        ((dst.resume (helpers.copy_inner S convert convert_bg src smem srcr dst.traced t1 dstr).2.1).1,
          ((dst.resume
              (helpers.copy_inner S convert convert_bg src smem srcr dst.traced t1 dstr).2.1).2,
            (helpers.copy_inner S convert convert_bg src smem srcr dst.traced t1 dstr).2.2 ++
              [event.resume])) ∧
      (helpers.copy_to S convert convert_bg src smem srcr dst.traced (s, []) dstr).2.2.count
        event.resume = 1
    else
      helpers.copy_to S convert convert_bg src smem srcr dst.traced (s, []) dstr =
        helpers.copy_inner S convert convert_bg src smem srcr dst.traced t1 dstr ∧
      (helpers.copy_to S convert convert_bg src smem srcr dst.traced (s, []) dstr).2.2.count
        event.resume = 0 := by
  have e0 := helpers.suspend_traced dst (s, [])
  rw [hsus] at e0
  have l1 : t1.2 = [event.suspend] := by
    have := congrArg (fun x => x.2.2) e0
    simpa [hcap] using this
  obtain ⟨es, hl, hne⟩ :=
    helpers.copy_inner_log S convert convert_bg src smem srcr dst dstr t1
  have hcount : (helpers.copy_inner S convert convert_bg src smem srcr dst.traced t1 dstr).2.2.count
      event.resume = 0 := by
    rw [hl, l1, List.count_append, List.count_eq_zero.2 hne]
    rfl
  refine ⟨hcount, ?_⟩
  have hto := helpers.copy_to_inner S convert convert_bg src smem srcr dst.traced (s, []) dstr
  rw [hsus] at hto
  simp only [if_true] at hto
  by_cases hs : (helpers.copy_inner S convert convert_bg src smem srcr dst.traced t1 dstr).1 =
      gfx_result.success
  · simp only [hs, if_true] at hto ⊢
    rw [helpers.resume_traced] at hto
    have hres : helpers.resume dst
        (helpers.copy_inner S convert convert_bg src smem srcr dst.traced t1 dstr).2.1 =
        dst.resume (helpers.copy_inner S convert convert_bg src smem srcr dst.traced t1 dstr).2.1 := by
      unfold helpers.resume
      simp [hcap]
    rw [hres] at hto
    simp only [hcap, if_true] at hto
    refine ⟨hto, ?_⟩
    rw [hto]
    simp only [List.count_append, hcount]
    rfl
  · simp only [hs, if_false] at hto ⊢
    exact ⟨hto, by rw [hto]; exact hcount⟩

/-- C15, amended, at a concrete input: the sample destination whose `begin_batch`
fails. -/
theorem C15_resume_only_after_success_witness :
    (helpers.copy_inner rgb16 convert_16_8 (fun a _ => some a) ⟨⟨2, 2⟩, 1⟩
        (bits.of_bytes [1, 2, 3, 4, 5, 6, 7, 8]) ⟨0, 0, 1, 1⟩
        (sample_destination gfx_result.device_error gfx_result.success).traced
        ((), [event.suspend]) ⟨1, 1, 2, 2⟩).2.2.count event.resume = 0 :=
  (C15_resume_only_after_success rgb16 convert_16_8 (fun a _ => some a) ⟨⟨2, 2⟩, 1⟩
    (bits.of_bytes [1, 2, 3, 4, 5, 6, 7, 8]) ⟨0, 0, 1, 1⟩
    (sample_destination gfx_result.device_error gfx_result.success) () ⟨1, 1, 2, 2⟩
    ((), [event.suspend]) rfl (by decide)).1

/-- C16, counterexample: the sample destination with the batch capability accepts three
writes; its `begin_batch` returns success and the write of the fourth pixel returns
`device_error`.  The generic `copy_to` returns `device_error` after that write:
`commit_batch` is not called. -/
theorem C16_commit_not_called :
    (sample_limited_destination 3).caps_batch = true ∧
    (sample_limited_destination 3).traced.begin_batch ⟨1, 1, 2, 2⟩ (0, [event.suspend]) =
      (gfx_result.success, (0, [event.suspend, event.begin_batch ⟨1, 1, 2, 2⟩])) ∧
    helpers.copy_to rgb16 convert_16_8 (fun a _ => some a) ⟨⟨2, 2⟩, 1⟩
        (bits.of_bytes [1, 2, 3, 4, 5, 6, 7, 8]) ⟨0, 0, 1, 1⟩
        (sample_limited_destination 3).traced (0, []) ⟨1, 1, 2, 2⟩ =
      (gfx_result.device_error, (3, [event.suspend, event.begin_batch ⟨1, 1, 2, 2⟩,
        event.write_batch 1, event.write_batch 3, event.write_batch 5,
        event.write_batch 7])) ∧
    (helpers.copy_to rgb16 convert_16_8 (fun a _ => some a) ⟨⟨2, 2⟩, 1⟩
        (bits.of_bytes [1, 2, 3, 4, 5, 6, 7, 8]) ⟨0, 0, 1, 1⟩
        (sample_limited_destination 3).traced (0, []) ⟨1, 1, 2, 2⟩).2.2.count
      event.commit_batch = 0 := by
  decide

/-- C16, amended: for a destination with the batch capability that records its calls and
whose `suspend` and `begin_batch` returned success, the double loop never calls
`commit_batch`.  When every pass of the loop succeeds, `copy_to` calls `commit_batch`
once, right after the loop, followed at most by `resume`; when a source read, a
destination read, a conversion or a write fails, `copy_to` returns that failure at once
with the state and the log of the loop, and `commit_batch` is not called. -/
theorem C16_commit_only_after_loop_success {σ : Type} (S : pixel_format)
    (convert : Nat → Option Nat) (convert_bg : Nat → Nat → Option Nat) (src : bitmap)
    (smem : Mem) (srcr : rect16) (dst : destination σ) (s : σ) (dstr : rect16)
    (t1 t2 : σ × List event) (hcap : dst.caps_batch = true)
    (hsus : helpers.suspend dst.traced (s, []) = (gfx_result.success, t1))
    (hbeg : helpers.begin_batch dst.traced dstr t1 = (gfx_result.success, t2)) :
    (helpers.copy_loop S convert convert_bg src smem srcr dst.traced t2 dstr).2.2.count
      event.commit_batch = 0 ∧
    if (helpers.copy_loop S convert convert_bg src smem srcr dst.traced t2 dstr).1 =
        gfx_result.success then
      (helpers.copy_to S convert convert_bg src smem srcr dst.traced (s, []) dstr).2.2.count
        event.commit_batch = 1 ∧
      ((helpers.copy_to S convert convert_bg src smem srcr dst.traced (s, []) dstr).2.2 =
          (helpers.copy_loop S convert convert_bg src smem srcr dst.traced t2 dstr).2.2 ++
            [event.commit_batch] ∨
        (helpers.copy_to S convert convert_bg src smem srcr dst.traced (s, []) dstr).2.2 =
          (helpers.copy_loop S convert convert_bg src smem srcr dst.traced t2 dstr).2.2 ++
            [event.commit_batch, event.resume])
    else
      helpers.copy_to S convert convert_bg src smem srcr dst.traced (s, []) dstr =
        helpers.copy_loop S convert convert_bg src smem srcr dst.traced t2 dstr ∧
      (helpers.copy_to S convert convert_bg src smem srcr dst.traced (s, []) dstr).2.2.count
        event.commit_batch = 0 := by
  have e0 := helpers.suspend_traced dst (s, [])
  have e1 := helpers.begin_batch_traced dst dstr t1
  rw [hsus] at e0
  rw [hbeg] at e1
  have l1 : t1.2 = (if dst.caps_suspend then [event.suspend] else []) := by
    have := congrArg (fun x => x.2.2) e0
    simpa using this
  have l2 : t2.2 = t1.2 ++ [event.begin_batch dstr] := by
    have := congrArg (fun x => x.2.2) e1
    simpa [hcap] using this
  obtain ⟨es, hl, hpix⟩ := helpers.copy_loop_log S convert convert_bg src smem srcr dst dstr t2
  have hne : event.commit_batch ∉ es := fun hm => by
    have := hpix _ hm
    simp [event.is_pixel] at this
  have hcount : (helpers.copy_loop S convert convert_bg src smem srcr dst.traced t2 dstr).2.2.count
      event.commit_batch = 0 := by
    rw [hl, l2, l1]
    simp only [List.count_append, List.count_eq_zero.2 hne]
    cases dst.caps_suspend <;> rfl
  refine ⟨hcount, ?_⟩
  have hto := helpers.copy_to_inner S convert convert_bg src smem srcr dst.traced (s, []) dstr
  rw [hsus] at hto
  simp only [if_true] at hto
  rw [helpers.copy_inner_of_begin S convert convert_bg src smem srcr dst.traced t1 t2 dstr hbeg]
    at hto
  by_cases hs : (helpers.copy_loop S convert convert_bg src smem srcr dst.traced t2 dstr).1 =
      gfx_result.success
  · simp only [hs, if_true] at hto ⊢
    rw [helpers.commit_batch_traced] at hto
    simp only [hcap, if_true] at hto
    have hlog : (helpers.copy_to S convert convert_bg src smem srcr dst.traced (s, []) dstr).2.2 =
          (helpers.copy_loop S convert convert_bg src smem srcr dst.traced t2 dstr).2.2 ++
            [event.commit_batch] ∨
        (helpers.copy_to S convert convert_bg src smem srcr dst.traced (s, []) dstr).2.2 =
          (helpers.copy_loop S convert convert_bg src smem srcr dst.traced t2 dstr).2.2 ++
            [event.commit_batch, event.resume] := by
      by_cases hc : (helpers.commit_batch dst
          (helpers.copy_loop S convert convert_bg src smem srcr dst.traced t2 dstr).2.1).1 =
          gfx_result.success
      · simp only [hc, if_true] at hto
        rw [helpers.resume_traced] at hto
        rw [hto]
        cases dst.caps_suspend <;> simp
      · simp only [hc, if_false] at hto
        rw [hto]
        exact Or.inl rfl
    refine ⟨?_, hlog⟩
    rcases hlog with hlog | hlog <;> rw [hlog] <;> simp only [List.count_append, hcount] <;> rfl
  · simp only [hs, if_false] at hto ⊢
    exact ⟨hto, by rw [hto]; exact hcount⟩

/-- C16, amended, at a concrete input: the sample destination that accepts three writes
of the four. -/
theorem C16_commit_only_after_loop_success_witness :
    (helpers.copy_loop rgb16 convert_16_8 (fun a _ => some a) ⟨⟨2, 2⟩, 1⟩
        (bits.of_bytes [1, 2, 3, 4, 5, 6, 7, 8]) ⟨0, 0, 1, 1⟩ (sample_limited_destination 3).traced
        (0, [event.suspend, event.begin_batch ⟨1, 1, 2, 2⟩]) ⟨1, 1, 2, 2⟩).2.2.count
      event.commit_batch = 0 :=
  (C16_commit_only_after_loop_success rgb16 convert_16_8 (fun a _ => some a) ⟨⟨2, 2⟩, 1⟩
    (bits.of_bytes [1, 2, 3, 4, 5, 6, 7, 8]) ⟨0, 0, 1, 1⟩ (sample_limited_destination 3) 0
    ⟨1, 1, 2, 2⟩ (0, [event.suspend]) (0, [event.suspend, event.begin_batch ⟨1, 1, 2, 2⟩])
    rfl (by decide) (by decide)).1

/-! ## Copy and move of bitmaps and large bitmaps -/

/-- C22, counterexample: a 4x4 bitmap `b` with a buffer.  After another bitmap is
move-constructed or move-assigned from it, `b` still has its buffer pointer and
`initialized()` is true. -/
theorem C22_move_keeps_source :
    (bitmap.move_construct ⟨⟨4, 4⟩, 1⟩).2.initialized = true ∧
    (bitmap.move_construct ⟨⟨4, 4⟩, 1⟩).2.m_begin = 1 ∧
    (bitmap.move_assign ⟨⟨0, 0⟩, 0⟩ ⟨⟨4, 4⟩, 1⟩).2.initialized = true ∧
    (bitmap.move_assign ⟨⟨0, 0⟩, 0⟩ ⟨⟨4, 4⟩, 1⟩).2.m_begin = 1 := by
  decide

/-- C22, amended: after another bitmap is move-constructed or move-assigned from a bitmap
`b`, the destination has the dimensions and the buffer pointer of `b`, and `b` is as it
was: both refer to the same buffer.  The same holds after a copy construction or a
copy assignment. -/
theorem C22_move_is_copy (b self : bitmap) :
    bitmap.move_construct b = (b, b) ∧ bitmap.move_assign self b = (b, b) ∧
    bitmap.copy_construct b = b ∧ bitmap.copy_assign self b = b ∧
    (bitmap.move_construct b).1.m_begin = (bitmap.move_construct b).2.m_begin ∧
    (bitmap.move_assign self b).1.m_begin = (bitmap.move_assign self b).2.m_begin ∧
    (bitmap.move_construct b).2.initialized = b.initialized ∧
    (bitmap.move_assign self b).2.initialized = b.initialized := by
  refine ⟨rfl, rfl, rfl, rfl, rfl, rfl, rfl, rfl⟩

/-- C23, the code at a failing input: an initialized 4x4 large bitmap `s` of two segments
that was constructed with the deallocator 7.  A large bitmap move-constructed from it
holds the dimensions, the segment height and the segment array of `s`, and `s` is left
empty; its `m_deallocate` is what its memory held (here 0), so its destructor calls
that on the two buffers and the array.  A large bitmap that was constructed with the
deallocator 9 and is move-assigned from `s` keeps the deallocator 9. -/
theorem C23_move_failing_input :
    (large_bitmap.owner.move_construct 0
      ⟨⟨⟨4, 4⟩, 2, some [⟨⟨4, 2⟩, 101⟩, ⟨⟨4, 2⟩, 102⟩]⟩, 7⟩).1.object.m_dimensions = ⟨4, 4⟩ ∧
    (large_bitmap.owner.move_construct 0
      ⟨⟨⟨4, 4⟩, 2, some [⟨⟨4, 2⟩, 101⟩, ⟨⟨4, 2⟩, 102⟩]⟩, 7⟩).1.object.m_segment_height = 2 ∧
    (large_bitmap.owner.move_construct 0
      ⟨⟨⟨4, 4⟩, 2, some [⟨⟨4, 2⟩, 101⟩, ⟨⟨4, 2⟩, 102⟩]⟩, 7⟩).1.object.m_segments =
      some [⟨⟨4, 2⟩, 101⟩, ⟨⟨4, 2⟩, 102⟩] ∧
    (large_bitmap.owner.move_construct 0
      ⟨⟨⟨4, 4⟩, 2, some [⟨⟨4, 2⟩, 101⟩, ⟨⟨4, 2⟩, 102⟩]⟩, 7⟩).2.object.m_dimensions = ⟨0, 0⟩ ∧
    (large_bitmap.owner.move_construct 0
      ⟨⟨⟨4, 4⟩, 2, some [⟨⟨4, 2⟩, 101⟩, ⟨⟨4, 2⟩, 102⟩]⟩, 7⟩).2.object.m_segment_height = 0 ∧
    (large_bitmap.owner.move_construct 0
      ⟨⟨⟨4, 4⟩, 2, some [⟨⟨4, 2⟩, 101⟩, ⟨⟨4, 2⟩, 102⟩]⟩, 7⟩).2.object.initialized = false ∧
    (large_bitmap.owner.move_construct 0
      ⟨⟨⟨4, 4⟩, 2, some [⟨⟨4, 2⟩, 101⟩, ⟨⟨4, 2⟩, 102⟩]⟩, 7⟩).1.m_deallocate = 0 ∧
    (large_bitmap.owner.move_construct 0
      ⟨⟨⟨4, 4⟩, 2, some [⟨⟨4, 2⟩, 101⟩, ⟨⟨4, 2⟩, 102⟩]⟩, 7⟩).1.destructor 100 =
      [(0, 101), (0, 102), (0, 100)] ∧
    (large_bitmap.owner.move_assign ⟨⟨⟨0, 0⟩, 0, none⟩, 9⟩
      ⟨⟨⟨4, 4⟩, 2, some [⟨⟨4, 2⟩, 101⟩, ⟨⟨4, 2⟩, 102⟩]⟩, 7⟩).1.m_deallocate = 9 ∧
    (large_bitmap.owner.move_assign ⟨⟨⟨0, 0⟩, 0, none⟩, 9⟩
      ⟨⟨⟨4, 4⟩, 2, some [⟨⟨4, 2⟩, 101⟩, ⟨⟨4, 2⟩, 102⟩]⟩, 7⟩).1.destructor 100 =
      [(9, 101), (9, 102), (9, 100)] := by
  decide

/-! ## Buffer lengths and the bytes the point read touches -/

/-- C28, the code at a failing input: for the 1-bit format and an 8x1 bitmap
`size_bytes()` is 8 where `sizeof_buffer` is 1, and for the 18-bit format and a 2x2
bitmap `size_bytes()` is 12 where `sizeof_buffer` is 9, so `end()` is past the end of
the buffer. -/
theorem C28_size_bytes_failing_input :
    bitmap.size_bytes gsc1 ⟨⟨8, 1⟩, 1⟩ = 8 ∧ bitmap.sizeof_buffer gsc1 ⟨8, 1⟩ = 1 ∧
    bitmap.end_ gsc1 ⟨⟨8, 1⟩, 1⟩ = 8 ∧
    bitmap.size_bytes rgb18 ⟨⟨2, 2⟩, 1⟩ = 12 ∧ bitmap.sizeof_buffer rgb18 ⟨2, 2⟩ = 9 ∧
    bitmap.end_ rgb18 ⟨⟨2, 2⟩, 1⟩ = 12 := by
  decide

/-- C30, the code at a failing input.  For the 8-bit format and a 4x4 bitmap, whose
buffer has 16 bytes, the point read of the last pixel (3,3) copies the 2 bytes 15 and 16
of the buffer into its window: the byte 16 is past the buffer.  For the 1-bit format
and an 8x1 bitmap, the point read of (0,0) has a window of 1 byte and stores to
`tmp[1]`. -/
theorem C30_point_read_failing_input :
    bitmap.sizeof_buffer gsc8 ⟨4, 4⟩ = 16 ∧
    bitmap.point_read_end gsc8 ⟨⟨4, 4⟩, 1⟩ ⟨3, 3⟩ = 17 ∧
    bitmap.window_size gsc8 (((3 * 4 + 3) * gsc8.bit_depth) % 8) = 2 ∧
    bitmap.window_size gsc1 (((0 * 8 + 0) * gsc1.bit_depth) % 8) = 1 ∧
    bitmap.point_read_store gsc1 = 1 := by
  decide

/-! ## Large bitmap: the segment fills of `fill` -/

/-- C25, the code at a failing input: a 4x4 large bitmap of the 8-bit format with segment
height 2 (two 4x2 segments).  For the rect (0,0)-(3,2), whose rows 0..2 span the
segments 0 and 1, the last segment receives the local rows 0..1, not 0..0.  For the rect
(0,1)-(3,2), whose rows 1..2 span the segments 0 and 1, the only fill goes to segment 0
with the local rows 1..2. -/
theorem C25_segment_fills_failing_input :
    (large_bitmap.fill_traced gsc8 ⟨⟨4, 4⟩, 2, some [⟨⟨4, 2⟩, 1⟩, ⟨⟨4, 2⟩, 2⟩]⟩
      (fun _ => bits.uninit) ⟨0, 0, 3, 2⟩ 0xFF).2.2 =
      [⟨0, ⟨0, 0, 3, 1⟩, gfx_result.success⟩, ⟨1, ⟨0, 0, 3, 1⟩, gfx_result.success⟩] ∧
    (large_bitmap.fill_traced gsc8 ⟨⟨4, 4⟩, 2, some [⟨⟨4, 2⟩, 1⟩, ⟨⟨4, 2⟩, 2⟩]⟩
      (fun _ => bits.uninit) ⟨0, 1, 3, 2⟩ 0xFF).2.2 =
      [⟨0, ⟨0, 1, 3, 2⟩, gfx_result.success⟩] := by
  decide

theorem large_bitmap.and_then_success {σ : Type} (step : gfx_result × σ)
    (rest : σ → gfx_result × σ) (h : step.1 = gfx_result.success) :
    large_bitmap.and_then step rest = rest step.2 := by
  simp [large_bitmap.and_then, h]

theorem large_bitmap.and_then_failure {σ : Type} (step : gfx_result × σ)
    (rest : σ → gfx_result × σ) (h : step.1 ≠ gfx_result.success) :
    large_bitmap.and_then step rest = step := by
  simp [large_bitmap.and_then, h]

theorem large_bitmap.and_then_match {σ : Type} (step : gfx_result × σ)
    (rest : σ → gfx_result × σ) :
    large_bitmap.and_then step rest =
      match step with
      | (gfx_result.success, s) => rest s
      | (r, s) => (r, s) := by
  rcases step with ⟨r, s⟩
  cases r <;> simp [large_bitmap.and_then]

theorem large_bitmap.fill_eq_fill_with (F : pixel_format) (l : large_bitmap) (segs : Nat → Mem)
    (bounds : rect16) (color : Nat) :
    l.fill F segs bounds color =
      l.fill_with (fun i rf sg => large_bitmap.segment_fill F (l.m_segments.getD []) sg i rf color)
        segs bounds := by
  cases hs : l.m_segments with
  | none => simp [large_bitmap.fill, large_bitmap.fill_with, hs]
  | some segments =>
    simp only [large_bitmap.fill, large_bitmap.fill_with, hs, Option.getD_some,
      Option.isNone_some, Bool.false_eq_true, if_false, large_bitmap.and_then_match]
    split
    · rfl
    · split
      · rfl
      · rcases segment_fill F segments segs (bounds.normalize.y1 / l.m_segment_height)
            { x1 := bounds.normalize.x1, y1 := u16 (bounds.normalize.y1 % l.m_segment_height),
              x2 := bounds.normalize.x2, y2 := u16 (l.m_segment_height + 65535) }
            color with ⟨r, s1⟩
        cases r
        · simp only
          rcases for_each (List.map (fun i => i + 1) (List.range (bounds.normalize.y2 / l.m_segment_height)))
              (fun i sg =>
                segment_fill F segments sg i
                  { x1 := bounds.normalize.x1, y1 := 0, x2 := bounds.normalize.x2,
                    y2 := u16 (l.m_segment_height + 65535) }
                  color)
              s1 with ⟨r2, s2⟩
          cases r2 <;> rfl
        all_goals rfl

/-- A rule for loops with early return: if every pass that starts in a state with `Pre`
ends with `Post` for its result, and `Post` for success gives `Pre` back, then the loop
ends with `Post` for its result. -/
theorem for_each_rule {σ : Type} (body : Nat → σ → gfx_result × σ) (Pre : σ → Prop)
    (Post : gfx_result → σ → Prop)
    (hstep : ∀ i s, Pre s → Post (body i s).1 (body i s).2)
    (hsucc : ∀ s, Post gfx_result.success s → Pre s)
    (hpre : ∀ s, Pre s → Post gfx_result.success s)
    (l : List Nat) (s : σ) (h0 : Pre s) :
    Post (for_each l body s).1 (for_each l body s).2 := by
  induction l generalizing s with
  | nil => exact hpre s h0
  | cons i rest ih =>
    simp only [for_each]
    have hs := hstep i s h0
    rcases hb : body i s with ⟨r, s2⟩
    rw [hb] at hs
    cases r
    · exact ih s2 (hsucc s2 hs)
    all_goals exact hs

theorem large_bitmap.and_then_rule {σ : Type} (Pre : σ → Prop) (Post : gfx_result → σ → Prop)
    (hsucc : ∀ s, Post gfx_result.success s → Pre s)
    (step : gfx_result × σ) (rest : σ → gfx_result × σ) (hstep : Post step.1 step.2)
    (hrest : ∀ s, Pre s → Post (rest s).1 (rest s).2) :
    Post (large_bitmap.and_then step rest).1 (large_bitmap.and_then step rest).2 := by
  by_cases h : step.1 = gfx_result.success
  · rw [large_bitmap.and_then_success _ _ h]
    exact hrest _ (hsucc _ (h ▸ hstep))
  · rw [large_bitmap.and_then_failure _ _ h]
    exact hstep

/-- The rule for `fill`: if every segment fill that starts in a state with `Pre` ends
with `Post` for its result, and `Post` for success gives `Pre` back, then `fill` ends
with `Post` for its result. -/
theorem large_bitmap.fill_with_rule {σ : Type} (l : large_bitmap)
    (f : Nat → rect16 → σ → gfx_result × σ) (Pre : σ → Prop) (Post : gfx_result → σ → Prop)
    (hstep : ∀ i rf s, Pre s → Post (f i rf s).1 (f i rf s).2)
    (hsucc : ∀ s, Post gfx_result.success s → Pre s)
    (hpre : ∀ s, Pre s → Post gfx_result.success s)
    (s : σ) (h0 : Pre s) (hoom : Post gfx_result.out_of_memory s) (bounds : rect16) :
    Post (l.fill_with f s bounds).1 (l.fill_with f s bounds).2 := by
  simp only [large_bitmap.fill_with]
  split
  · exact hoom
  · split
    · exact hpre s h0
    · split
      · exact hstep _ _ s h0
      · apply large_bitmap.and_then_rule Pre Post hsucc
        · exact hstep _ _ s h0
        · intro s1 h1
          apply large_bitmap.and_then_rule Pre Post hsucc
          · exact for_each_rule _ Pre Post (fun i t ht => hstep _ _ t ht) hsucc hpre _ s1 h1
          · intro s2 h2
            split
            · exact hstep _ _ s2 h2
            · exact hpre s2 h2

theorem large_bitmap.for_each_logged {σ : Type} (f : Nat → rect16 → σ → gfx_result × σ)
    (rect : Nat → rect16) (l : List Nat) (t : σ × List large_bitmap.fill_call) :
    (for_each l (fun i u => large_bitmap.logged f i (rect i) u) t).1 =
      (for_each l (fun i s => f i (rect i) s) t.1).1 ∧
    (for_each l (fun i u => large_bitmap.logged f i (rect i) u) t).2.1 =
      (for_each l (fun i s => f i (rect i) s) t.1).2 := by
  induction l generalizing t with
  | nil => exact ⟨rfl, rfl⟩
  | cons i rest ih =>
    simp only [for_each]
    have hl : large_bitmap.logged f i (rect i) t =
        ((f i (rect i) t.1).1, ((f i (rect i) t.1).2,
          t.2 ++ [⟨i, rect i, (f i (rect i) t.1).1⟩])) := rfl
    rw [hl]
    rcases hf : f i (rect i) t.1 with ⟨r, s2⟩
    cases r
    · exact ih (s2, t.2 ++ [⟨i, rect i, gfx_result.success⟩])
    all_goals exact ⟨rfl, rfl⟩

theorem large_bitmap.and_then_logged {σ : Type} (step : gfx_result × σ)
    (step2 : gfx_result × (σ × List large_bitmap.fill_call))
    (rest : σ → gfx_result × σ)
    (rest2 : σ × List large_bitmap.fill_call → gfx_result × (σ × List large_bitmap.fill_call))
    (hstep : step2.1 = step.1 ∧ step2.2.1 = step.2)
    (hrest : ∀ t, (rest2 t).1 = (rest t.1).1 ∧ (rest2 t).2.1 = (rest t.1).2) :
    (large_bitmap.and_then step2 rest2).1 = (large_bitmap.and_then step rest).1 ∧
    (large_bitmap.and_then step2 rest2).2.1 = (large_bitmap.and_then step rest).2 := by
  by_cases h : step.1 = gfx_result.success
  · rw [large_bitmap.and_then_success _ _ h, large_bitmap.and_then_success _ _ (hstep.1.trans h),
      ← hstep.2]
    exact hrest _
  · rw [large_bitmap.and_then_failure _ _ h,
      large_bitmap.and_then_failure _ _ (fun e => h (hstep.1.symm.trans e))]
    exact hstep

/-- The recording of the calls does not change what `fill` returns and does. -/
theorem large_bitmap.fill_with_logged {σ : Type} (l : large_bitmap)
    (f : Nat → rect16 → σ → gfx_result × σ) (t : σ × List large_bitmap.fill_call)
    (bounds : rect16) :
    (l.fill_with (large_bitmap.logged f) t bounds).1 = (l.fill_with f t.1 bounds).1 ∧
    (l.fill_with (large_bitmap.logged f) t bounds).2.1 = (l.fill_with f t.1 bounds).2 := by
  simp only [large_bitmap.fill_with]
  split
  · exact ⟨rfl, rfl⟩
  · split
    · exact ⟨rfl, rfl⟩
    · split
      · exact ⟨rfl, rfl⟩
      · apply large_bitmap.and_then_logged
        · exact ⟨rfl, rfl⟩
        · intro t1
          apply large_bitmap.and_then_logged
          · exact large_bitmap.for_each_logged f _ _ t1
          · intro t2
            split
            · exact ⟨rfl, rfl⟩
            · exact ⟨rfl, rfl⟩

/-- The recorded run of `fill` returns what `fill` returns and leaves the segment buffers
as `fill` does. -/
theorem large_bitmap.fill_traced_eq (F : pixel_format) (l : large_bitmap) (segs : Nat → Mem)
    (bounds : rect16) (color : Nat) :
    (l.fill_traced F segs bounds color).1 = (l.fill F segs bounds color).1 ∧
    (l.fill_traced F segs bounds color).2.1 = (l.fill F segs bounds color).2 := by
  rw [large_bitmap.fill_eq_fill_with]
  exact large_bitmap.fill_with_logged l _ (segs, []) bounds

/-- After a recorded segment fill that starts with a log of successful calls, a call of
the log that did not succeed is the last one and its result is the result of the
fill. -/
theorem large_bitmap.logged_last {σ : Type} (f : Nat → rect16 → σ → gfx_result × σ) (i : Nat)
    (rf : rect16) (t : σ × List large_bitmap.fill_call)
    (hA : ∀ c ∈ t.2, c.result = gfx_result.success) :
    ((large_bitmap.logged f i rf t).1 = gfx_result.success →
      ∀ c ∈ (large_bitmap.logged f i rf t).2.2, c.result = gfx_result.success) ∧
    ∀ pre e post, (large_bitmap.logged f i rf t).2.2 = pre ++ e :: post →
      e.result ≠ gfx_result.success → post = [] ∧ (large_bitmap.logged f i rf t).1 = e.result := by
  have hl : (large_bitmap.logged f i rf t).2.2 = t.2 ++ [⟨i, rf, (f i rf t.1).1⟩] := rfl
  have hr : (large_bitmap.logged f i rf t).1 = (f i rf t.1).1 := rfl
  rw [hl, hr]
  constructor
  · intro hs c hc
    rcases List.mem_append.1 hc with hc | hc
    · exact hA c hc
    · rw [List.mem_singleton] at hc
      rw [hc]
      exact hs
  · intro pre e post hdec he
    rcases List.eq_nil_or_concat post with hp | ⟨post2, x, hp⟩
    · subst hp
      have := List.append_inj_right' hdec rfl
      simp only [List.cons.injEq, and_true] at this
      exact ⟨rfl, by rw [← this]⟩
    · exfalso
      rw [hp, List.concat_eq_append, ← List.cons_append, ← List.append_assoc] at hdec
      have h1 := List.append_inj_left' hdec rfl
      apply he
      apply hA
      rw [h1]
      simp

/-- In the recorded run of `fill`, a call that did not succeed is the last call made, and
its result is the result of `fill`. -/
theorem large_bitmap.fill_with_last {σ : Type} (l : large_bitmap)
    (f : Nat → rect16 → σ → gfx_result × σ) (s : σ) (bounds : rect16)
    (pre post : List large_bitmap.fill_call) (e : large_bitmap.fill_call)
    (hlog : (l.fill_with (large_bitmap.logged f) (s, []) bounds).2.2 = pre ++ e :: post)
    (he : e.result ≠ gfx_result.success) :
    post = [] ∧ (l.fill_with (large_bitmap.logged f) (s, []) bounds).1 = e.result := by
  have h := large_bitmap.fill_with_rule l (large_bitmap.logged f)
    (fun t => ∀ c ∈ t.2, c.result = gfx_result.success)
    (fun r t => (r = gfx_result.success → ∀ c ∈ t.2, c.result = gfx_result.success) ∧
      ∀ pre e post, t.2 = pre ++ e :: post → e.result ≠ gfx_result.success →
        post = [] ∧ r = e.result)
    (fun i rf t hA => large_bitmap.logged_last f i rf t hA)
    (fun t ht => ht.1 rfl)
    (fun t hA => ⟨fun _ => hA, fun pre e post hdec he => by
      exfalso; apply he; apply hA; rw [hdec]; simp⟩)
    (s, []) (by simp) ⟨by simp, by simp⟩ bounds
  exact h.2 pre e post hlog he

/-- In the recorded run of `fill` on the segment buffers, the buffer of a segment that
no call names is as before. -/
theorem large_bitmap.fill_traced_frame (F : pixel_format) (l : large_bitmap) (segs : Nat → Mem)
    (bounds : rect16) (color : Nat) (j : Nat)
    (hj : ∀ c ∈ (l.fill_traced F segs bounds color).2.2, c.index ≠ j) :
    (l.fill_traced F segs bounds color).2.1 j = segs j := by
  have h := large_bitmap.fill_with_rule l
    (large_bitmap.logged
      (fun i rf sg => large_bitmap.segment_fill F (l.m_segments.getD []) sg i rf color))
    (fun t => (∀ c ∈ t.2, c.index ≠ j) → t.1 j = segs j)
    (fun _ t => (∀ c ∈ t.2, c.index ≠ j) → t.1 j = segs j)
    (fun i rf t hpre => by
      intro hc
      have hl : (large_bitmap.logged
          (fun i rf sg => large_bitmap.segment_fill F (l.m_segments.getD []) sg i rf color)
          i rf t).2.2 = t.2 ++ [⟨i, rf, (large_bitmap.segment_fill F (l.m_segments.getD []) t.1 i rf
            color).1⟩] := rfl
      have hs : (large_bitmap.logged
          (fun i rf sg => large_bitmap.segment_fill F (l.m_segments.getD []) sg i rf color)
          i rf t).2.1 = Function.update t.1 i
            (((large_bitmap.segment (l.m_segments.getD []) i).fill F (t.1 i) rf color).2) := rfl
      rw [hl] at hc
      rw [hs]
      have hij : j ≠ i := fun e =>
        hc ⟨i, rf, (large_bitmap.segment_fill F (l.m_segments.getD []) t.1 i rf color).1⟩
          (List.mem_append_right _ (List.mem_singleton.2 rfl)) e.symm
      rw [Function.update_noteq hij]
      exact hpre (fun c hm => hc c (List.mem_append_left _ hm)))
    (fun _ ht => ht) (fun _ ht => ht) (segs, []) (fun _ => rfl) (fun _ => rfl) bounds
  exact h hj

/-- In the recorded run of `fill`, the result recorded with a call is the result of the
fill of that segment with that rect, in some state of the segment buffers. -/
theorem large_bitmap.fill_traced_result (F : pixel_format) (l : large_bitmap) (segs : Nat → Mem)
    (bounds : rect16) (color : Nat) (c : large_bitmap.fill_call)
    (hc : c ∈ (l.fill_traced F segs bounds color).2.2) :
    ∃ sg : Nat → Mem, c.result =
      ((large_bitmap.segment (l.m_segments.getD []) c.index).fill F (sg c.index) c.rect color).1 := by
  have h := large_bitmap.fill_with_rule l
    (large_bitmap.logged
      (fun i rf sg => large_bitmap.segment_fill F (l.m_segments.getD []) sg i rf color))
    (fun t => ∀ c ∈ t.2, ∃ sg : Nat → Mem, c.result =
      ((large_bitmap.segment (l.m_segments.getD []) c.index).fill F (sg c.index) c.rect color).1)
    (fun _ t => ∀ c ∈ t.2, ∃ sg : Nat → Mem, c.result =
      ((large_bitmap.segment (l.m_segments.getD []) c.index).fill F (sg c.index) c.rect color).1)
    (fun i rf t hpre => by
      intro c hc
      have hl : (large_bitmap.logged
          (fun i rf sg => large_bitmap.segment_fill F (l.m_segments.getD []) sg i rf color)
          i rf t).2.2 = t.2 ++ [⟨i, rf, (large_bitmap.segment_fill F (l.m_segments.getD []) t.1 i rf
            color).1⟩] := rfl
      rw [hl] at hc
      rcases List.mem_append.1 hc with hc | hc
      · exact hpre c hc
      · rw [List.mem_singleton] at hc
        rw [hc]
        exact ⟨t.1, rfl⟩)
    (fun _ ht => ht) (fun _ ht => ht) (segs, []) (by simp) (by simp) bounds
  exact h c hc

/-- C26: in every `fill` of a large bitmap in which a segment fill returns a result `r`
other than success, that call is the last segment fill made, `fill` returns exactly
`r`, and the buffer of every segment that received no fill is as before.  The recorded
result is the result of the fill of that segment. -/
theorem C26_segment_fill_failure (F : pixel_format) (l : large_bitmap) (segs : Nat → Mem)
    (bounds : rect16) (color : Nat) (pre post : List large_bitmap.fill_call)
    (e : large_bitmap.fill_call)
    (hlog : (l.fill_traced F segs bounds color).2.2 = pre ++ e :: post)
    (he : e.result ≠ gfx_result.success) :
    (l.fill F segs bounds color).1 = e.result ∧ post = [] ∧
    (∃ sg : Nat → Mem, e.result =
      ((large_bitmap.segment (l.m_segments.getD []) e.index).fill F (sg e.index) e.rect color).1) ∧
    ∀ j, (∀ c ∈ pre ++ [e], c.index ≠ j) → (l.fill F segs bounds color).2 j = segs j := by
  obtain ⟨h1, h2⟩ := large_bitmap.fill_traced_eq F l segs bounds color
  obtain ⟨h3, h4⟩ := large_bitmap.fill_with_last l _ segs bounds pre post e hlog he
  refine ⟨h1 ▸ h4, h3, ?_, ?_⟩
  · apply large_bitmap.fill_traced_result F l segs bounds color e
    rw [hlog]
    simp
  · intro j hj
    rw [← h2]
    apply large_bitmap.fill_traced_frame
    rw [hlog, h3]
    exact hj

/-- C26 at a concrete input: a 4x6 large bitmap of three segments of height 2 whose
second segment has no buffer, and the fill of the rows 0..5.  The first segment fill
succeeds, the second returns out_of_memory and is the last; the third segment is not
touched. -/
theorem C26_segment_fill_failure_witness :
    ((⟨⟨4, 6⟩, 2, some [⟨⟨4, 2⟩, 1⟩, ⟨⟨4, 2⟩, 0⟩, ⟨⟨4, 2⟩, 3⟩]⟩ : large_bitmap).fill gsc8
      (fun _ => bits.uninit) ⟨0, 0, 3, 5⟩ 0xFF).1 = gfx_result.out_of_memory ∧
    ([] : List large_bitmap.fill_call) = [] ∧
    (∃ sg : Nat → Mem, gfx_result.out_of_memory =
      ((large_bitmap.segment [⟨⟨4, 2⟩, 1⟩, ⟨⟨4, 2⟩, 0⟩, ⟨⟨4, 2⟩, 3⟩] 1).fill gsc8 (sg 1)
        ⟨0, 0, 3, 1⟩ 0xFF).1) ∧
    ∀ j, (∀ c ∈ [(⟨0, ⟨0, 0, 3, 1⟩, gfx_result.success⟩ : large_bitmap.fill_call)] ++
        [⟨1, ⟨0, 0, 3, 1⟩, gfx_result.out_of_memory⟩], c.index ≠ j) →
      ((⟨⟨4, 6⟩, 2, some [⟨⟨4, 2⟩, 1⟩, ⟨⟨4, 2⟩, 0⟩, ⟨⟨4, 2⟩, 3⟩]⟩ : large_bitmap).fill gsc8
        (fun _ => bits.uninit) ⟨0, 0, 3, 5⟩ 0xFF).2 j = bits.uninit :=
  C26_segment_fill_failure gsc8 ⟨⟨4, 6⟩, 2, some [⟨⟨4, 2⟩, 1⟩, ⟨⟨4, 2⟩, 0⟩, ⟨⟨4, 2⟩, 3⟩]⟩
    (fun _ => bits.uninit) ⟨0, 0, 3, 5⟩ 0xFF [⟨0, ⟨0, 0, 3, 1⟩, gfx_result.success⟩] []
    ⟨1, ⟨0, 0, 3, 1⟩, gfx_result.out_of_memory⟩ (by decide) (by decide)

/-! ## C27: failures of the conversion and of the read of the background -/

/-- C27: a generic `copy_to` to a destination that records its calls, in which `suspend`
and `begin_batch` succeed, the passes of the pixels before pixel `k` succeed and the
source read of pixel `k` succeeds.  Without an alpha channel in the source format, an
undefined conversion of the source pixel makes `copy_to` return `invalid_format`, with
no call to the destination for pixel `k`.  With an alpha channel, the pixel of the
destination at the target location is read first; a result of that read other than
success is returned unchanged, and a failure of the compositing over the pixel read
makes `copy_to` return `not_supported`; in both cases the read is the last call.  In
every pass with an alpha channel the read of the background is the first call, and a
write follows it only with the composited pixel. -/
theorem C27_conversion_failures {σ : Type} (S : pixel_format) (convert : Nat → Option Nat)
    (convert_bg : Nat → Nat → Option Nat) (src : bitmap) (smem : Mem) (srcr : rect16)
    (dst : destination σ) (s : σ) (dstr : rect16) (k : Nat) (t1 t2 tk : σ × List event)
    (hsus : helpers.suspend dst.traced (s, []) = (gfx_result.success, t1))
    (hbeg : helpers.begin_batch dst.traced dstr t1 = (gfx_result.success, t2))
    (hk : k < dstr.width * dstr.height)
    (hpre : for_each (List.range k)
      (helpers.copy_step S convert convert_bg src smem srcr dst.traced dstr) t2 =
        (gfx_result.success, tk))
    (hsrc : (helpers.step_source S src smem srcr dstr k).1 = gfx_result.success) :
    (S.has_alpha = false →
      convert (((helpers.step_source S src smem srcr dstr k).2).getD 0) = none →
      helpers.copy_to S convert convert_bg src smem srcr dst.traced (s, []) dstr =
        (gfx_result.invalid_format, tk)) ∧
    (S.has_alpha = true →
      (dst.point_read (helpers.step_location dstr k) tk.1).1 = gfx_result.success →
      convert_bg (((helpers.step_source S src smem srcr dstr k).2).getD 0)
        (dst.point_read (helpers.step_location dstr k) tk.1).2.1 = none →
      helpers.copy_to S convert convert_bg src smem srcr dst.traced (s, []) dstr =
        (gfx_result.not_supported, ((dst.point_read (helpers.step_location dstr k) tk.1).2.2,
          tk.2 ++ [event.point_read (helpers.step_location dstr k)]))) ∧
    (S.has_alpha = true →
      (dst.point_read (helpers.step_location dstr k) tk.1).1 ≠ gfx_result.success →
      helpers.copy_to S convert convert_bg src smem srcr dst.traced (s, []) dstr =
        ((dst.point_read (helpers.step_location dstr k) tk.1).1,
          ((dst.point_read (helpers.step_location dstr k) tk.1).2.2,
            tk.2 ++ [event.point_read (helpers.step_location dstr k)]))) ∧
    (S.has_alpha = true →
      (helpers.copy_step S convert convert_bg src smem srcr dst.traced dstr k tk).2.2 =
          tk.2 ++ [event.point_read (helpers.step_location dstr k)] ∨
        ∃ p, convert_bg (((helpers.step_source S src smem srcr dstr k).2).getD 0)
            (dst.point_read (helpers.step_location dstr k) tk.1).2.1 = some p ∧
          (helpers.copy_step S convert convert_bg src smem srcr dst.traced dstr k tk).2.2 =
            tk.2 ++ [event.point_read (helpers.step_location dstr k),
              event.write_of dst.caps_batch (helpers.step_location dstr k) p]) := by
  rcases hstep : helpers.copy_step S convert convert_bg src smem srcr dst.traced dstr k tk
    with ⟨r, tf⟩
  have hcases := helpers.copy_step_traced S convert convert_bg src smem srcr dst dstr k tk tf r hstep
  have hfail : r ≠ gfx_result.success →
      helpers.copy_to S convert convert_bg src smem srcr dst.traced (s, []) dstr = (r, tf) :=
    fun hr => helpers.copy_to_loop_failure S convert convert_bg src smem srcr dst.traced (s, [])
      t1 t2 tf dstr r hsus hbeg
      (for_each_fail_at (dstr.height * dstr.width) k (by rw [Nat.mul_comm]; exact hk) _ t2 tk tf r
        hpre hstep hr) hr
  refine ⟨?_, ?_, ?_, ?_⟩
  · intro ha hc
    rcases hcases with ⟨h1, h2, _⟩ | ⟨_, _, h3, _⟩ | ⟨_, _, _, h4, h5⟩ | ⟨p, h1, _⟩
    · exact absurd (h2.symm.trans hsrc) h1
    · rw [ha] at h3; exact absurd h3 (by simp)
    · simp only [ha, Bool.false_eq_true, if_false, List.append_nil, helpers.write_state] at h4 h5
      rw [hfail (by rw [h4]; simp), h4, h5]
    · unfold helpers.converted at h1
      simp only [ha, Bool.false_eq_true, if_false] at h1
      rw [hc] at h1
      exact absurd h1.2 (by simp)
  · intro ha hd hc
    rcases hcases with ⟨h1, h2, _⟩ | ⟨h1, _, _, h4, _⟩ | ⟨_, _, _, h4, h5⟩ | ⟨p, h1, _⟩
    · exact absurd (h2.symm.trans hsrc) h1
    · exact absurd (h4.symm.trans hd) h1
    · simp only [ha, if_true, helpers.write_state] at h4 h5
      rw [hfail (by rw [h4]; simp), h4, h5]
    · unfold helpers.converted at h1
      simp only [ha, if_true] at h1
      rw [hc] at h1
      exact absurd h1.2 (by simp)
  · intro ha hd
    rcases hcases with ⟨h1, h2, _⟩ | ⟨h1, _, _, h4, h5⟩ | ⟨_, h2, _⟩ | ⟨p, _, h2, _⟩
    · exact absurd (h2.symm.trans hsrc) h1
    · rw [hfail h1, h5, h4]
    · exact absurd (h2 ha) hd
    · exact absurd (h2 ha) hd
  · intro ha
    rcases hcases with ⟨h1, h2, _⟩ | ⟨_, _, _, _, h5⟩ | ⟨_, _, _, _, h5⟩ | ⟨p, h1, _, _, h4⟩
    · exact absurd (h2.symm.trans hsrc) h1
    · left; rw [h5]
    · left; rw [h5]; simp [ha]
    · right
      unfold helpers.converted at h1
      simp only [ha, if_true] at h1
      refine ⟨p, h1.2, ?_⟩
      rw [h4]
      simp [helpers.step_events, ha]

/-- C27 at a concrete input: a copy of four 16-bit pixels whose conversion is undefined,
to the sample destination. -/
theorem C27_conversion_failures_witness :
    helpers.copy_to rgb16 (fun _ => none) (fun a _ => some a) ⟨⟨2, 2⟩, 1⟩
        (bits.of_bytes [1, 2, 3, 4, 5, 6, 7, 8]) ⟨0, 0, 1, 1⟩
        (sample_destination gfx_result.success gfx_result.success).traced ((), [])
        ⟨1, 1, 2, 2⟩ =
      (gfx_result.invalid_format, ((), [event.suspend, event.begin_batch ⟨1, 1, 2, 2⟩])) :=
  (C27_conversion_failures rgb16 (fun _ => none) (fun a _ => some a) ⟨⟨2, 2⟩, 1⟩
    (bits.of_bytes [1, 2, 3, 4, 5, 6, 7, 8]) ⟨0, 0, 1, 1⟩
    (sample_destination gfx_result.success gfx_result.success) () ⟨1, 1, 2, 2⟩ 0
    ((), [event.suspend]) ((), [event.suspend, event.begin_batch ⟨1, 1, 2, 2⟩])
    ((), [event.suspend, event.begin_batch ⟨1, 1, 2, 2⟩]) (by decide) (by decide) (by decide)
    (by decide) (by decide)).1 rfl rfl

/-! ## C24: the point write of a format with an alpha channel -/

/-- C24, the claim as stated fails.  For the sample format with an alpha channel and
buffers of `sizeof_buffer(dimensions)` bytes whose bytes are 0x5F: with a 32-bit
`size_t`, on a 4x4 bitmap the point write at the last pixel (3,3) has no result, the read
of the background copying one byte past the 16 bytes of the buffer; with a 64-bit
`size_t`, on a 65535x65535 bitmap the `int` index of the in-bounds location (0,32769)
passes 2^31, the offset is 2^64 - 17179607048 and the point write has no result, the
read of the background copying bytes outside the buffer. -/
theorem C24_alpha_point_write_fails :
    (bitmap.point_word 32 la8 ⟨⟨4, 4⟩, 1⟩ (bitmap.sizeof_buffer la8 ⟨4, 4⟩)
      (fun i => (0x5F : Nat).testBit (7 - i % 8)) ⟨3, 3⟩ 0xA7).isNone = true ∧
    bitmap.sizeof_buffer la8 ⟨4, 4⟩ = 16 ∧
    bitmap.offs_word 64 la8 ⟨⟨65535, 65535⟩, 1⟩ ⟨0, 32769⟩ = 2 ^ 64 - 17179607048 ∧
    (bitmap.point_word 64 la8 ⟨⟨65535, 65535⟩, 1⟩ (bitmap.sizeof_buffer la8 ⟨65535, 65535⟩)
      (fun i => (0x5F : Nat).testBit (7 - i % 8)) ⟨0, 32769⟩ 0xA7).isNone = true := by
  decide

/-- C24 as amended: for a `size_t` of `size_bits` bits, every format with an alpha
channel whose `packed_size` is the size of its `int_type`, every bitmap with a backing
buffer of `size` bytes, every in-bounds location at which the read window has the byte
`tmp[packed_size]` and ends inside the buffer, `offs` being the offset the machine
computes, and every color: the point write first reads the pixel `bg` at the location.
When the compositing of the color over `bg` is defined and gives `c`, the point write
returns success and stores `c`: the bits `[offs, offs + bit_depth)` of the buffer become
the leading bits of `c`, every other bit of the buffer is as before, and a following
point read at the location returns `c & mask`.  When it is not defined, the point write
returns `not_supported` and the buffer is as before. -/
theorem C24_alpha_point_write (size_bits : Nat) (F : pixel_format)
    (hfmt : F.packed_size = F.int_bytes) (ha : F.has_alpha = true) (b : bitmap)
    (hb : b.m_begin ≠ 0) (size : Nat) (mem : Mem) (loc : point16)
    (hx : loc.x < b.dimensions.width) (hy : loc.y < b.dimensions.height)
    (hpad : F.pad_right_bits ≤ bitmap.offs_word size_bits F b loc % 8)
    (hend : bitmap.offs_word size_bits F b loc / 8 + F.packed_size + 1 ≤ size)
    (color : Nat) :
    ∃ bg, b.point_read_word size_bits F size mem loc (some 0) =
        some (gfx_result.success, some bg) ∧
      (∀ c, F.convert_bg color bg = some c →
        ∃ m, b.point_word size_bits F size mem loc color = some (gfx_result.success, m) ∧
          b.point_impl_word size_bits F size mem loc c = some (gfx_result.success, m) ∧
          (∀ i, m i =
            if bitmap.offs_word size_bits F b loc ≤ i ∧
                i < bitmap.offs_word size_bits F b loc + F.bit_depth then
              (decide (i - bitmap.offs_word size_bits F b loc < 8 * F.int_bytes) &&
                c.testBit (8 * F.int_bytes - 1 - (i - bitmap.offs_word size_bits F b loc)))
            else mem i) ∧
          b.point_read_word size_bits F size m loc (some 0) =
            some (gfx_result.success, some (c &&& F.mask))) ∧
      (F.convert_bg color bg = none →
        b.point_word size_bits F size mem loc color = some (gfx_result.not_supported, mem)) := by
  have hnx : ¬ (loc.x ≥ b.dimensions.width ∨ loc.y ≥ b.dimensions.height) := by omega
  obtain ⟨q, hq⟩ := bitmap.point_read_word_defined size_bits F (by omega) b hb size mem loc hx hy
    hpad hend 0
  obtain ⟨bg, hbg, _⟩ := bitmap.point_read_word_bits size_bits F b hb size mem loc hx hy 0 q hq
  rw [hbg] at hq
  refine ⟨bg, hq, ?_, ?_⟩
  · intro c hc
    obtain ⟨m, h1, h2⟩ := bitmap.round_trip_word size_bits F hfmt b hb size mem loc hx hy hpad
      hend c 0
    obtain ⟨_, hmb⟩ := bitmap.point_impl_word_bits size_bits F b hb size mem loc c _ h1
    refine ⟨m, ?_, h1, hmb, h2⟩
    unfold bitmap.point_word
    simp only [hb, if_false, hnx, ha, if_true]
    rw [hq]
    simp only [Option.getD_some]
    rw [hc]
    exact h1
  · intro hc
    unfold bitmap.point_word
    simp only [hb, if_false, hnx, ha, if_true]
    rw [hq]
    simp only [Option.getD_some]
    rw [hc]

/-- C24 as amended at a concrete input: a 32-bit `size_t`, the sample format with a 4-bit
alpha channel, a 5x3 bitmap whose 15 buffer bytes are 0x5F, the location (3,1) and the
half-transparent color 0xA7. -/
theorem C24_alpha_point_write_witness :
    ∃ bg, (⟨⟨5, 3⟩, 1⟩ : bitmap).point_read_word 32 la8 15
        (fun i => (0x5F : Nat).testBit (7 - i % 8)) ⟨3, 1⟩ (some 0) =
        some (gfx_result.success, some bg) ∧
      (∀ c, la8.convert_bg 0xA7 bg = some c →
        ∃ m, (⟨⟨5, 3⟩, 1⟩ : bitmap).point_word 32 la8 15
            (fun i => (0x5F : Nat).testBit (7 - i % 8)) ⟨3, 1⟩ 0xA7 =
            some (gfx_result.success, m) ∧
          (⟨⟨5, 3⟩, 1⟩ : bitmap).point_impl_word 32 la8 15
            (fun i => (0x5F : Nat).testBit (7 - i % 8)) ⟨3, 1⟩ c =
            some (gfx_result.success, m) ∧
          (∀ i, m i =
            if bitmap.offs_word 32 la8 ⟨⟨5, 3⟩, 1⟩ ⟨3, 1⟩ ≤ i ∧
                i < bitmap.offs_word 32 la8 ⟨⟨5, 3⟩, 1⟩ ⟨3, 1⟩ + la8.bit_depth then
              (decide (i - bitmap.offs_word 32 la8 ⟨⟨5, 3⟩, 1⟩ ⟨3, 1⟩ < 8 * la8.int_bytes) &&
                c.testBit (8 * la8.int_bytes - 1 -
                  (i - bitmap.offs_word 32 la8 ⟨⟨5, 3⟩, 1⟩ ⟨3, 1⟩)))
            else (fun i => (0x5F : Nat).testBit (7 - i % 8)) i) ∧
          (⟨⟨5, 3⟩, 1⟩ : bitmap).point_read_word 32 la8 15 m ⟨3, 1⟩ (some 0) =
            some (gfx_result.success, some (c &&& la8.mask))) ∧
      (la8.convert_bg 0xA7 bg = none →
        (⟨⟨5, 3⟩, 1⟩ : bitmap).point_word 32 la8 15
            (fun i => (0x5F : Nat).testBit (7 - i % 8)) ⟨3, 1⟩ 0xA7 =
          some (gfx_result.not_supported, fun i => (0x5F : Nat).testBit (7 - i % 8))) :=
  C24_alpha_point_write 32 la8 (by decide) rfl ⟨⟨5, 3⟩, 1⟩ (by decide) 15
    (fun i => (0x5F : Nat).testBit (7 - i % 8)) ⟨3, 1⟩ (by decide) (by decide) (by decide)
    (by decide) 0xA7

/-! ## C29: the blocks of the unaligned raw blit -/

/-- The unaligned branch of the raw blit with its constants named. -/
theorem helpers.copy_to_blt_unaligned (F : pixel_format) (hF : F.byte_aligned = false)
    (src : bitmap) (smem : Mem) (srcr : rect16) (dst : bitmap) (dmem : Mem) (dstr : rect16) :
    helpers.copy_to_blt F src smem srcr dst dmem dstr =
      (gfx_result.success,
        ((List.range dstr.height).foldl (fun st dy =>
          helpers.blt_row F src smem srcr dst dstr (helpers.line_block_pels F dstr)
            (helpers.buf_size F dstr) dy dstr.width 0 st)
          ⟨dmem, bits.memset_zero bits.uninit (helpers.buf_size F dstr - 1) 1⟩).mem) := by
  simp only [helpers.copy_to_blt, hF, Bool.false_eq_true, if_false, helpers.buf_size,
    helpers.line_block_bits, helpers.line_block_pels]

/-- The inner loop of the unaligned raw blit runs the body of a pass over its blocks. -/
theorem helpers.blt_row_blocks (F : pixel_format) (src : bitmap) (smem : Mem) (srcr : rect16)
    (dst : bitmap) (dstr : rect16) (lbp bs dy : Nat) (fuel dx : Nat) (st : helpers.blt_state) :
    helpers.blt_row F src smem srcr dst dstr lbp bs dy fuel dx st =
      (helpers.blt_blocks dstr.width lbp fuel dx).foldl
        (fun st blk => helpers.blt_block F src smem srcr dst dstr bs dy blk.1 blk.2 st) st := by
  induction fuel generalizing dx st with
  | zero => rfl
  | succ fuel ih =>
    simp only [helpers.blt_row, helpers.blt_blocks]
    by_cases hdx : dx < dstr.width
    · simp only [hdx, if_true]
      by_cases hb : (if lbp + dx > dstr.width then dstr.width - dx else lbp) = 0
      · simp only [hb, if_true, List.foldl_nil]
      · simp only [hb, if_false, List.foldl_cons]
        rw [ih]
        rfl
    · simp only [hdx, if_false, List.foldl_nil]

/-- From the column `dx`, with enough passes allowed, the blocks are at least one pixel
and at most `lbp` pixels long and cover the columns `dx .. width-1`. -/
theorem helpers.blt_blocks_cover (width lbp : Nat) (hl : 1 ≤ lbp) (fuel dx : Nat)
    (hdx : dx ≤ width) (hfuel : width - dx ≤ fuel) :
    (∀ blk ∈ helpers.blt_blocks width lbp fuel dx, 1 ≤ blk.2 ∧ blk.2 ≤ lbp) ∧
    ((helpers.blt_blocks width lbp fuel dx).map Prod.snd).sum = width - dx ∧
    ∀ fuel2, width - dx ≤ fuel2 →
      helpers.blt_blocks width lbp fuel2 dx = helpers.blt_blocks width lbp fuel dx := by
  induction fuel generalizing dx with
  | zero =>
    have e : dx = width := by omega
    subst e
    refine ⟨by simp [helpers.blt_blocks], by simp [helpers.blt_blocks], ?_⟩
    intro fuel2 _
    cases fuel2 <;> simp [helpers.blt_blocks]
  | succ fuel ih =>
    by_cases hlt : dx < width
    · have hbp : (if lbp + dx > width then width - dx else lbp) ≠ 0 := by
        split <;> omega
      have hle : dx + (if lbp + dx > width then width - dx else lbp) ≤ width := by
        split <;> omega
      obtain ⟨h1, h2, h3⟩ := ih (dx + (if lbp + dx > width then width - dx else lbp)) hle
        (by split <;> omega)
      have hunf : ∀ n, helpers.blt_blocks width lbp (n + 1) dx =
          (dx, if lbp + dx > width then width - dx else lbp) ::
            helpers.blt_blocks width lbp n
              (dx + (if lbp + dx > width then width - dx else lbp)) := by
        intro n
        simp only [helpers.blt_blocks, hlt, if_true, hbp, if_false]
      refine ⟨?_, ?_, ?_⟩
      · intro blk hblk
        rw [hunf] at hblk
        rcases List.mem_cons.1 hblk with hb | hb
        · rw [hb]; simp only; split <;> omega
        · exact h1 blk hb
      · rw [hunf, List.map_cons, List.sum_cons, h2]
        simp only
        split <;> omega
      · intro fuel2 hf2
        cases fuel2 with
        | zero => omega
        | succ n =>
          rw [hunf, hunf, h3 n (by split <;> omega)]
    · have e : dx = width := by omega
      subst e
      refine ⟨by simp [helpers.blt_blocks], by simp [helpers.blt_blocks], ?_⟩
      intro fuel2 _
      cases fuel2 <;> simp [helpers.blt_blocks]

/-- C29: in the unaligned branch of the raw blit, for every destination rect of width at
least 1 and every bit depth from 1 to 1024, `line_block_pels` is at least 1; when the
row is longer than 1024 bits, `line_block_bits` is at most 1024 and the scratch buffer
has at most 128 bytes; every block of a row has at least one pixel and at most
`line_block_pels`; the block lengths of a row sum to the width of the rect; and the
inner loop ends by its own condition: with the `width` passes the embedding allows, or
any larger number, it runs the body of a pass over exactly those blocks. -/
theorem C29_blt_blocks (F : pixel_format) (hd1 : 1 ≤ F.bit_depth) (hd2 : F.bit_depth ≤ 1024)
    (dstr : rect16) (hw : 1 ≤ dstr.width) :
    1 ≤ helpers.line_block_pels F dstr ∧
    (dstr.width * F.bit_depth > 1024 →
      helpers.line_block_bits F dstr ≤ 1024 ∧ helpers.buf_size F dstr ≤ 128) ∧
    (∀ blk ∈ helpers.blt_blocks dstr.width (helpers.line_block_pels F dstr) dstr.width 0,
      1 ≤ blk.2 ∧ blk.2 ≤ helpers.line_block_pels F dstr) ∧
    ((helpers.blt_blocks dstr.width (helpers.line_block_pels F dstr) dstr.width 0).map
      Prod.snd).sum = dstr.width ∧
    ∀ (src : bitmap) (smem : Mem) (srcr : rect16) (dst : bitmap) (dy fuel : Nat)
      (st : helpers.blt_state), dstr.width ≤ fuel →
      helpers.blt_row F src smem srcr dst dstr (helpers.line_block_pels F dstr)
          (helpers.buf_size F dstr) dy fuel 0 st =
        (helpers.blt_blocks dstr.width (helpers.line_block_pels F dstr) dstr.width 0).foldl
          (fun st blk => helpers.blt_block F src smem srcr dst dstr (helpers.buf_size F dstr) dy
            blk.1 blk.2 st) st := by
  have hl : 1 ≤ helpers.line_block_pels F dstr := by
    unfold helpers.line_block_pels
    split
    · exact (Nat.one_le_div_iff (by omega)).2 hd2
    · exact hw
  obtain ⟨h1, h2, h3⟩ := helpers.blt_blocks_cover dstr.width (helpers.line_block_pels F dstr) hl
    dstr.width 0 (Nat.zero_le _) (by omega)
  refine ⟨hl, ?_, h1, by simpa using h2, ?_⟩
  · intro hlong
    have hb : helpers.line_block_bits F dstr ≤ 1024 := by
      unfold helpers.line_block_bits helpers.line_block_pels
      rw [if_pos hlong]
      exact Nat.div_mul_le_self _ _
    refine ⟨hb, ?_⟩
    unfold helpers.buf_size
    omega
  · intro src smem srcr dst dy fuel st hfuel
    rw [helpers.blt_row_blocks, h3 fuel (by omega)]

/-- C29 at a concrete input: the 18-bit format and a rect of width 100, a row of 1800
bits. -/
theorem C29_blt_blocks_witness :
    helpers.blt_blocks 100 56 100 0 = [(0, 56), (56, 44)] ∧
    1 ≤ helpers.line_block_pels rgb18 ⟨0, 0, 99, 0⟩ ∧
    ((⟨0, 0, 99, 0⟩ : rect16).width * rgb18.bit_depth > 1024 →
      helpers.line_block_bits rgb18 ⟨0, 0, 99, 0⟩ ≤ 1024 ∧
      helpers.buf_size rgb18 ⟨0, 0, 99, 0⟩ ≤ 128) ∧
    (∀ blk ∈ helpers.blt_blocks (⟨0, 0, 99, 0⟩ : rect16).width
        (helpers.line_block_pels rgb18 ⟨0, 0, 99, 0⟩) (⟨0, 0, 99, 0⟩ : rect16).width 0,
      1 ≤ blk.2 ∧ blk.2 ≤ helpers.line_block_pels rgb18 ⟨0, 0, 99, 0⟩) ∧
    ((helpers.blt_blocks (⟨0, 0, 99, 0⟩ : rect16).width
      (helpers.line_block_pels rgb18 ⟨0, 0, 99, 0⟩) (⟨0, 0, 99, 0⟩ : rect16).width 0).map
      Prod.snd).sum = (⟨0, 0, 99, 0⟩ : rect16).width ∧
    ∀ (src : bitmap) (smem : Mem) (srcr : rect16) (dst : bitmap) (dy fuel : Nat)
      (st : helpers.blt_state), (⟨0, 0, 99, 0⟩ : rect16).width ≤ fuel →
      helpers.blt_row rgb18 src smem srcr dst ⟨0, 0, 99, 0⟩
          (helpers.line_block_pels rgb18 ⟨0, 0, 99, 0⟩)
          (helpers.buf_size rgb18 ⟨0, 0, 99, 0⟩) dy fuel 0 st =
        (helpers.blt_blocks (⟨0, 0, 99, 0⟩ : rect16).width
          (helpers.line_block_pels rgb18 ⟨0, 0, 99, 0⟩) (⟨0, 0, 99, 0⟩ : rect16).width 0).foldl
          (fun st blk => helpers.blt_block rgb18 src smem srcr dst ⟨0, 0, 99, 0⟩
            (helpers.buf_size rgb18 ⟨0, 0, 99, 0⟩) dy blk.1 blk.2 st) st :=
  ⟨by decide, C29_blt_blocks rgb18 (by decide) (by decide) ⟨0, 0, 99, 0⟩ (by decide)⟩

/-! ## C21: the rects handed to the copy helper -/

theorem rect16.left_eq (r : rect16) : r.left = min r.x1 r.x2 := by
  unfold rect16.left; split <;> omega

theorem rect16.right_eq (r : rect16) : r.right = max r.x1 r.x2 := by
  unfold rect16.right; split <;> omega

theorem rect16.top_eq (r : rect16) : r.top = min r.y1 r.y2 := by
  unfold rect16.top; split <;> omega

theorem rect16.bottom_eq (r : rect16) : r.bottom = max r.y1 r.y2 := by
  unfold rect16.bottom; split <;> omega

/-- The two rects along one axis: `B` is the last coordinate of the source bitmap, `a1`
and `a2` are the coordinates of the source rect, `D` is the last coordinate of the
destination bitmap and `p` the coordinate of the location.  When the source rect
cropped to the source bitmap and moved to `p` does not pass 65535, the rect of the
destination is within `0..D`, and the rect of the source has the same extent and is
within `0..B`. -/
theorem bitmap.copy_axis (B a1 a2 D p : Nat) (hB : B < 65536) (hD : D < 65536)
    (hp0 : p < 65536)
    (hp : p + (max (min a1 B) (min a2 B) - min (min a1 B) (min a2 B) + 1) % 65536 ≤ 65536) :
    (max (min (min a1 B) (min a2 B))
        ((min (min a1 B) (min a2 B) +
          (max (min p D) (min ((p + (max (min a1 B) (min a2 B) -
              min (min a1 B) (min a2 B) + 1) % 65536 + 65535) % 65536) D) -
            min (min p D) (min ((p + (max (min a1 B) (min a2 B) -
              min (min a1 B) (min a2 B) + 1) % 65536 + 65535) % 65536) D) + 1) %
            65536 + 65535) % 65536) -
      min (min (min a1 B) (min a2 B))
        ((min (min a1 B) (min a2 B) +
          (max (min p D) (min ((p + (max (min a1 B) (min a2 B) -
              min (min a1 B) (min a2 B) + 1) % 65536 + 65535) % 65536) D) -
            min (min p D) (min ((p + (max (min a1 B) (min a2 B) -
              min (min a1 B) (min a2 B) + 1) % 65536 + 65535) % 65536) D) + 1) %
            65536 + 65535) % 65536) + 1) % 65536 =
      (max (min p D) (min ((p + (max (min a1 B) (min a2 B) -
          min (min a1 B) (min a2 B) + 1) % 65536 + 65535) % 65536) D) -
        min (min p D) (min ((p + (max (min a1 B) (min a2 B) -
          min (min a1 B) (min a2 B) + 1) % 65536 + 65535) % 65536) D) + 1) % 65536 ∧
    max (min (min a1 B) (min a2 B))
        ((min (min a1 B) (min a2 B) +
          (max (min p D) (min ((p + (max (min a1 B) (min a2 B) -
              min (min a1 B) (min a2 B) + 1) % 65536 + 65535) % 65536) D) -
            min (min p D) (min ((p + (max (min a1 B) (min a2 B) -
              min (min a1 B) (min a2 B) + 1) % 65536 + 65535) % 65536) D) + 1) %
            65536 + 65535) % 65536) ≤ B ∧
    max (min p D) (min ((p + (max (min a1 B) (min a2 B) -
        min (min a1 B) (min a2 B) + 1) % 65536 + 65535) % 65536) D) ≤ D := by
  generalize hc1 : min a1 B = c1 at *
  generalize hc2 : min a2 B = c2 at *
  have f1 : c1 ≤ B := by omega
  have f2 : c2 ≤ B := by omega
  clear hc1 hc2
  generalize hsl : min c1 c2 = sl at *
  generalize hsr : max c1 c2 = sr at *
  have f3 : sl ≤ sr := by omega
  have f4 : sr ≤ B := by omega
  clear hsl hsr f1 f2
  generalize hsw : (sr - sl + 1) % 65536 = sw at *
  generalize hx2 : (p + sw + 65535) % 65536 = x2 at *
  generalize hd1 : min p D = d1 at *
  generalize hd2 : min x2 D = d2 at *
  generalize hdl : min d1 d2 = dl at *
  generalize hdr : max d1 d2 = dr at *
  have f7 : dl ≤ dr := by omega
  have f8 : dr ≤ D := by omega
  generalize hdw : (dr - dl + 1) % 65536 = dwid at *
  generalize hs2 : (sl + dwid + 65535) % 65536 = s2 at *
  omega

/-- C21, amended: for every source bitmap, every destination bitmap, every source rect
and every location, inside or outside the destination bounds, such that the cropped
source rect moved to the location does not pass the coordinate 65535: when the source rect intersects the source bounds, `copy_to` hands the rects
`copy_srcr` and `copy_dstr` to the copy helper; the two rects have equal width and equal
height, the source rect lies within the source bounds and the destination rect lies
within the destination bounds. -/
theorem C21_copy_rects (F : pixel_format) (convert : Nat → Option Nat) (src : bitmap)
    (smem : Mem) (src_rect : rect16) (dst : bitmap) (dmem : Mem) (location : point16)
    (hsb : src.m_begin ≠ 0) (hdb : dst.m_begin ≠ 0)
    (hint : src_rect.intersects src.bounds = true)
    (hx : location.x < 65536) (hy : location.y < 65536)
    (hlx : location.x + (src_rect.crop src.bounds).width ≤ 65536)
    (hly : location.y + (src_rect.crop src.bounds).height ≤ 65536) :
    src.copy_to F convert smem src_rect dst dmem location =
      (if !F.has_alpha then
        helpers.copy_to_blt F src smem (bitmap.copy_srcr src src_rect dst location) dst dmem
          (bitmap.copy_dstr src src_rect dst location)
      else
        helpers.copy_to F convert F.convert_bg src smem
          (bitmap.copy_srcr src src_rect dst location) (dst.as_destination F) dmem
          (bitmap.copy_dstr src src_rect dst location)) ∧
    (bitmap.copy_srcr src src_rect dst location).width =
      (bitmap.copy_dstr src src_rect dst location).width ∧
    (bitmap.copy_srcr src src_rect dst location).height =
      (bitmap.copy_dstr src src_rect dst location).height ∧
    (src.bounds.left ≤ (bitmap.copy_srcr src src_rect dst location).left ∧
      (bitmap.copy_srcr src src_rect dst location).right ≤ src.bounds.right ∧
      src.bounds.top ≤ (bitmap.copy_srcr src src_rect dst location).top ∧
      (bitmap.copy_srcr src src_rect dst location).bottom ≤ src.bounds.bottom) ∧
    (dst.bounds.left ≤ (bitmap.copy_dstr src src_rect dst location).left ∧
      (bitmap.copy_dstr src src_rect dst location).right ≤ dst.bounds.right ∧
      dst.bounds.top ≤ (bitmap.copy_dstr src src_rect dst location).top ∧
      (bitmap.copy_dstr src src_rect dst location).bottom ≤ dst.bounds.bottom) := by
  have hcall : src.copy_to F convert smem src_rect dst dmem location =
      (if !F.has_alpha then
        helpers.copy_to_blt F src smem (bitmap.copy_srcr src src_rect dst location) dst dmem
          (bitmap.copy_dstr src src_rect dst location)
      else
        helpers.copy_to F convert F.convert_bg src smem
          (bitmap.copy_srcr src src_rect dst location) (dst.as_destination F) dmem
          (bitmap.copy_dstr src src_rect dst location)) := by
    simp only [bitmap.copy_to, hsb, hdb, or_self, if_false, hint, Bool.not_true,
      Bool.false_eq_true]
  refine ⟨hcall, ?_⟩
  simp only [bitmap.copy_srcr, bitmap.copy_dstr, rect16.width, rect16.height, rect16.location,
    rect16.dimensions, rect16.left_eq, rect16.right_eq, rect16.top_eq, rect16.bottom_eq,
    rect16.crop, rect16.of_location, bitmap.bounds, bitmap.dimensions, u16]
    at hlx hly ⊢
  have hB : (0 + src.m_dimensions.width + 65535) % 65536 < 65536 := Nat.mod_lt _ (by decide)
  have hC : (0 + src.m_dimensions.height + 65535) % 65536 < 65536 := Nat.mod_lt _ (by decide)
  have hD : (0 + dst.m_dimensions.width + 65535) % 65536 < 65536 := Nat.mod_lt _ (by decide)
  have hE : (0 + dst.m_dimensions.height + 65535) % 65536 < 65536 := Nat.mod_lt _ (by decide)
  simp only [Nat.zero_le, min_eq_left, max_eq_right] at hlx hly ⊢
  obtain ⟨h1, h2, h3⟩ := bitmap.copy_axis ((0 + src.m_dimensions.width + 65535) % 65536)
    src_rect.x1 src_rect.x2 ((0 + dst.m_dimensions.width + 65535) % 65536) location.x hB hD hx
    hlx
  obtain ⟨h4, h5, h6⟩ := bitmap.copy_axis ((0 + src.m_dimensions.height + 65535) % 65536)
    src_rect.y1 src_rect.y2 ((0 + dst.m_dimensions.height + 65535) % 65536) location.y hC hE hy
    hly
  exact ⟨h1, h4, ⟨trivial, h2, trivial, h5⟩, ⟨trivial, h3, trivial, h6⟩⟩

/-- C21 at a concrete input: the rect (2,2)-(9,9) of a 10x10 bitmap copied to the
location (100,100), outside a 5x5 destination: both rects are one pixel. -/
theorem C21_copy_rects_witness :
    bitmap.copy_srcr ⟨⟨10, 10⟩, 1⟩ ⟨2, 2, 9, 9⟩ ⟨⟨5, 5⟩, 2⟩ ⟨100, 100⟩ = ⟨2, 2, 2, 2⟩ ∧
    bitmap.copy_dstr ⟨⟨10, 10⟩, 1⟩ ⟨2, 2, 9, 9⟩ ⟨⟨5, 5⟩, 2⟩ ⟨100, 100⟩ = ⟨4, 4, 4, 4⟩ ∧
    (bitmap.copy_srcr ⟨⟨10, 10⟩, 1⟩ ⟨2, 2, 9, 9⟩ ⟨⟨5, 5⟩, 2⟩ ⟨100, 100⟩).width =
      (bitmap.copy_dstr ⟨⟨10, 10⟩, 1⟩ ⟨2, 2, 9, 9⟩ ⟨⟨5, 5⟩, 2⟩ ⟨100, 100⟩).width ∧
    (bitmap.copy_srcr ⟨⟨10, 10⟩, 1⟩ ⟨2, 2, 9, 9⟩ ⟨⟨5, 5⟩, 2⟩ ⟨100, 100⟩).height =
      (bitmap.copy_dstr ⟨⟨10, 10⟩, 1⟩ ⟨2, 2, 9, 9⟩ ⟨⟨5, 5⟩, 2⟩ ⟨100, 100⟩).height :=
  ⟨by decide, by decide,
    (C21_copy_rects gsc8 some ⟨⟨10, 10⟩, 1⟩ bits.uninit ⟨2, 2, 9, 9⟩ ⟨⟨5, 5⟩, 2⟩ bits.uninit
      ⟨100, 100⟩ (by decide) (by decide) (by decide) (by decide) (by decide) (by decide)
      (by decide)).2.1,
    (C21_copy_rects gsc8 some ⟨⟨10, 10⟩, 1⟩ bits.uninit ⟨2, 2, 9, 9⟩ ⟨⟨5, 5⟩, 2⟩ bits.uninit
      ⟨100, 100⟩ (by decide) (by decide) (by decide) (by decide) (by decide) (by decide)
      (by decide)).2.2.1⟩

/-- C21, counterexample: a 10x1 source bitmap, its whole row as the source rect, a 100x1
destination and the location (65535,0).  The source rect intersects the source bounds.
The rect at the location is 10 wide and its far corner wraps to the column 8, so the
destination rect is (99,0)-(8,0), 92 wide and within the destination bounds, and the
source rect handed to the helper is (0,0)-(91,0): it passes the last column, 9, of the
source. -/
theorem C21_copy_rects_wrap :
    (⟨0, 0, 9, 0⟩ : rect16).intersects (⟨⟨10, 1⟩, 1⟩ : bitmap).bounds = true ∧
    rect16.of_location ⟨65535, 0⟩ ((⟨0, 0, 9, 0⟩ : rect16).crop
      (⟨⟨10, 1⟩, 1⟩ : bitmap).bounds).dimensions = ⟨65535, 0, 8, 0⟩ ∧
    bitmap.copy_dstr ⟨⟨10, 1⟩, 1⟩ ⟨0, 0, 9, 0⟩ ⟨⟨100, 1⟩, 2⟩ ⟨65535, 0⟩ = ⟨99, 0, 8, 0⟩ ∧
    bitmap.copy_srcr ⟨⟨10, 1⟩, 1⟩ ⟨0, 0, 9, 0⟩ ⟨⟨100, 1⟩, 2⟩ ⟨65535, 0⟩ = ⟨0, 0, 91, 0⟩ ∧
    (⟨⟨10, 1⟩, 1⟩ : bitmap).bounds.right = 9 ∧
    ¬ ((bitmap.copy_srcr ⟨⟨10, 1⟩, 1⟩ ⟨0, 0, 9, 0⟩ ⟨⟨100, 1⟩, 2⟩ ⟨65535, 0⟩).right ≤
      (⟨⟨10, 1⟩, 1⟩ : bitmap).bounds.right) := by
  decide

/-! ## The scratch buffer of the unaligned raw blit -/

/-- C31, the code at a failing input: for the 1-bit format, the 8x8 rect at (0,0) of a
16x16 source copied to a 16x16 destination at (4,4).  The rects handed to the raw blit
are (0,0)-(7,7) and (4,4)-(11,11); a row is one block of 8 pixels and the scratch buffer
has `buf_size` = 1 byte.  The pass of row 0 copies 2 bytes into the scratch buffer and
merges the bits 4..11 out of it, where the buffer holds the bits 0..7. -/
theorem C31_scratch_buffer_failing_input :
    bitmap.copy_srcr ⟨⟨16, 16⟩, 1⟩ ⟨0, 0, 7, 7⟩ ⟨⟨16, 16⟩, 2⟩ ⟨4, 4⟩ = ⟨0, 0, 7, 7⟩ ∧
    bitmap.copy_dstr ⟨⟨16, 16⟩, 1⟩ ⟨0, 0, 7, 7⟩ ⟨⟨16, 16⟩, 2⟩ ⟨4, 4⟩ = ⟨4, 4, 11, 11⟩ ∧
    helpers.blt_blocks (⟨4, 4, 11, 11⟩ : rect16).width
      (helpers.line_block_pels gsc1 ⟨4, 4, 11, 11⟩) (⟨4, 4, 11, 11⟩ : rect16).width 0 =
      [(0, 8)] ∧
    helpers.buf_size gsc1 ⟨4, 4, 11, 11⟩ = 1 ∧
    helpers.blt_copied_bytes gsc1 ⟨⟨16, 16⟩, 2⟩ ⟨4, 4, 11, 11⟩ 0 0 8 = 2 ∧
    helpers.blt_merged_bits gsc1 ⟨⟨16, 16⟩, 2⟩ ⟨4, 4, 11, 11⟩ 0 0 8 = 12 ∧
    ¬ (helpers.blt_copied_bytes gsc1 ⟨⟨16, 16⟩, 2⟩ ⟨4, 4, 11, 11⟩ 0 0 8 ≤
      helpers.buf_size gsc1 ⟨4, 4, 11, 11⟩) ∧
    ¬ (helpers.blt_merged_bits gsc1 ⟨⟨16, 16⟩, 2⟩ ⟨4, 4, 11, 11⟩ 0 0 8 ≤
      8 * helpers.buf_size gsc1 ⟨4, 4, 11, 11⟩) := by
  decide

/-! ## Large bitmap: the indices of the segment array and the segment height -/

/-- C32, the code at a failing input.  A 4x6 large bitmap of the 8-bit format with
segment height 2 is initialized and has 3 segments.  For the rect (0,2)-(3,5), inside
its bounds and starting in segment 1, `fill` subscripts the segment array with 1, 1, 2
and 3.  For a 4x4 large bitmap of 2 segments and the rect (0,0)-(3,9), whose bottom edge
lies below the bitmap, `fill` subscripts the segment array with 0, 1 and 2. -/
theorem C32_segment_index_failing_input :
    (⟨⟨4, 6⟩, 2, some [⟨⟨4, 2⟩, 1⟩, ⟨⟨4, 2⟩, 2⟩, ⟨⟨4, 2⟩, 3⟩]⟩ : large_bitmap).initialized = true ∧
    (⟨⟨4, 6⟩, 2, some [⟨⟨4, 2⟩, 1⟩, ⟨⟨4, 2⟩, 2⟩, ⟨⟨4, 2⟩, 3⟩]⟩ : large_bitmap).segment_count = 3 ∧
    (⟨0, 2, 3, 5⟩ : rect16).intersects
      (⟨⟨4, 6⟩, 2, some [⟨⟨4, 2⟩, 1⟩, ⟨⟨4, 2⟩, 2⟩, ⟨⟨4, 2⟩, 3⟩]⟩ : large_bitmap).bounds = true ∧
    ((large_bitmap.fill_traced gsc8 ⟨⟨4, 6⟩, 2, some [⟨⟨4, 2⟩, 1⟩, ⟨⟨4, 2⟩, 2⟩, ⟨⟨4, 2⟩, 3⟩]⟩
      (fun _ => bits.uninit) ⟨0, 2, 3, 5⟩ 0xFF).2.2.map large_bitmap.fill_call.index) =
      [1, 1, 2, 3] ∧
    (⟨⟨4, 4⟩, 2, some [⟨⟨4, 2⟩, 1⟩, ⟨⟨4, 2⟩, 2⟩]⟩ : large_bitmap).segment_count = 2 ∧
    (⟨0, 0, 3, 9⟩ : rect16).intersects
      (⟨⟨4, 4⟩, 2, some [⟨⟨4, 2⟩, 1⟩, ⟨⟨4, 2⟩, 2⟩]⟩ : large_bitmap).bounds = true ∧
    ((large_bitmap.fill_traced gsc8 ⟨⟨4, 4⟩, 2, some [⟨⟨4, 2⟩, 1⟩, ⟨⟨4, 2⟩, 2⟩]⟩
      (fun _ => bits.uninit) ⟨0, 0, 3, 9⟩ 0xFF).2.2.map large_bitmap.fill_call.index) =
      [0, 1, 2] := by
  decide

/-- The segment height the constructor settles on: the requested one, 1 in place of 0,
and at most the height. -/
theorem large_bitmap.construct_segment_height (F : pixel_format) (dimensions : size16)
    (segment_height : Nat) (allocate : Nat → Nat → Nat) (raw : Nat → bitmap) :
    (large_bitmap.construct F dimensions segment_height allocate raw).object.m_segment_height =
      if (if segment_height = 0 then 1 else segment_height) > dimensions.height then
        dimensions.height
      else (if segment_height = 0 then 1 else segment_height) := by
  simp only [large_bitmap.construct]
  split_ifs <;> first | rfl | (split <;> rfl)

/-- For a height of at least 1 the segment height the constructor settles on is at
least 1. -/
theorem large_bitmap.construct_segment_height_pos (F : pixel_format) (dimensions : size16)
    (segment_height : Nat) (allocate : Nat → Nat → Nat) (raw : Nat → bitmap)
    (h : 1 ≤ dimensions.height) :
    1 ≤ (large_bitmap.construct F dimensions segment_height allocate raw).object.m_segment_height := by
  rw [large_bitmap.construct_segment_height]
  split <;> split <;> omega

/-- C33, the code at a failing input: for the dimensions 4x0 the constructor settles on
the segment height 0, for the requested segment height 2 and for the requested segment
height 0 (which it first replaces by 1). -/
theorem C33_segment_height_failing_input :
    (large_bitmap.construct gsc8 ⟨4, 0⟩ 2 (fun k _ => 100 + k)
      (fun _ => ⟨⟨0, 0⟩, 0⟩)).object.m_segment_height = 0 ∧
    (large_bitmap.construct gsc8 ⟨4, 0⟩ 0 (fun k _ => 100 + k)
      (fun _ => ⟨⟨0, 0⟩, 0⟩)).object.m_segment_height = 0 := by
  decide

/-! ## The ST7735 driver: dimensions -/

/-- C34, the code at a failing input: for the green tab and rotation 0, `native_width`
is 128 and `native_height` is 160, and `dimensions()` is 160x128: its width is the
native height and is greater than its height.  The same holds in rotation 2 and for the
black, the mini 160x80 (160x80) and the hallowing tab.  In the rotations 1 and 3
`dimensions()` is the native width by the native height. -/
theorem C34_dimensions_failing_input :
    arduino.st7735.native_width arduino.st7735_flags.green 0 = 128 ∧
    arduino.st7735.native_height arduino.st7735_flags.green 0 = 160 ∧
    arduino.st7735.dimensions arduino.st7735_flags.green 0 = ⟨160, 128⟩ ∧
    ¬ ((arduino.st7735.dimensions arduino.st7735_flags.green 0).width ≤
      (arduino.st7735.dimensions arduino.st7735_flags.green 0).height) ∧
    arduino.st7735.dimensions arduino.st7735_flags.green 2 = ⟨160, 128⟩ ∧
    arduino.st7735.dimensions arduino.st7735_flags.black 0 = ⟨160, 128⟩ ∧
    arduino.st7735.native_width arduino.st7735_flags.mini_160x80 0 = 80 ∧
    arduino.st7735.dimensions arduino.st7735_flags.mini_160x80 0 = ⟨160, 80⟩ ∧
    arduino.st7735.dimensions arduino.st7735_flags.hallowing 0 = ⟨160, 128⟩ ∧
    arduino.st7735.dimensions arduino.st7735_flags.green 1 =
      ⟨arduino.st7735.native_width arduino.st7735_flags.green 1,
        arduino.st7735.native_height arduino.st7735_flags.green 1⟩ ∧
    arduino.st7735.dimensions arduino.st7735_flags.green 3 =
      ⟨arduino.st7735.native_width arduino.st7735_flags.green 3,
        arduino.st7735.native_height arduino.st7735_flags.green 3⟩ := by
  decide

end gfx
